import Mathlib

/-!
# PNX49xx RAM dumper: the protocol engine of `src/main.c`

A shallow embedding of `ram_dump` (handshake, the two run-length region loops
and the final exchange) as a trace semantics, and of the option loop and the
body of `main`.  A run of a piece of the program is the list of observable
events it performs, in order, together with the way it ends.  Machine integers
are `Nat`/`Int` with explicit reduction modulo `2^32`; bytes are `Fin 256`.

Modelling conventions, all taken from the source:

* the device is the finite list of bytes it will ever send; a `read` that
  needs more bytes than are left never returns (`Outcome.blocked`);
* `read(serial_fd, p, n)` delivers the `n` requested bytes (the frame reads
  loop until they have 5 bytes, the handshake reads assume it);
* the host is little-endian, so a 4-byte `read` into a 32-bit object yields
  the little-endian value, and `write(serial_fd, &x, 1)` of a 32-bit `x`
  sends its low 8 bits;
* `int` arithmetic wraps in two's complement, `>>` on a negative `int` is the
  arithmetic shift;
* `total_read` is an `int` that is only ever compared with the `uint32_t`
  `read_length`, so it is converted to unsigned: it is kept as its unsigned
  32-bit value;
* the loops that have no bound of their own take a `fuel` argument and end
  with `Outcome.spin` when it runs out;
* `printf`, `usleep` and the terminal setup have no effect on the protocol
  and are left out;
* `main` is run on the sequence of results of `getopt_long`, each with its
  `optarg` already converted (`atoi`, `atol`, `strdup`); `baud_i & ~3` is the
  bitwise and of two's-complement integers.
-/

set_option maxRecDepth 8192

namespace PNX

/-- One octet on the wire or in a file. -/
abbrev Byte := Fin 256

/-- The two output files of `ram_dump`. -/
inductive Sink where
  | dump_fd
  | vectors_dump_fd
  deriving DecidableEq

/-- Observable actions of `ram_dump`, in program order. -/
inductive Event where
  /-- `write(serial_fd, &x, 1)`: one byte sent to the device. -/
  | write (b : Byte)
  /-- A completed `read(serial_fd, ...)` with the bytes it delivered. -/
  | read (bs : List Byte)
  /-- `fwrite(data, 1, 4, fd)`. -/
  | fwrite (fd : Sink) (bs : List Byte)
  /-- An assignment to `total_read`, with the value assigned. -/
  | progress (v : Nat)
  /-- `cfsetispeed`/`cfsetospeed`/`tcsetattr` with `baudrate_table[idx]`. -/
  | speed (idx : Int)
  /-- `close(serial_fd)`. -/
  | close
  deriving DecidableEq

/-- How a piece of the program ends. -/
inductive Outcome (α : Type) where
  /-- Control reaches the next statement, with the live variables `a`. -/
  | next (a : α)
  /-- A `return code;` of `ram_dump` was executed. -/
  | ret (code : Int)
  /-- A `read` waits for bytes the device never sends. -/
  | blocked
  /-- The fuel of an unbounded loop ran out. -/
  | spin
  deriving DecidableEq

/-- A run: what was done, and how it ended. -/
structure Run (α : Type) where
  trace : List Event
  out : Outcome α
  deriving DecidableEq

/-- Sequencing: the events of the first run, then those of the rest when the first
run falls through. -/
def Run.bind {α β : Type} (r : Run α) (k : α → Run β) : Run β :=
  match r.out with
  | .next a => ⟨r.trace ++ (k a).trace, (k a).out⟩
  | .ret c => ⟨r.trace, .ret c⟩
  | .blocked => ⟨r.trace, .blocked⟩
  | .spin => ⟨r.trace, .spin⟩

instance : Monad Run where
  pure a := ⟨[], .next a⟩
  bind := Run.bind

/-- Perform one event. -/
def emit (e : Event) : Run Unit := ⟨[e], .next ()⟩

/-- The statement `return code;`. -/
def ret {α : Type} (code : Int) : Run α := ⟨[], .ret code⟩

/-- The value `'w'` of an accepted checksum. -/
def statusOk : Byte := 0x77

/-- The value `'D'` of a rejected checksum. -/
def statusDesync : Byte := 0x44

/-- Two's-complement wrap of a mathematical integer into `int`. -/
def wrapInt32 (x : Int) : Int := (x + 2 ^ 31) % 2 ^ 32 - 2 ^ 31

/-- Reduction of a natural number to an unsigned 32-bit value. -/
def wrapU32 (n : Nat) : Nat := n % 2 ^ 32

/-- The byte sent by `write(serial_fd, &checksum, 1)`: the low 8 bits. -/
def lowByte (x : Int) : Byte := Fin.ofNat (x % 256).toNat

/-- The array `uint8_t data[5]` after a frame was read into it. -/
structure Frame where
  d0 : Byte
  d1 : Byte
  d2 : Byte
  d3 : Byte
  d4 : Byte
  deriving DecidableEq

/-- The 4 bytes `fwrite(data, 1, 4, fd)` writes. -/
def Frame.payload (f : Frame) : List Byte := [f.d0, f.d1, f.d2, f.d3]

/-- The 5 bytes of a frame as they travel on the wire. -/
def Frame.bytes (f : Frame) : List Byte := [f.d0, f.d1, f.d2, f.d3, f.d4]

/-- The value `*data + data[1] + data[2] + data[3] + data[4]`. -/
def Frame.sum (f : Frame) : Nat := f.d0.val + f.d1.val + f.d2.val + f.d3.val + f.d4.val

/-- The call `read(serial_fd, &b, 1)`: the byte and the rest of the stream. -/
def readByte : List Byte → Run (Byte × List Byte)
  | [] => ⟨[], .blocked⟩
  | b :: rest => ⟨[.read [b]], .next (b, rest)⟩

/-- The call `read(serial_fd, p, n)` delivering `n` bytes. -/
def readN (n : Nat) (input : List Byte) : Run (List Byte × List Byte) :=
  if n ≤ input.length then ⟨[.read (input.take n)], .next (input.take n, input.drop n)⟩
  else ⟨[], .blocked⟩

/-- The loop `n_read = 0; do { n_read += read(..., 5 - n_read); } while(n_read < 5);`
filling `data`. -/
def readFrame : List Byte → Run (Frame × List Byte)
  | d0 :: d1 :: d2 :: d3 :: d4 :: rest =>
    ⟨[.read [d0, d1, d2, d3, d4]], .next (⟨d0, d1, d2, d3, d4⟩, rest)⟩
  | _ => ⟨[], .blocked⟩

/-- The terminal-frame loop
`do { fwrite(data, 1, 4, fd); } while((total_read += 4) < read_length);`
started with `total_read`; the result is the final `total_read`. -/
def flush (fd : Sink) (f : Frame) (read_length : Nat) : Nat → Nat → Run Nat
  | 0, _ => ⟨[], .spin⟩
  | fuel + 1, total_read => do
    emit (.fwrite fd f.payload)
    let t := wrapU32 (total_read + 4)
    emit (.progress t)
    if t < read_length then flush fd f read_length fuel t else pure t

/-- The loop `for(int n = 0; n < data[4]; n++) { fwrite(data, 1, 4, fd); total_read += 4; }`
with `k` iterations left. -/
def repeatWrite (fd : Sink) (f : Frame) : Nat → Nat → Run Nat
  | 0, total_read => pure total_read
  | k + 1, total_read => do
    emit (.fwrite fd f.payload)
    let t := wrapU32 (total_read + 4)
    emit (.progress t)
    repeatWrite fd f k t

/-- The `if(!data[4]) { ...; break; } else { ... }` of the frame loop: the new
`total_read`, and whether the `break` was taken. -/
def frameStep (fd : Sink) (read_length fuel : Nat) (f : Frame) (total_read : Nat) :
    Run (Nat × Bool) :=
  if f.d4 = 0 then do
    let t ← flush fd f read_length fuel total_read
    pure (t, true)
  else do
    let t ← repeatWrite fd f f.d4.val total_read
    pure (t, false)

/-- The variables that live across the frame loop. -/
structure BatchState where
  input : List Byte
  checksum : Int
  total_read : Nat
  deriving DecidableEq

/-- Number of iterations of `for(int i = 0; i < 0x1f40; i += 5)` when no `break` is taken. -/
def frameSlots : Nat := (0x1f40 + 4) / 5

/-- The loop `for(int i = 0; i < 0x1f40; i += 5) { read frame; checksum += ...; step }`
with `slots` iterations left. -/
def frameLoop (fd : Sink) (read_length fuel : Nat) : Nat → BatchState → Run BatchState
  | 0, st => pure st
  | slots + 1, st => do
    let (f, rest) ← readFrame st.input
    let checksum := wrapInt32 (st.checksum + f.sum)
    let (t, brk) ← frameStep fd read_length fuel f st.total_read
    if brk then pure ⟨rest, checksum, t⟩
    else frameLoop fd read_length fuel slots ⟨rest, checksum, t⟩

/-- The `switch(b)` after a checksum was sent: `'w'` falls through, `'D'` closes and
returns `'D'`, anything else closes and returns 1. -/
def checkStatus (b : Byte) : Run Unit :=
  if b = statusOk then pure ()
  else if b = statusDesync then do emit .close; ret 68
  else do emit .close; ret 1

/-- One iteration of the outer `do { ... } while(total_read < read_length);` of a
region: the frame loop, the checksum byte, the status byte. -/
def batch (fd : Sink) (read_length fuel : Nat) (input : List Byte) (total_read : Nat) :
    Run (List Byte × Nat) := do
  let st ← frameLoop fd read_length fuel frameSlots ⟨input, 0, total_read⟩
  emit (.write (lowByte st.checksum))
  let (b, rest) ← readByte st.input
  checkStatus b
  pure (rest, st.total_read)

/-- The loop `do { batch } while(total_read < read_length);`. -/
def regionLoop (fd : Sink) (read_length : Nat) : Nat → List Byte → Nat → Run (List Byte × Nat)
  | 0, _, _ => ⟨[], .spin⟩
  | fuel + 1, input, total_read => do
    let (rest, t) ← batch fd read_length fuel input total_read
    if t < read_length then regionLoop fd read_length fuel rest t else pure (rest, t)

/-- A whole region: `total_read = 0;` followed by the batch loop. -/
def region (fd : Sink) (read_length fuel : Nat) (input : List Byte) : Run (List Byte × Nat) := do
  emit (.progress 0)
  regionLoop fd read_length fuel input 0

/-- A little-endian 32-bit scalar from its 4 bytes. -/
def le32 (b0 b1 b2 b3 : Byte) : Nat :=
  b0.val + 256 * b1.val + 65536 * b2.val + 16777216 * b3.val

/-- The 32 bits `v` read as an `int`. -/
def toInt32 (v : Nat) : Int := if v < 2 ^ 31 then (v : Int) else (v : Int) - 2 ^ 32

/-- The 4 bytes of a 32-bit scalar, in the order they travel on the wire. -/
structure Word where
  b0 : Byte
  b1 : Byte
  b2 : Byte
  b3 : Byte
  deriving DecidableEq

/-- The 4 bytes of a scalar as a list. -/
def Word.bytes (w : Word) : List Byte := [w.b0, w.b1, w.b2, w.b3]

/-- The unsigned 32-bit value a little-endian host reads from the 4 bytes. -/
def Word.val (w : Word) : Nat := le32 w.b0 w.b1 w.b2 w.b3

/-- The call `read(serial_fd, &x, 4)` into a 32-bit object: the unsigned value of the 4 bytes. -/
def readWord : List Byte → Run (Nat × List Byte)
  | b0 :: b1 :: b2 :: b3 :: rest => ⟨[.read [b0, b1, b2, b3]], .next (le32 b0 b1 b2 b3, rest)⟩
  | _ => ⟨[], .blocked⟩

/-- The expression `error_code + (error_code >> 8) + (error_code >> 16) + (error_code >> 24)`
on the `int error_code`, assigned to the `int checksum`. -/
def checksumInt (e : Int) : Int :=
  wrapInt32 (e + (e >>> (8 : Nat)) + (e >>> (16 : Nat)) + (e >>> (24 : Nat)))

/-- The expression `x + (x >> 8) + (x >> 16) + (x >> 24)` on a `uint32_t x`, assigned to the
`int checksum`. -/
def checksumU32 (v : Nat) : Int := toInt32 (wrapU32 (v + (v >>> 8) + (v >>> 16) + (v >>> 24)))

/-- The value of `vername[i]`, a plain `char`, promoted to `int`; `charSigned` says whether
plain `char` is signed on the host. -/
def charVal (charSigned : Bool) (b : Byte) : Int :=
  if charSigned ∧ 128 ≤ b.val then (b.val : Int) - 256 else (b.val : Int)

/-- The loop `for(int i = 0; i < 15; i++) checksum += vername[i];`. -/
def addChars (charSigned : Bool) : Int → List Byte → Int
  | checksum, [] => checksum
  | checksum, c :: cs => addChars charSigned (wrapInt32 (checksum + charVal charSigned c)) cs

/-- What the handshake leaves in the variables of `ram_dump`. -/
structure Negotiated where
  error_code : Int
  vername : List Byte
  read_address : Nat
  read_length : Nat
  deriving DecidableEq

/-- Lines 86 to 179 of `ram_dump`: baud selection, error code and version, start address,
region length. `baud` is the global of that name. -/
def handshake (charSigned : Bool) (baud : Int) (input : List Byte) :
    Run (Negotiated × List Byte) := do
  emit (.write (lowByte baud))
  let (b, input) ← readByte input
  if b ≠ 0x11 then ret 1
  emit (.speed (baud - 0xab))
  emit (.write 0xab)
  let (_, input) ← readByte input
  let (e, input) ← readWord input
  let error_code := toInt32 e
  let checksum := checksumInt error_code
  let (vername, input) ← readN 15 input
  let checksum := addChars charSigned checksum vername
  emit (.write (lowByte checksum))
  let (b, input) ← readByte input
  checkStatus b
  let (read_address, input) ← readWord input
  let checksum := checksumU32 read_address
  emit (.write (lowByte checksum))
  let (b, input) ← readByte input
  checkStatus b
  let (read_length, input) ← readWord input
  let checksum := checksumU32 read_length
  emit (.write (lowByte checksum))
  let (b, input) ← readByte input
  checkStatus b
  pure (⟨error_code, vername, read_address, read_length⟩, input)

/-- Lines 292 to 318 of `ram_dump`: the final frame, its checksum, the last status byte. -/
def finish (input : List Byte) : Run Unit := do
  let (f, input) ← readFrame input
  let checksum : Int := f.sum
  emit (.write (lowByte checksum))
  let (b, _) ← readByte input
  checkStatus b
  emit .close
  ret 0

/-- The function `ram_dump`. The device is `none` when `open` fails, and otherwise the bytes
it sends. -/
def ram_dump (charSigned : Bool) (baud : Int) (fuel : Nat) : Option (List Byte) → Run Unit
  | none => ret 2
  | some input => do
    let (neg, input) ← handshake charSigned baud input
    let (input, _) ← region .dump_fd neg.read_length fuel input
    let (input, _) ← region .vectors_dump_fd 0x2000 fuel input
    finish input

/-! ## Observations on traces -/

/-- The bytes appended to the file `fd`. -/
def sinkBytes (fd : Sink) : List Event → List Byte
  | [] => []
  | .fwrite fd1 bs :: es => if fd1 = fd then bs ++ sinkBytes fd es else sinkBytes fd es
  | _ :: es => sinkBytes fd es

/-- The successive values taken by `total_read`. -/
def progressTrace : List Event → List Nat
  | [] => []
  | .progress v :: es => v :: progressTrace es
  | _ :: es => progressTrace es

/-- The bytes sent to the device. -/
def sentBytes : List Event → List Byte
  | [] => []
  | .write b :: es => b :: sentBytes es
  | _ :: es => sentBytes es

/-- The bytes received from the device. -/
def receivedBytes : List Event → List Byte
  | [] => []
  | .read bs :: es => bs ++ receivedBytes es
  | _ :: es => receivedBytes es

/-- How many times `close(serial_fd)` was called. -/
def closeCount : List Event → Nat
  | [] => 0
  | .close :: es => closeCount es + 1
  | _ :: es => closeCount es

/-- The sum of the values of a list of bytes. -/
def byteSum : List Byte → Nat
  | [] => 0
  | b :: bs => b.val + byteSum bs

/-- What a device sends during a handshake that the host accepts at every step: the reply
`0x11`, the reply `r` to the acknowledgment, the error code, the 15-byte version string and
`'w'`, the start address and `'w'`, the region length and `'w'`. -/
def handshakeWire (r : Byte) (e : Word) (v : List Byte) (a l : Word) : List Byte :=
  0x11 :: r :: e.bytes ++ v ++ statusOk :: a.bytes ++ statusOk :: l.bytes ++ [statusOk]

/-- The run-length reference decoder: the payload of each frame, repeated as many times as
its count byte says. -/
def expand : List Frame → List Byte
  | [] => []
  | f :: fs => (List.replicate f.d4.val f.payload).flatten ++ expand fs

/-- The sum of the count bytes of a list of frames. -/
def runTotal : List Frame → Nat
  | [] => 0
  | f :: fs => f.d4.val + runTotal fs

/-- What a device sends for one region when every batch is accepted: the frames `fs` in order,
then the terminal frame `t`, with the status byte `'w'` after every batch, that is after each
full run of `frameSlots` frames and after the terminal frame. `slots` is the number of frames
the current batch can still take. -/
def wire : Nat → List Frame → Frame → List Byte
  | slots, [], t => (if slots = 0 then [statusOk] else []) ++ t.bytes ++ [statusOk]
  | slots, f :: fs, t =>
    if slots = 0 then statusOk :: f.bytes ++ wire (frameSlots - 1) fs t
    else f.bytes ++ wire (slots - 1) fs t

/-- The values `total_read` takes during the run `r` started at `p` never decrease, and when
the run falls through they end at `q a`, where `a` is its result. -/
def Climbs {α : Type} (p : Nat) (r : Run α) (q : α → Nat) : Prop :=
  List.Pairwise (fun x y => x ≤ y) (progressTrace r.trace) ∧
  (∀ v ∈ progressTrace r.trace, p ≤ v) ∧
  (∀ a, r.out = .next a → p ≤ q a ∧ ∀ v ∈ progressTrace r.trace, v ≤ q a)

/-- The events `tr` append exactly `bytes` to the file `fd`, nothing to the other file, and
keep `total_read` at or below `L`. -/
def Fills (fd : Sink) (L : Nat) (tr : List Event) (bytes : List Byte) : Prop :=
  sinkBytes fd tr = bytes ∧ (∀ fd1, fd1 ≠ fd → sinkBytes fd1 tr = []) ∧
  ∀ v ∈ progressTrace tr, v ≤ L

/-- The bytes received during the run `r` are an initial part of the stream `input`, and when
the run falls through with result `a` what is left unread is `g a`. -/
def Consumes {α : Type} (input : List Byte) (r : Run α) (g : α → List Byte) : Prop :=
  (∃ rest, input = receivedBytes r.trace ++ rest) ∧
  ∀ a, r.out = .next a → input = receivedBytes r.trace ++ g a

/-- The run `r` has not closed the transport if it falls through, and has closed it exactly
once if it executed a `return`. -/
def Tidy {α : Type} (r : Run α) : Prop :=
  (∀ a, r.out = .next a → closeCount r.trace = 0) ∧
  (∀ c, r.out = .ret c → closeCount r.trace = 1)

/-- The code `ram_dump` returns when a status byte other than `'w'` arrives: `'D'` (68) for
`'D'`, 1 for anything else. -/
def abortCode (b : Byte) : Int := if b = statusDesync then 68 else 1

/-- Every `return` the run `r` can execute carries the code 1 or the code `'D'` (68). -/
def Aborts {α : Type} (r : Run α) : Prop := ∀ c, r.out = .ret c → c = 1 ∨ c = 68

/-- The events of `k` iterations of "write the payload, add 4 to `total_read`" from
`total_read = p`. -/
def burst (fd : Sink) (f : Frame) : Nat → Nat → List Event
  | 0, _ => []
  | k + 1, p =>
    .fwrite fd f.payload :: .progress (wrapU32 (p + 4)) :: burst fd f k (wrapU32 (p + 4))

/-- The events `tr`, run when `n` bytes had been written to the file `fd` since the region
began, keep `total_read` in step with the file: every `fwrite` to `fd` adds 4 bytes, and every
assignment to `total_read` stores the number of bytes written so far, reduced to 32 bits. -/
def tracks (fd : Sink) : Nat → List Event → Prop
  | _, [] => True
  | n, .fwrite fd1 bs :: es =>
    if fd1 = fd then bs.length = 4 ∧ tracks fd (n + 4) es else tracks fd n es
  | n, .progress v :: es => v = wrapU32 n ∧ tracks fd n es
  | n, .write _ :: es => tracks fd n es
  | n, .read _ :: es => tracks fd n es
  | n, .speed _ :: es => tracks fd n es
  | n, .close :: es => tracks fd n es

/-- The run `r`, started when `n` bytes had been written to `fd`, keeps `total_read` in step
with the file, and when it falls through with result `a` the value `q a` of `total_read` is
the number of bytes written by then, reduced to 32 bits. -/
def Counts {α : Type} (fd : Sink) (n : Nat) (r : Run α) (q : α → Nat) : Prop :=
  tracks fd n r.trace ∧
  ∀ a, r.out = .next a → q a = wrapU32 (n + (sinkBytes fd r.trace).length)

/-- The frames read during the events `tr`: the 5-byte reads, which only the loop filling
`data` performs. -/
def framesOf : List Event → List Frame
  | [] => []
  | .read [d0, d1, d2, d3, d4] :: es => ⟨d0, d1, d2, d3, d4⟩ :: framesOf es
  | _ :: es => framesOf es

/-- The globals of `main.c` that the options set: `serial_device`, `blk_delay`, `baud` and
`verbose`. -/
structure Globals where
  serial_device : String
  blk_delay : Int
  baud : Int
  verbose : Bool
  deriving DecidableEq

/-- The initial values of the globals. -/
def defaults : Globals := ⟨"/dev/ttyUSB0", 0, 0xab, false⟩

/-- One result of `getopt_long`, named by the character it returns, with `optarg` already
converted by `strdup`, `atol` or `atoi`; `unknown` is anything the `switch` of `main` sends to
`default`. -/
inductive Opt where
  | h
  | d (optarg : String)
  | D (delay : Int)
  | b (baud_i : Int)
  | v
  | unknown
  deriving DecidableEq

/-- The loop `while((c = getopt_long(...)) != -1) { switch(c) { ... } }` of `main` over the
options still to come: the globals when the loop ends, or the code of a `return` inside it.
The test `baud_i & ~3` is the bitwise and of two's-complement integers. -/
def optLoop : List Opt → Globals → Except Int Globals
  | [], g => .ok g
  | .h :: _, _ => .error 0
  | .d optarg :: os, g => optLoop os { g with serial_device := optarg }
  | .D delay :: os, g => optLoop os { g with blk_delay := delay }
  | .b baud_i :: os, g =>
    if Int.land baud_i (~~~ 3) ≠ 0 then .error 1
    else optLoop os { g with baud := 0xab + baud_i }
  | .v :: os, g => optLoop os { g with verbose := true }
  | .unknown :: _, _ => .error 1

/-- What `main` does to the outside world after parsing: it opens the two output files, calls
`ram_dump`, which opens the transport, and closes the files. -/
inductive Action where
  | fopen (fd : Sink)
  | call_ram_dump (baud : Int)
  | fclose (fd : Sink)
  deriving DecidableEq

/-- What `main` depends on: the options on the command line, whether each `fopen` succeeds,
the device behind the serial port, the value of `errno` after a failed `open`, and the two
parameters of the model of `ram_dump`. -/
structure Host where
  opts : List Opt
  dump_opens : Bool
  vectors_opens : Bool
  device : Option (List Byte)
  errno : Int
  charSigned : Bool
  fuel : Nat

/-- The `switch(ram_dump(dump_fd, vectors_dump_fd))` of `main`, on a `status` that starts
at 0. -/
def exitStatus (errno code : Int) : Int :=
  if code = 0 then 0
  else if code = 1 then 1
  else if code = 2 then errno
  else if code = 68 then 1
  else 0

/-- The function `main`: its actions on the outside world and its exit status, `none` when
`ram_dump` does not return. -/
def main (w : Host) : List Action × Option Int :=
  match optLoop w.opts defaults with
  | .error code => ([], some code)
  | .ok g =>
    if ¬ w.dump_opens then ([.fopen .dump_fd], some 1)
    else if ¬ w.vectors_opens then ([.fopen .dump_fd, .fopen .vectors_dump_fd], some 1)
    else
      match (ram_dump w.charSigned g.baud w.fuel w.device).out with
      | .ret code =>
        ([.fopen .dump_fd, .fopen .vectors_dump_fd, .call_ram_dump g.baud,
          .fclose .dump_fd, .fclose .vectors_dump_fd], some (exitStatus w.errno code))
      | _ => ([.fopen .dump_fd, .fopen .vectors_dump_fd, .call_ram_dump g.baud], none)

/-- The bytes of a list of frames as they travel on the wire, one frame after the other. -/
def frameBytes : List Frame → List Byte
  | [] => []
  | f :: fs => f.bytes ++ frameBytes fs

/-- The head of the loop `do { batch } while(total_read < read_length);` after `k` more
batches that were all accepted and left `total_read` below `read_length`: the events of these
batches, and the fuel, the unread stream and `total_read` at that point; `none` if one of the
`k` batches does not end that way. -/
def loopHead (fd : Sink) (read_length : Nat) :
    Nat → Nat → List Byte → Nat → Option (List Event × Nat × List Byte × Nat)
  | 0, fuel, input, total_read => some ([], fuel, input, total_read)
  | _ + 1, 0, _, _ => none
  | k + 1, fuel + 1, input, total_read =>
    match (batch fd read_length fuel input total_read).out with
    | .next (rest, t) =>
      if t < read_length then
        (loopHead fd read_length k fuel rest t).map
          (fun x => ((batch fd read_length fuel input total_read).trace ++ x.1, x.2))
      else none
    | _ => none

/-! ## Basic facts about runs and machine arithmetic -/

theorem run_pure_def {α : Type} (a : α) : (pure a : Run α) = ⟨[], .next a⟩ := rfl

theorem run_bind_def {α β : Type} (r : Run α) (k : α → Run β) : r >>= k = Run.bind r k := rfl

theorem wrapU32_of_lt {n : Nat} (h : n < 2 ^ 32) : wrapU32 n = n := Nat.mod_eq_of_lt h

theorem wrapU32_add_wrapU32 (a b : Nat) : wrapU32 (wrapU32 a + b) = wrapU32 (a + b) := by
  unfold wrapU32
  omega

theorem lowByte_val (x : Int) : (lowByte x).val = (x % 256).toNat := by
  have h0 : 0 ≤ x % 256 := Int.emod_nonneg _ (by decide)
  have h1 : x % 256 < 256 := Int.emod_lt_of_pos _ (by decide)
  simp only [lowByte, Fin.ofNat, Fin.val_mk]
  omega

theorem wrapInt32_emod (x : Int) : wrapInt32 x % 256 = x % 256 := by
  unfold wrapInt32
  omega

/-! ## Observations distribute over concatenation -/

theorem sinkBytes_append (fd : Sink) (xs ys : List Event) :
    sinkBytes fd (xs ++ ys) = sinkBytes fd xs ++ sinkBytes fd ys := by
  induction xs with
  | nil => rfl
  | cons e es ih =>
    cases e with
    | fwrite fd1 bs =>
      simp only [List.cons_append, sinkBytes]
      split <;> simp [ih]
    | _ => simp [sinkBytes, ih]

theorem progressTrace_append (xs ys : List Event) :
    progressTrace (xs ++ ys) = progressTrace xs ++ progressTrace ys := by
  induction xs with
  | nil => rfl
  | cons e es ih => cases e <;> simp [progressTrace, ih]

theorem sentBytes_append (xs ys : List Event) :
    sentBytes (xs ++ ys) = sentBytes xs ++ sentBytes ys := by
  induction xs with
  | nil => rfl
  | cons e es ih => cases e <;> simp [sentBytes, ih]

theorem receivedBytes_append (xs ys : List Event) :
    receivedBytes (xs ++ ys) = receivedBytes xs ++ receivedBytes ys := by
  induction xs with
  | nil => rfl
  | cons e es ih => cases e <;> simp [receivedBytes, ih]

theorem closeCount_append (xs ys : List Event) :
    closeCount (xs ++ ys) = closeCount xs + closeCount ys := by
  induction xs with
  | nil => simp [closeCount]
  | cons e es ih =>
    cases e with
    | close => simp [closeCount, ih]; omega
    | _ => simp [closeCount, ih]

theorem byteSum_append (xs ys : List Byte) : byteSum (xs ++ ys) = byteSum xs + byteSum ys := by
  induction xs with
  | nil => simp [byteSum]
  | cons b bs ih => simp [byteSum, ih]; omega

/-! ## The two inner loops in closed form -/

theorem sinkBytes_burst (fd : Sink) (f : Frame) :
    ∀ (k p : Nat), sinkBytes fd (burst fd f k p) = (List.replicate k f.payload).flatten := by
  intro k
  induction k with
  | zero => intro p; rfl
  | succ k ih => intro p; simp [burst, sinkBytes, ih, List.replicate_succ]

theorem sinkBytes_burst_other (fd fd1 : Sink) (f : Frame) (h : fd1 ≠ fd) :
    ∀ (k p : Nat), sinkBytes fd (burst fd1 f k p) = [] := by
  intro k
  induction k with
  | zero => intro p; rfl
  | succ k ih => intro p; simp [burst, sinkBytes, ih, h]

theorem length_flatten_replicate_payload (f : Frame) (k : Nat) :
    (List.replicate k f.payload).flatten.length = 4 * k := by
  induction k with
  | zero => rfl
  | succ k ih => simp [List.replicate_succ, ih, Frame.payload]; omega

theorem progressTrace_burst (fd : Sink) (f : Frame) :
    ∀ (k p : Nat), p + 4 * k < 2 ^ 32 →
      ∀ v ∈ progressTrace (burst fd f k p), p < v ∧ v ≤ p + 4 * k := by
  intro k
  induction k with
  | zero => intro p _ v hv; simp [burst, progressTrace] at hv
  | succ k ih =>
    intro p hp v hv
    have hmod : wrapU32 (p + 4) = p + 4 := wrapU32_of_lt (by omega)
    simp only [burst, progressTrace, hmod, List.mem_cons] at hv
    rcases hv with rfl | hv
    · omega
    · have := ih (p + 4) (by omega) v hv
      omega

theorem flush_step (fd : Sink) (f : Frame) (L fuel p : Nat) :
    flush fd f L (fuel + 1) p =
      if wrapU32 (p + 4) < L then
        ⟨.fwrite fd f.payload :: .progress (wrapU32 (p + 4)) ::
            (flush fd f L fuel (wrapU32 (p + 4))).trace,
          (flush fd f L fuel (wrapU32 (p + 4))).out⟩
      else ⟨[.fwrite fd f.payload, .progress (wrapU32 (p + 4))], .next (wrapU32 (p + 4))⟩ := by
  split <;> rename_i h <;> simp [flush, run_bind_def, Run.bind, emit, run_pure_def, h]

theorem flush_exact (fd : Sink) (f : Frame) (L : Nat) (h32 : L < 2 ^ 32) :
    ∀ (n fuel p : Nat), 0 < n → n ≤ fuel → L = p + 4 * n →
      flush fd f L fuel p = ⟨burst fd f n p, .next L⟩ := by
  intro n
  induction n with
  | zero => intro fuel p h; omega
  | succ n ih =>
    intro fuel p _ hfuel hL
    obtain ⟨fuel, rfl⟩ : ∃ m, fuel = m + 1 := ⟨fuel - 1, by omega⟩
    have hmod : wrapU32 (p + 4) = p + 4 := wrapU32_of_lt (by omega)
    rw [flush_step, hmod]
    by_cases hn : n = 0
    · subst hn
      rw [if_neg (by omega)]
      simp [burst, hmod]
      omega
    · rw [if_pos (by omega), ih fuel (p + 4) (by omega) (by omega) (by omega)]
      simp [burst, hmod]

theorem repeatWrite_succ (fd : Sink) (f : Frame) :
    ∀ (k p : Nat),
      repeatWrite fd f (k + 1) p = ⟨burst fd f (k + 1) p, .next (wrapU32 (p + 4 * (k + 1)))⟩ := by
  intro k
  induction k with
  | zero => intro p; simp [repeatWrite, burst, run_bind_def, Run.bind, emit, run_pure_def]
  | succ k ih =>
    intro p
    rw [repeatWrite]
    simp only [run_bind_def, Run.bind, emit, ih, List.cons_append, List.nil_append,
      wrapU32_add_wrapU32]
    rw [burst]
    congr 3
    omega

theorem le32_shifts (b0 b1 b2 b3 : Byte) :
    le32 b0 b1 b2 b3 / 256 = b1.val + 256 * b2.val + 65536 * b3.val ∧
    le32 b0 b1 b2 b3 / 65536 = b2.val + 256 * b3.val ∧
    le32 b0 b1 b2 b3 / 16777216 = b3.val := by
  have h0 := b0.isLt
  have h1 := b1.isLt
  have h2 := b2.isLt
  have h3 := b3.isLt
  unfold le32
  refine ⟨?_, ?_, ?_⟩ <;> omega

/-! ## The terminal-frame flush loop from an aligned start -/

/-- From a start `p` that is a multiple of 4, below a target `L` that is a multiple of 4, the
flush loop ends with progress exactly `L`, having written the payload `(L - p) / 4` times, and
every value progress takes on the way is above `p` and at most `L`. -/
theorem flush_lands_on_target (fd : Sink) (f : Frame) (L p fuel : Nat)
    (hL : L % 4 = 0) (hp : p % 4 = 0) (hlt : p < L) (h32 : L < 2 ^ 32)
    (hfuel : (L - p) / 4 ≤ fuel) :
    (flush fd f L fuel p).out = .next L ∧
    sinkBytes fd (flush fd f L fuel p).trace = (List.replicate ((L - p) / 4) f.payload).flatten ∧
    ∀ v ∈ progressTrace (flush fd f L fuel p).trace, p < v ∧ v ≤ L := by
  have hrun := flush_exact fd f L h32 ((L - p) / 4) fuel p (by omega) hfuel (by omega)
  rw [hrun]
  refine ⟨rfl, sinkBytes_burst fd f _ p, ?_⟩
  intro v hv
  have := progressTrace_burst fd f ((L - p) / 4) p (by omega) v hv
  omega

/-! ## C5: run-length expansion of one frame -/

/-- C5: a frame whose repeat-count byte is `k` with `1 ≤ k` (and `k ≤ 255`, a byte) makes the
frame step write exactly `k` copies of its 4 payload bytes to the region's sink, `4 * k`
bytes, nothing to the other sink, advance the 32-bit progress counter by `4 * k` (exactly
`p + 4 * k` when that fits in 32 bits), and not take the `break` that ends the batch. -/
theorem rle_expansion (fd : Sink) (L fuel : Nat) (f : Frame) (p : Nat) (h1 : 1 ≤ f.d4.val) :
    sinkBytes fd (frameStep fd L fuel f p).trace = (List.replicate f.d4.val f.payload).flatten ∧
    (sinkBytes fd (frameStep fd L fuel f p).trace).length = 4 * f.d4.val ∧
    (∀ fd1, fd1 ≠ fd → sinkBytes fd1 (frameStep fd L fuel f p).trace = []) ∧
    (frameStep fd L fuel f p).out = .next (wrapU32 (p + 4 * f.d4.val), false) ∧
    (p + 4 * f.d4.val < 2 ^ 32 →
      (frameStep fd L fuel f p).out = .next (p + 4 * f.d4.val, false)) ∧
    f.d4.val ≤ 255 := by
  have hne : f.d4 ≠ 0 := by
    intro h
    rw [h] at h1
    exact absurd h1 (by decide)
  obtain ⟨k, hk⟩ : ∃ k, f.d4.val = k + 1 := ⟨f.d4.val - 1, by omega⟩
  have hrun : frameStep fd L fuel f p
      = ⟨burst fd f f.d4.val p, .next (wrapU32 (p + 4 * f.d4.val), false)⟩ := by
    simp [frameStep, hne, hk, repeatWrite_succ, run_bind_def, Run.bind, run_pure_def]
  rw [hrun]
  refine ⟨sinkBytes_burst fd f _ p, ?_, ?_, rfl, ?_, ?_⟩
  · simp only [sinkBytes_burst, length_flatten_replicate_payload]
  · intro fd1 h
    exact sinkBytes_burst_other fd1 fd f (Ne.symm h) _ p
  · intro h
    simp only [wrapU32_of_lt h]
  · have := f.d4.isLt
    omega

/-- The frame `11 22 33 44` with count 3 at progress 0: three copies, progress 12, no `break`. -/
theorem rle_expansion_witness :
    sinkBytes .dump_fd (frameStep .dump_fd 20 0 ⟨0x11, 0x22, 0x33, 0x44, 3⟩ 0).trace
      = (List.replicate 3 [0x11, 0x22, 0x33, 0x44]).flatten ∧
    (frameStep .dump_fd 20 0 ⟨0x11, 0x22, 0x33, 0x44, 3⟩ 0).out = .next (12, false) := by
  have h := rle_expansion .dump_fd 20 0 ⟨0x11, 0x22, 0x33, 0x44, 3⟩ 0 (by decide)
  exact ⟨h.1, h.2.2.2.2.1 (by decide)⟩

/-! ## C6: checksum of a 32-bit scalar -/

theorem scalar_sums (b0 b1 b2 b3 : Byte) :
    (lowByte (checksumU32 (le32 b0 b1 b2 b3))).val = (b0.val + b1.val + b2.val + b3.val) % 256 ∧
    (lowByte (checksumInt (toInt32 (le32 b0 b1 b2 b3)))).val
      = (b0.val + b1.val + b2.val + b3.val) % 256 := by
  have h0 := b0.isLt
  have h1 := b1.isLt
  have h2 := b2.isLt
  have h3 := b3.isLt
  obtain ⟨s8, s16, s24⟩ := le32_shifts b0 b1 b2 b3
  constructor
  · rw [lowByte_val]
    simp only [checksumU32, toInt32, wrapU32, Nat.shiftRight_eq_div_pow, Nat.reducePow, s8, s16,
      s24]
    unfold le32
    split <;> omega
  · rw [lowByte_val]
    simp only [checksumInt, wrapInt32_emod, toInt32, Int.shiftRight_eq_div_pow, Nat.reducePow]
    have e8 : ((le32 b0 b1 b2 b3 : Int) - 2 ^ 32) / ((256 : Nat) : Int)
        = (le32 b0 b1 b2 b3 / 256 : Nat) - 16777216 := by omega
    have e16 : ((le32 b0 b1 b2 b3 : Int) - 2 ^ 32) / ((65536 : Nat) : Int)
        = (le32 b0 b1 b2 b3 / 65536 : Nat) - 65536 := by omega
    have e24 : ((le32 b0 b1 b2 b3 : Int) - 2 ^ 32) / ((16777216 : Nat) : Int)
        = (le32 b0 b1 b2 b3 / 16777216 : Nat) - 256 := by omega
    split
    · have := s8
      have := s16
      have := s24
      unfold le32 at *
      omega
    · rw [e8, e16, e24, s8, s16, s24]
      unfold le32
      omega

/-- C6: for the 32-bit value with little-endian bytes `b0 b1 b2 b3`, the byte written as its
checksum, the low 8 bits of `V + (V >> 8) + (V >> 16) + (V >> 24)`, is
`(b0 + b1 + b2 + b3) mod 256`, both for the unsigned computation (start address, region
length) and for the signed one with arithmetic shifts (error code). -/
theorem scalar_checksum (b0 b1 b2 b3 : Byte) :
    (lowByte (checksumU32 (le32 b0 b1 b2 b3))).val = (b0.val + b1.val + b2.val + b3.val) % 256 ∧
    (lowByte (checksumInt (toInt32 (le32 b0 b1 b2 b3)))).val
      = (b0.val + b1.val + b2.val + b3.val) % 256 := by
  constructor
  · exact (scalar_sums b0 b1 b2 b3).1
  · exact (scalar_sums b0 b1 b2 b3).2

/-! ## Structure of the frame loop and of a batch -/

theorem run_bind_next {α β : Type} {r : Run α} {a : α} (k : α → Run β) (h : r.out = .next a) :
    Run.bind r k = ⟨r.trace ++ (k a).trace, (k a).out⟩ := by
  simp [Run.bind, h]

theorem readFrame_cases (input : List Byte) :
    readFrame input = ⟨[], .blocked⟩ ∨
    ∃ f rest, input = f.bytes ++ rest ∧ readFrame input = ⟨[.read f.bytes], .next (f, rest)⟩ := by
  match input with
  | [] => left; rfl
  | [_] => left; rfl
  | [_, _] => left; rfl
  | [_, _, _] => left; rfl
  | [_, _, _, _] => left; rfl
  | d0 :: d1 :: d2 :: d3 :: d4 :: rest => right; exact ⟨⟨d0, d1, d2, d3, d4⟩, rest, rfl, rfl⟩

theorem frameLoop_succ (fd : Sink) (L fuel slots : Nat) (st : BatchState) :
    frameLoop fd L fuel (slots + 1) st =
      Run.bind (readFrame st.input) (fun x =>
        Run.bind (frameStep fd L fuel x.1 st.total_read) (fun y =>
          if y.2 then pure ⟨x.2, wrapInt32 (st.checksum + x.1.sum), y.1⟩
          else frameLoop fd L fuel slots ⟨x.2, wrapInt32 (st.checksum + x.1.sum), y.1⟩)) := by
  rw [frameLoop]
  rfl

theorem burst_quiet (fd : Sink) (f : Frame) :
    ∀ (k p : Nat), sentBytes (burst fd f k p) = [] ∧ receivedBytes (burst fd f k p) = [] ∧
      closeCount (burst fd f k p) = 0 := by
  intro k
  induction k with
  | zero => intro p; exact ⟨rfl, rfl, rfl⟩
  | succ k ih => intro p; simpa [burst, sentBytes, receivedBytes, closeCount] using ih _

theorem flush_quiet (fd : Sink) (f : Frame) (L : Nat) :
    ∀ (fuel p : Nat), sentBytes (flush fd f L fuel p).trace = [] ∧
      receivedBytes (flush fd f L fuel p).trace = [] ∧
      closeCount (flush fd f L fuel p).trace = 0 := by
  intro fuel
  induction fuel with
  | zero => intro p; exact ⟨rfl, rfl, rfl⟩
  | succ fuel ih =>
    intro p
    rw [flush_step]
    split
    · simpa [sentBytes, receivedBytes, closeCount] using ih _
    · exact ⟨rfl, rfl, rfl⟩

theorem frameStep_eq (fd : Sink) (L fuel : Nat) (f : Frame) (p : Nat) :
    frameStep fd L fuel f p =
      if f.d4 = 0 then ⟨(flush fd f L fuel p).trace,
        match (flush fd f L fuel p).out with
        | .next t => .next (t, true)
        | .ret c => .ret c
        | .blocked => .blocked
        | .spin => .spin⟩
      else ⟨burst fd f f.d4.val p, .next (wrapU32 (p + 4 * f.d4.val), false)⟩ := by
  unfold frameStep
  split
  · simp only [run_bind_def, Run.bind, run_pure_def]
    cases (flush fd f L fuel p).out <;> simp
  · rename_i h
    obtain ⟨k, hk⟩ : ∃ k, f.d4.val = k + 1 := by
      refine ⟨f.d4.val - 1, ?_⟩
      have : f.d4.val ≠ 0 := fun h0 => h (Fin.ext h0)
      omega
    simp [hk, repeatWrite_succ, run_bind_def, Run.bind, run_pure_def]

theorem frameStep_quiet (fd : Sink) (L fuel : Nat) (f : Frame) (p : Nat) :
    sentBytes (frameStep fd L fuel f p).trace = [] ∧
    receivedBytes (frameStep fd L fuel f p).trace = [] ∧
    closeCount (frameStep fd L fuel f p).trace = 0 := by
  rw [frameStep_eq]
  split
  · exact flush_quiet fd f L fuel p
  · exact burst_quiet fd f _ p

theorem byteSum_bytes (f : Frame) : byteSum f.bytes = f.sum := by
  simp [byteSum, Frame.bytes, Frame.sum]
  omega

theorem frameLoop_sent (fd : Sink) (L fuel : Nat) :
    ∀ (slots : Nat) (st : BatchState), sentBytes (frameLoop fd L fuel slots st).trace = [] := by
  intro slots
  induction slots with
  | zero => intro st; rfl
  | succ slots ih =>
    intro st
    rw [frameLoop_succ]
    rcases readFrame_cases st.input with h | ⟨f, rest, _, h⟩
    · rw [h]; rfl
    · rw [h, run_bind_next _ rfl]
      have hq := (frameStep_quiet fd L fuel f st.total_read).1
      cases hs : (frameStep fd L fuel f st.total_read).out with
      | next y =>
        rw [run_bind_next _ hs]
        obtain ⟨t, brk⟩ := y
        cases brk
        · simp [sentBytes, sentBytes_append, hq, ih]
        · simp [sentBytes, sentBytes_append, hq, run_pure_def]
      | ret c => simp [Run.bind, hs, sentBytes, hq]
      | blocked => simp [Run.bind, hs, sentBytes, hq]
      | spin => simp [Run.bind, hs, sentBytes, hq]

theorem frameLoop_checksum (fd : Sink) (L fuel : Nat) :
    ∀ (slots : Nat) (st st1 : BatchState), (frameLoop fd L fuel slots st).out = .next st1 →
      st1.checksum % 256
        = (st.checksum + byteSum (receivedBytes (frameLoop fd L fuel slots st).trace)) % 256 ∧
      (receivedBytes (frameLoop fd L fuel slots st).trace).length % 5 = 0 ∧
      (receivedBytes (frameLoop fd L fuel slots st).trace).length ≤ 5 * slots ∧
      (0 < slots → 5 ≤ (receivedBytes (frameLoop fd L fuel slots st).trace).length) := by
  intro slots
  induction slots with
  | zero =>
    intro st st1 h
    simp only [frameLoop, run_pure_def, Outcome.next.injEq] at h
    subst h
    simp [frameLoop, run_pure_def, receivedBytes, byteSum]
  | succ slots ih =>
    intro st st1
    rw [frameLoop_succ]
    rcases readFrame_cases st.input with h | ⟨f, rest, _, h⟩
    · rw [h]; intro h1; simp [Run.bind] at h1
    · rw [h, run_bind_next _ rfl]
      have hq := (frameStep_quiet fd L fuel f st.total_read).2.1
      have hb : f.bytes.length = 5 := rfl
      have hw := wrapInt32_emod (st.checksum + f.sum)
      cases hs : (frameStep fd L fuel f st.total_read).out with
      | next y =>
        rw [run_bind_next _ hs]
        obtain ⟨t, brk⟩ := y
        cases brk
        · simp only [Bool.false_eq_true, if_false]
          intro h1
          have := ih _ _ h1
          have htr : ∀ tr, receivedBytes ([Event.read f.bytes] ++
              ((frameStep fd L fuel f st.total_read).trace ++ tr)) = f.bytes ++ receivedBytes tr := by
            intro tr
            simp [receivedBytes, receivedBytes_append, hq]
          rw [htr, byteSum_append, byteSum_bytes, List.length_append, hb]
          dsimp only at this ⊢
          refine ⟨?_, ?_, ?_, ?_⟩ <;> omega
        · simp only [if_true, run_pure_def]
          intro h1
          simp only [Outcome.next.injEq] at h1
          subst h1
          have htr : receivedBytes ([Event.read f.bytes] ++
              ((frameStep fd L fuel f st.total_read).trace ++ [])) = f.bytes := by
            simp [receivedBytes, receivedBytes_append, hq]
          rw [htr, byteSum_bytes, hb]
          dsimp only
          refine ⟨?_, ?_, ?_, ?_⟩ <;> omega
      | ret c => simp [Run.bind, hs]
      | blocked => simp [Run.bind, hs]
      | spin => simp [Run.bind, hs]

theorem first_write_unique :
    ∀ (xs xs1 ys ys1 : List Event) (b b1 : Byte), sentBytes xs = [] → sentBytes xs1 = [] →
      xs ++ .write b :: ys = xs1 ++ .write b1 :: ys1 → xs = xs1 ∧ b = b1 := by
  intro xs
  induction xs with
  | nil =>
    intro xs1 ys ys1 b b1 _ h1 h
    cases xs1 with
    | nil => simp at h; exact ⟨rfl, h.1⟩
    | cons e es =>
      simp only [List.nil_append, List.cons_append, List.cons.injEq] at h
      rw [← h.1] at h1
      simp [sentBytes] at h1
  | cons x xs ih =>
    intro xs1 ys ys1 b b1 h0 h1 h
    cases xs1 with
    | nil =>
      simp only [List.nil_append, List.cons_append, List.cons.injEq] at h
      rw [h.1] at h0
      simp [sentBytes] at h0
    | cons e es =>
      simp only [List.cons_append, List.cons.injEq] at h
      obtain ⟨rfl, h⟩ := h
      have hx : sentBytes xs = [] := by
        cases x <;> simp_all [sentBytes]
      have he : sentBytes es = [] := by
        cases x <;> simp_all [sentBytes]
      obtain ⟨rfl, rfl⟩ := ih es ys ys1 b b1 hx he h
      exact ⟨rfl, rfl⟩

theorem batch_eq (fd : Sink) (L fuel : Nat) (input : List Byte) (p : Nat) :
    batch fd L fuel input p =
      Run.bind (frameLoop fd L fuel frameSlots ⟨input, 0, p⟩) (fun st =>
        Run.bind (emit (.write (lowByte st.checksum))) (fun _ =>
          Run.bind (readByte st.input) (fun x =>
            Run.bind (checkStatus x.1) (fun _ => pure (x.2, st.total_read))))) := rfl

theorem checkStatus_sent (b : Byte) : sentBytes (checkStatus b).trace = [] := by
  unfold checkStatus
  split
  · rfl
  · split <;> rfl

theorem readByte_cases (input : List Byte) :
    readByte input = ⟨[], .blocked⟩ ∨
    ∃ b rest, input = b :: rest ∧ readByte input = ⟨[.read [b]], .next (b, rest)⟩ := by
  cases input with
  | nil => left; rfl
  | cons b rest => right; exact ⟨b, rest, rfl, rfl⟩

theorem run_bind_trace_sent {α β : Type} (r : Run α) (k : α → Run β)
    (hr : sentBytes r.trace = []) (hk : ∀ a, sentBytes (k a).trace = []) :
    sentBytes (Run.bind r k).trace = [] := by
  unfold Run.bind
  cases r.out <;> simp [sentBytes_append, hr, hk]

theorem batch_shape (fd : Sink) (L fuel : Nat) (input : List Byte) (p : Nat) :
    ((∀ st, (frameLoop fd L fuel frameSlots ⟨input, 0, p⟩).out ≠ .next st) ∧
      (batch fd L fuel input p).trace = (frameLoop fd L fuel frameSlots ⟨input, 0, p⟩).trace) ∨
    ∃ st tail, (frameLoop fd L fuel frameSlots ⟨input, 0, p⟩).out = .next st ∧
      (batch fd L fuel input p).trace
        = (frameLoop fd L fuel frameSlots ⟨input, 0, p⟩).trace
            ++ .write (lowByte st.checksum) :: tail ∧
      sentBytes tail = [] := by
  rw [batch_eq]
  cases hfl : (frameLoop fd L fuel frameSlots ⟨input, 0, p⟩).out with
  | next st =>
    right
    refine ⟨st, (Run.bind (readByte st.input) (fun x =>
      Run.bind (checkStatus x.1) (fun _ => pure (x.2, st.total_read)))).trace, rfl, ?_, ?_⟩
    · rw [run_bind_next _ hfl, run_bind_next _ (rfl : (emit _).out = .next ())]
      rfl
    · apply run_bind_trace_sent
      · rcases readByte_cases st.input with h | ⟨b, rest, _, h⟩ <;> rw [h] <;> rfl
      · intro a
        apply run_bind_trace_sent
        · exact checkStatus_sent _
        · intro _; rfl
  | ret c => left; exact ⟨fun st h => (by cases h), by simp [Run.bind, hfl]⟩
  | blocked => left; exact ⟨fun st h => (by cases h), by simp [Run.bind, hfl]⟩
  | spin => left; exact ⟨fun st h => (by cases h), by simp [Run.bind, hfl]⟩

/-! ## The byte a batch writes -/

/-- Whatever the stream, if the trace of a batch has a write, then that byte is the sum
modulo 256 of all bytes received before it in the batch, these bytes are whole 5-byte frames,
at least 1 and at most 1600 of them, and it is the only byte the batch sends. -/
theorem batch_write_is_checksum (fd : Sink) (L fuel : Nat) (input : List Byte) (p : Nat)
    (pre post : List Event) (b : Byte)
    (h : (batch fd L fuel input p).trace = pre ++ .write b :: post) :
    b.val = byteSum (receivedBytes pre) % 256 ∧
    (receivedBytes pre).length % 5 = 0 ∧
    5 ≤ (receivedBytes pre).length ∧ (receivedBytes pre).length ≤ 5 * 1600 ∧
    sentBytes pre = [] ∧ sentBytes post = [] := by
  rcases batch_shape fd L fuel input p with ⟨_, h1⟩ | ⟨st, tail, hst, h1, htail⟩
  · have h2 := frameLoop_sent fd L fuel frameSlots ⟨input, 0, p⟩
    rw [← h1, h] at h2
    simp [sentBytes_append, sentBytes] at h2
  · have h2 : sentBytes (batch fd L fuel input p).trace = [lowByte st.checksum] := by
      rw [h1]
      simp [sentBytes_append, sentBytes, htail, frameLoop_sent]
    rw [h] at h2
    simp only [sentBytes_append, sentBytes] at h2
    have hpre : sentBytes pre = [] := by
      cases hp : sentBytes pre with
      | nil => rfl
      | cons x xs => rw [hp] at h2; simp at h2
    have hpost : sentBytes post = [] := by
      rw [hpre] at h2
      simp only [List.nil_append, List.cons.injEq] at h2
      exact h2.2
    rw [h1] at h
    obtain ⟨hpe, hb⟩ := first_write_unique _ _ _ _ _ _
      (frameLoop_sent fd L fuel frameSlots ⟨input, 0, p⟩) hpre h
    obtain ⟨c1, c2, c3, c4⟩ := frameLoop_checksum fd L fuel frameSlots ⟨input, 0, p⟩ st hst
    rw [hpe] at c1 c2 c3 c4
    have c5 := c4 (by decide)
    have hfs : frameSlots = 1600 := by decide
    rw [hfs] at c3
    refine ⟨?_, c2, c5, c3, hpre, hpost⟩
    rw [← hb, lowByte_val]
    dsimp only at c1
    omega

/-! ## The handshake -/

theorem readWord_bytes (w : Word) (rest : List Byte) :
    readWord (w.bytes ++ rest) = ⟨[.read w.bytes], .next (w.val, rest)⟩ := rfl

theorem readN_append (n : Nat) (v rest : List Byte) (hv : v.length = n) :
    readN n (v ++ rest) = ⟨[.read v], .next (v, rest)⟩ := by
  simp [readN, hv, List.take_left', List.drop_left']

theorem checkStatus_ok : checkStatus statusOk = ⟨[], .next ()⟩ := rfl

theorem addChars_lowByte (cs : Bool) :
    ∀ (v : List Byte) (c : Int),
      (lowByte (addChars cs c v)).val = ((lowByte c).val + byteSum v) % 256 := by
  intro v
  induction v with
  | nil =>
    intro c
    have := (lowByte c).isLt
    simp only [addChars, byteSum]
    omega
  | cons x xs ih =>
    intro c
    rw [addChars, ih, byteSum, lowByte_val, lowByte_val, wrapInt32_emod]
    have hx := x.isLt
    unfold charVal
    split <;> omega

theorem byteSum_word (w : Word) :
    byteSum w.bytes = w.b0.val + w.b1.val + w.b2.val + w.b3.val := by
  simp [byteSum, Word.bytes]
  omega

theorem handshake_accepted (cs : Bool) (baud : Int) (r : Byte) (e : Word) (v : List Byte)
    (a l : Word) (rest : List Byte) (hv : v.length = 15) :
    handshake cs baud (handshakeWire r e v a l ++ rest)
      = ⟨[.write (lowByte baud), .read [0x11], .speed (baud - 0xab), .write 0xab, .read [r],
          .read e.bytes, .read v,
          .write (lowByte (addChars cs (checksumInt (toInt32 e.val)) v)), .read [statusOk],
          .read a.bytes, .write (lowByte (checksumU32 a.val)), .read [statusOk],
          .read l.bytes, .write (lowByte (checksumU32 l.val)), .read [statusOk]],
        .next (⟨toInt32 e.val, v, a.val, l.val⟩, rest)⟩ := by
  have h1 : handshakeWire r e v a l ++ rest
      = 0x11 :: r :: (e.bytes ++ (v ++ (statusOk :: (a.bytes ++ (statusOk ::
          (l.bytes ++ (statusOk :: rest))))))) := by
    simp [handshakeWire]
  rw [h1]
  simp [handshake, run_bind_def, Run.bind, emit, readByte, readWord_bytes, readN_append, hv,
    checkStatus_ok, run_pure_def]

/-! ## C7: what the host writes during the handshake -/

/-- C7, as stated, fails: with first reply 0x11, error code 1, version "TESTDEV", start address
0x30000000, length 8 and all three status bytes `'w'`, the host writes five bytes, not six:
nothing is written between reading the error code and reading the version string (the
checksum 0x01 of the error code alone is never sent). -/
theorem handshake_writes_five_bytes :
    handshake true 0xab
        [0x11, 0x00, 0x01, 0x00, 0x00, 0x00,
         0x54, 0x45, 0x53, 0x54, 0x44, 0x45, 0x56, 0, 0, 0, 0, 0, 0, 0, 0, 0x77,
         0x00, 0x00, 0x00, 0x30, 0x77, 0x08, 0x00, 0x00, 0x00, 0x77]
      = ⟨[.write 0xab, .read [0x11], .speed 0, .write 0xab, .read [0x00],
          .read [0x01, 0x00, 0x00, 0x00],
          .read [0x54, 0x45, 0x53, 0x54, 0x44, 0x45, 0x56, 0, 0, 0, 0, 0, 0, 0, 0],
          .write 0x20, .read [0x77],
          .read [0x00, 0x00, 0x00, 0x30], .write 0x30, .read [0x77],
          .read [0x08, 0x00, 0x00, 0x00], .write 0x08, .read [0x77]],
        .next (⟨1, [0x54, 0x45, 0x53, 0x54, 0x44, 0x45, 0x56, 0, 0, 0, 0, 0, 0, 0, 0],
          0x30000000, 8⟩, [])⟩ := by
  decide

/-- C7, amended: for every device stream whose first reply is 0x11 and whose three handshake
status bytes are `'w'`, the handshake performs exactly these events in this order, so the host
writes five bytes: the baud selector, 0xAB, one combined checksum of error code and version
string (sent after both were read; no byte is sent between them), the checksum of the start
address, and the checksum of the region length. -/
theorem handshake_writes (cs : Bool) (baud : Int) (r : Byte) (e : Word) (v : List Byte)
    (a l : Word) (rest : List Byte) (hv : v.length = 15) :
    handshake cs baud (handshakeWire r e v a l ++ rest)
      = ⟨[.write (lowByte baud), .read [0x11], .speed (baud - 0xab), .write 0xab, .read [r],
          .read e.bytes, .read v,
          .write (lowByte (addChars cs (checksumInt (toInt32 e.val)) v)), .read [statusOk],
          .read a.bytes, .write (lowByte (checksumU32 a.val)), .read [statusOk],
          .read l.bytes, .write (lowByte (checksumU32 l.val)), .read [statusOk]],
        .next (⟨toInt32 e.val, v, a.val, l.val⟩, rest)⟩ ∧
    (sentBytes (handshake cs baud (handshakeWire r e v a l ++ rest)).trace).map Fin.val
      = [(baud % 256).toNat, 0xAB, (byteSum e.bytes + byteSum v) % 256,
          byteSum a.bytes % 256, byteSum l.bytes % 256] := by
  have h := handshake_accepted cs baud r e v a l rest hv
  refine ⟨h, ?_⟩
  rw [h]
  have he : (lowByte (addChars cs (checksumInt (toInt32 e.val)) v)).val
      = (byteSum e.bytes + byteSum v) % 256 := by
    rw [addChars_lowByte, Word.val, (scalar_sums e.b0 e.b1 e.b2 e.b3).2, byteSum_word]
    omega
  have ha : (lowByte (checksumU32 a.val)).val = byteSum a.bytes % 256 := by
    rw [Word.val, (scalar_sums a.b0 a.b1 a.b2 a.b3).1, byteSum_word]
  have hl : (lowByte (checksumU32 l.val)).val = byteSum l.bytes % 256 := by
    rw [Word.val, (scalar_sums l.b0 l.b1 l.b2 l.b3).1, byteSum_word]
  simp only [sentBytes, List.map, he, ha, hl, lowByte_val]
  rfl

/-- The handshake of a device reporting error code 0, version "TESTDEV", start address
0x30000000 and length 8. -/
theorem handshake_writes_witness :
    (sentBytes (handshake true 0xab (handshakeWire 0 ⟨0, 0, 0, 0⟩
        [0x54, 0x45, 0x53, 0x54, 0x44, 0x45, 0x56, 0, 0, 0, 0, 0, 0, 0, 0]
        ⟨0x00, 0x00, 0x00, 0x30⟩ ⟨0x08, 0x00, 0x00, 0x00⟩ ++ [])).trace).map Fin.val
      = [((0xab : Int) % 256).toNat, 0xAB,
          (byteSum (Word.bytes ⟨0, 0, 0, 0⟩)
            + byteSum [0x54, 0x45, 0x53, 0x54, 0x44, 0x45, 0x56, 0, 0, 0, 0, 0, 0, 0, 0]) % 256,
          byteSum (Word.bytes ⟨0x00, 0x00, 0x00, 0x30⟩) % 256,
          byteSum (Word.bytes ⟨0x08, 0x00, 0x00, 0x00⟩) % 256] :=
  (handshake_writes true 0xab 0 ⟨0, 0, 0, 0⟩
    [0x54, 0x45, 0x53, 0x54, 0x44, 0x45, 0x56, 0, 0, 0, 0, 0, 0, 0, 0]
    ⟨0x00, 0x00, 0x00, 0x30⟩ ⟨0x08, 0x00, 0x00, 0x00⟩ [] (by decide)).2

/-! ## C8: the combined checksum of error code and version -/

/-- C8: for every error code `e` and every 15-byte version string `v`, whether plain `char` is
signed or not, the first eight events of the handshake end with the write of one byte, sent
right after the version string was read, whose value is the sum of the 4 error-code bytes and
the 15 version bytes modulo 256: the version bytes extend the error-code checksum. -/
theorem version_checksum (cs : Bool) (baud : Int) (r : Byte) (e : Word) (v rest : List Byte)
    (hv : v.length = 15) :
    ∃ b, (handshake cs baud (0x11 :: r :: e.bytes ++ v ++ rest)).trace.take 8
      = [.write (lowByte baud), .read [0x11], .speed (baud - 0xab), .write 0xab, .read [r],
          .read e.bytes, .read v, .write b] ∧
      b.val = (byteSum e.bytes + byteSum v) % 256 := by
  refine ⟨lowByte (addChars cs (checksumInt (toInt32 e.val)) v), ?_, ?_⟩
  · have h1 : 0x11 :: r :: e.bytes ++ v ++ rest = 0x11 :: r :: (e.bytes ++ (v ++ rest)) := by
      simp
    rw [h1]
    simp [handshake, run_bind_def, Run.bind, emit, readByte, readWord_bytes, readN_append, hv,
      run_pure_def]
  · have he := (scalar_sums e.b0 e.b1 e.b2 e.b3).2
    rw [addChars_lowByte, Word.val, he, byteSum_word]
    omega

/-- The error code 0x80000001 (negative as an `int`) and a version string ending in 0xFF
(negative as a signed `char`). -/
theorem version_checksum_witness :
    ∃ b, (handshake true 0xab (0x11 :: 0 :: Word.bytes ⟨1, 0, 0, 0x80⟩
        ++ [0x54, 0x45, 0x53, 0x54, 0x44, 0x45, 0x56, 0, 0, 0, 0, 0, 0, 0, 0xFF] ++ [])).trace.take 8
      = [.write (lowByte 0xab), .read [0x11], .speed (0xab - 0xab), .write 0xab, .read [0],
          .read (Word.bytes ⟨1, 0, 0, 0x80⟩),
          .read [0x54, 0x45, 0x53, 0x54, 0x44, 0x45, 0x56, 0, 0, 0, 0, 0, 0, 0, 0xFF], .write b] ∧
      b.val = (byteSum (Word.bytes ⟨1, 0, 0, 0x80⟩)
        + byteSum [0x54, 0x45, 0x53, 0x54, 0x44, 0x45, 0x56, 0, 0, 0, 0, 0, 0, 0, 0xFF]) % 256 :=
  version_checksum true 0xab 0 ⟨1, 0, 0, 0x80⟩
    [0x54, 0x45, 0x53, 0x54, 0x44, 0x45, 0x56, 0, 0, 0, 0, 0, 0, 0, 0xFF] [] (by decide)

/-! ## C10: closing the transport -/

/-- C10 fails on the code: when the first reply is not 0x11 (here 0x00) `ram_dump` returns 1
after one write and one read and never calls `close`, although the device was opened. -/
theorem wrong_first_reply_leaves_transport_open :
    ram_dump true 0xab 0 (some [0x00]) = ⟨[.write 0xab, .read [0x00]], .ret 1⟩ ∧
    closeCount (ram_dump true 0xab 0 (some [0x00])).trace = 0 := by
  decide

/-! ## A region on a stream of run-length frames closed by a terminal frame -/

theorem readFrame_bytes (f : Frame) (rest : List Byte) :
    readFrame (f.bytes ++ rest) = ⟨[.read f.bytes], .next (f, rest)⟩ := rfl

theorem frameLoop_run_step (fd : Sink) (L fuel s : Nat) (f : Frame) (input : List Byte)
    (c : Int) (p : Nat) (hf : f.d4 ≠ 0) (hp : p + 4 * f.d4.val < 2 ^ 32) :
    frameLoop fd L fuel (s + 1) ⟨f.bytes ++ input, c, p⟩
      = ⟨.read f.bytes :: burst fd f f.d4.val p
            ++ (frameLoop fd L fuel s ⟨input, wrapInt32 (c + f.sum), p + 4 * f.d4.val⟩).trace,
          (frameLoop fd L fuel s ⟨input, wrapInt32 (c + f.sum), p + 4 * f.d4.val⟩).out⟩ := by
  rw [frameLoop_succ]
  simp only [readFrame_bytes]
  rw [run_bind_next _ rfl]
  simp only [frameStep_eq, hf, if_false, wrapU32_of_lt hp]
  rw [run_bind_next _ rfl]
  simp

theorem frameLoop_terminal_step (fd : Sink) (L fuel s : Nat) (t : Frame) (input : List Byte)
    (c : Int) (p q : Nat) (tr : List Event) (ht : t.d4 = 0)
    (hflush : flush fd t L fuel p = ⟨tr, .next q⟩) :
    frameLoop fd L fuel (s + 1) ⟨t.bytes ++ input, c, p⟩
      = ⟨.read t.bytes :: tr, .next ⟨input, wrapInt32 (c + t.sum), q⟩⟩ := by
  rw [frameLoop_succ]
  simp only [readFrame_bytes]
  rw [run_bind_next _ rfl]
  simp only [frameStep_eq, ht, if_true, hflush]
  rw [run_bind_next _ rfl]
  simp [run_pure_def]

theorem fills_append {fd : Sink} {L : Nat} {tr1 tr2 : List Event} {b1 b2 : List Byte}
    (h1 : Fills fd L tr1 b1) (h2 : Fills fd L tr2 b2) : Fills fd L (tr1 ++ tr2) (b1 ++ b2) := by
  obtain ⟨a1, a2, a3⟩ := h1
  obtain ⟨c1, c2, c3⟩ := h2
  refine ⟨by rw [sinkBytes_append, a1, c1], ?_, ?_⟩
  · intro fd1 h
    rw [sinkBytes_append, a2 fd1 h, c2 fd1 h]
    rfl
  · intro v hv
    rw [progressTrace_append, List.mem_append] at hv
    rcases hv with hv | hv
    · exact a3 v hv
    · exact c3 v hv

theorem fills_burst (fd : Sink) (L : Nat) (f : Frame) (k p : Nat) (h32 : L < 2 ^ 32)
    (h : p + 4 * k ≤ L) : Fills fd L (burst fd f k p) (List.replicate k f.payload).flatten := by
  refine ⟨sinkBytes_burst fd f k p, ?_, ?_⟩
  · intro fd1 h1
    exact sinkBytes_burst_other fd1 fd f (Ne.symm h1) k p
  · intro v hv
    have := progressTrace_burst fd f k p (by omega) v hv
    omega

theorem fills_read (fd : Sink) (L : Nat) (bs : List Byte) : Fills fd L [.read bs] [] :=
  ⟨rfl, fun _ _ => rfl, fun v hv => by simp [progressTrace] at hv⟩

theorem fills_nil (fd : Sink) (L : Nat) : Fills fd L [] [] :=
  ⟨rfl, fun _ _ => rfl, fun v hv => by simp [progressTrace] at hv⟩

theorem frameLoop_wire_last (fd : Sink) (t : Frame) (rest : List Byte) (L fuel : Nat)
    (ht : t.d4 = 0) (h32 : L < 2 ^ 32) :
    ∀ (frames : List Frame) (s p : Nat) (c : Int), frames.length ≤ s →
      (∀ f ∈ frames, f.d4 ≠ 0) → p + 4 * runTotal frames < L →
      (L - (p + 4 * runTotal frames)) % 4 = 0 → (L - (p + 4 * runTotal frames)) / 4 ≤ fuel →
      ∃ c1,
        (frameLoop fd L fuel (s + 1) ⟨wire (s + 1) frames t ++ rest, c, p⟩).out
          = .next ⟨statusOk :: rest, c1, L⟩ ∧
        Fills fd L (frameLoop fd L fuel (s + 1) ⟨wire (s + 1) frames t ++ rest, c, p⟩).trace
          (expand frames
            ++ (List.replicate ((L - (p + 4 * runTotal frames)) / 4) t.payload).flatten) := by
  intro frames
  induction frames with
  | nil =>
    intro s p c _ _ hlt hmod hfuel
    simp only [runTotal, Nat.mul_zero, Nat.add_zero] at hlt hmod hfuel ⊢
    have hw : wire (s + 1) [] t ++ rest = t.bytes ++ (statusOk :: rest) := by
      simp [wire]
    have hflush := flush_exact fd t L h32 ((L - p) / 4) fuel p (by omega) hfuel (by omega)
    rw [hw, frameLoop_terminal_step fd L fuel s t _ c p L _ ht hflush]
    refine ⟨_, rfl, ?_⟩
    have := fills_append (fills_read fd L t.bytes)
      (fills_burst fd L t ((L - p) / 4) p h32 (by omega))
    simpa [expand] using this
  | cons f fs ih =>
    intro s p c hlen hne hlt hmod hfuel
    obtain ⟨s, rfl⟩ : ∃ s1, s = s1 + 1 := ⟨s - 1, by simp at hlen; omega⟩
    have hf : f.d4 ≠ 0 := hne f (List.mem_cons_self _ _)
    simp only [runTotal] at hlt hmod hfuel ⊢
    have hw : wire (s + 1 + 1) (f :: fs) t ++ rest = f.bytes ++ (wire (s + 1) fs t ++ rest) := by
      simp [wire]
    rw [hw, frameLoop_run_step fd L fuel (s + 1) f _ c p hf (by omega)]
    have hlen1 : fs.length ≤ s := by simp at hlen; omega
    have hrt : p + 4 * f.d4.val + 4 * runTotal fs = p + 4 * (f.d4.val + runTotal fs) := by omega
    obtain ⟨c1, h1, h2⟩ := ih s (p + 4 * f.d4.val) (wrapInt32 (c + f.sum)) hlen1
      (fun g hg => hne g (List.mem_cons_of_mem _ hg)) (by omega) (by rw [hrt]; exact hmod)
      (by rw [hrt]; exact hfuel)
    refine ⟨c1, h1, ?_⟩
    have := fills_append (fills_append (fills_read fd L f.bytes)
      (fills_burst fd L f f.d4.val p h32 (by omega))) h2
    rw [hrt] at this
    simpa [expand] using this

theorem frameLoop_wire_full (fd : Sink) (t : Frame) (rest : List Byte) (L fuel : Nat)
    (h32 : L < 2 ^ 32) :
    ∀ (frames : List Frame) (s p : Nat) (c : Int), s < frames.length →
      (∀ f ∈ frames, f.d4 ≠ 0) → p + 4 * runTotal frames < L →
      ∃ c1,
        (frameLoop fd L fuel (s + 1) ⟨wire (s + 1) frames t ++ rest, c, p⟩).out
          = .next ⟨wire 0 (frames.drop (s + 1)) t ++ rest, c1,
              p + 4 * runTotal (frames.take (s + 1))⟩ ∧
        Fills fd L (frameLoop fd L fuel (s + 1) ⟨wire (s + 1) frames t ++ rest, c, p⟩).trace
          (expand (frames.take (s + 1))) := by
  intro frames
  induction frames with
  | nil => intro s p c h; simp at h
  | cons f fs ih =>
    intro s p c hlen hne hlt
    have hf : f.d4 ≠ 0 := hne f (List.mem_cons_self _ _)
    simp only [runTotal] at hlt
    have hw : wire (s + 1) (f :: fs) t ++ rest = f.bytes ++ (wire s fs t ++ rest) := by
      simp [wire]
    rw [hw, frameLoop_run_step fd L fuel s f _ c p hf (by omega)]
    have hb := fills_append (fills_read fd L f.bytes)
      (fills_burst fd L f f.d4.val p h32 (by omega))
    cases s with
    | zero =>
      refine ⟨wrapInt32 (c + f.sum), ?_, ?_⟩
      · simp [frameLoop, run_pure_def, runTotal]
      · have := fills_append hb (fills_nil fd L)
        simpa [frameLoop, run_pure_def, expand] using this
    | succ s =>
      have hlen1 : s < fs.length := by simp at hlen; omega
      obtain ⟨c1, h1, h2⟩ := ih s (p + 4 * f.d4.val) (wrapInt32 (c + f.sum)) hlen1
        (fun g hg => hne g (List.mem_cons_of_mem _ hg)) (by omega)
      refine ⟨c1, ?_, ?_⟩
      · rw [h1]
        simp only [List.drop_succ_cons, List.take_succ_cons, runTotal]
        congr 2
        omega
      · have := fills_append hb h2
        simpa [expand] using this

theorem batch_accept (fd : Sink) (L fuel : Nat) (input rest : List Byte) (p q : Nat) (c1 : Int)
    (h : (frameLoop fd L fuel frameSlots ⟨input, 0, p⟩).out = .next ⟨statusOk :: rest, c1, q⟩) :
    (batch fd L fuel input p).out = .next (rest, q) ∧
    (batch fd L fuel input p).trace
      = (frameLoop fd L fuel frameSlots ⟨input, 0, p⟩).trace
          ++ [.write (lowByte c1), .read [statusOk]] := by
  rw [batch_eq, run_bind_next _ h]
  simp [Run.bind, emit, readByte, checkStatus_ok, run_pure_def]

theorem regionLoop_succ (fd : Sink) (L fuel : Nat) (input : List Byte) (p : Nat) :
    regionLoop fd L (fuel + 1) input p =
      Run.bind (batch fd L fuel input p) (fun x =>
        if x.2 < L then regionLoop fd L fuel x.1 x.2 else pure (x.1, x.2)) := by
  rw [regionLoop]
  rfl

theorem wire_zero (fs : List Frame) (t : Frame) :
    wire 0 fs t = statusOk :: wire frameSlots fs t := by
  cases fs with
  | nil => simp [wire, frameSlots]
  | cons f fs => simp [wire, frameSlots]

theorem runTotal_take_drop (n : Nat) :
    ∀ (l : List Frame), runTotal (l.take n) + runTotal (l.drop n) = runTotal l := by
  induction n with
  | zero => intro l; simp [runTotal]
  | succ n ih =>
    intro l
    cases l with
    | nil => simp [runTotal]
    | cons f fs =>
      have := ih fs
      simp only [List.take_succ_cons, List.drop_succ_cons, runTotal]
      omega

theorem expand_take_drop (n : Nat) :
    ∀ (l : List Frame), expand (l.take n) ++ expand (l.drop n) = expand l := by
  induction n with
  | zero => intro l; simp [expand]
  | succ n ih =>
    intro l
    cases l with
    | nil => simp [expand]
    | cons f fs =>
      simp only [List.take_succ_cons, List.drop_succ_cons, expand, List.append_assoc, ih fs]

theorem length_le_runTotal :
    ∀ (l : List Frame), (∀ f ∈ l, f.d4 ≠ 0) → l.length ≤ runTotal l := by
  intro l
  induction l with
  | nil => intro _; simp
  | cons f fs ih =>
    intro h
    have h1 := ih (fun g hg => h g (List.mem_cons_of_mem _ hg))
    have h2 : f.d4.val ≠ 0 := fun h0 => h f (List.mem_cons_self _ _) (Fin.ext h0)
    simp only [List.length_cons, runTotal]
    omega

theorem length_expand : ∀ (l : List Frame), (expand l).length = 4 * runTotal l := by
  intro l
  induction l with
  | nil => rfl
  | cons f fs ih =>
    simp only [expand, List.length_append, length_flatten_replicate_payload, ih, runTotal]
    omega

theorem fills_ack (fd : Sink) (L : Nat) (b : Byte) (bs : List Byte) :
    Fills fd L [.write b, .read bs] [] :=
  ⟨rfl, fun _ _ => rfl, fun v hv => by simp [progressTrace] at hv⟩

theorem regionLoop_wire (fd : Sink) (t : Frame) (rest : List Byte) (L : Nat)
    (ht : t.d4 = 0) (h32 : L < 2 ^ 32) :
    ∀ (fuel : Nat) (frames : List Frame) (p : Nat),
      (∀ f ∈ frames, f.d4 ≠ 0) → p + 4 * runTotal frames < L →
      (L - (p + 4 * runTotal frames)) % 4 = 0 →
      (L - (p + 4 * runTotal frames)) / 4 + frames.length < fuel →
      (regionLoop fd L fuel (wire frameSlots frames t ++ rest) p).out = .next (rest, L) ∧
      Fills fd L (regionLoop fd L fuel (wire frameSlots frames t ++ rest) p).trace
        (expand frames
          ++ (List.replicate ((L - (p + 4 * runTotal frames)) / 4) t.payload).flatten) := by
  intro fuel
  induction fuel with
  | zero => intro frames p _ _ _ h; omega
  | succ fuel ih =>
    intro frames p hne hlt hmod hfuel
    have hfs : frameSlots = 1599 + 1 := by decide
    rw [regionLoop_succ]
    by_cases hlen : frames.length ≤ 1599
    · obtain ⟨c1, h1, h2⟩ := frameLoop_wire_last fd t rest L fuel ht h32 frames 1599 p 0 hlen
        hne hlt hmod (by omega)
      rw [← hfs] at h1 h2
      obtain ⟨b1, b2⟩ := batch_accept fd L fuel _ rest p L c1 h1
      rw [run_bind_next _ b1]
      simp only [Nat.lt_irrefl, if_false, run_pure_def, List.append_nil]
      refine ⟨trivial, ?_⟩
      rw [b2]
      have := fills_append h2 (fills_ack fd L (lowByte c1) [statusOk])
      rw [List.append_nil] at this
      exact this
    · have hlen1 : 1599 < frames.length := by omega
      obtain ⟨c1, h1, h2⟩ := frameLoop_wire_full fd t rest L fuel h32 frames 1599 p 0 hlen1
        hne hlt
      rw [← hfs, wire_zero, List.cons_append] at h1
      rw [← hfs] at h2
      obtain ⟨b1, b2⟩ := batch_accept fd L fuel _ _ p _ c1 h1
      have htd := runTotal_take_drop frameSlots frames
      have hp1 : p + 4 * runTotal (frames.take frameSlots) < L := by omega
      rw [run_bind_next _ b1]
      simp only [hp1, if_true]
      have hsum : p + 4 * runTotal (frames.take frameSlots)
          + 4 * runTotal (frames.drop frameSlots) = p + 4 * runTotal frames := by omega
      have hdl : (frames.drop frameSlots).length + 1600 = frames.length := by
        rw [List.length_drop, hfs]
        omega
      obtain ⟨r1, r2⟩ := ih (frames.drop frameSlots) (p + 4 * runTotal (frames.take frameSlots))
        (fun g hg => hne g (List.mem_of_mem_drop hg)) (by omega) (by rw [hsum]; exact hmod)
        (by rw [hsum]; omega)
      refine ⟨r1, ?_⟩
      rw [b2]
      have := fills_append (fills_append h2 (fills_ack fd L (lowByte c1) [statusOk])) r2
      rw [hsum, List.append_nil, ← List.append_assoc, expand_take_drop] at this
      exact this

theorem region_eq (fd : Sink) (L fuel : Nat) (input : List Byte) :
    region fd L fuel input
      = ⟨.progress 0 :: (regionLoop fd L fuel input 0).trace,
          (regionLoop fd L fuel input 0).out⟩ := by
  simp [region, run_bind_def, Run.bind, emit]

theorem region_wire (fd : Sink) (t : Frame) (rest : List Byte) (L fuel : Nat)
    (frames : List Frame) (ht : t.d4 = 0) (h32 : L < 2 ^ 32) (h4 : L % 4 = 0)
    (hne : ∀ f ∈ frames, f.d4 ≠ 0) (hlt : 4 * runTotal frames < L) (hfuel : L ≤ fuel) :
    (region fd L fuel (wire frameSlots frames t ++ rest)).out = .next (rest, L) ∧
    Fills fd L (region fd L fuel (wire frameSlots frames t ++ rest)).trace
      (expand frames ++ (List.replicate ((L - 4 * runTotal frames) / 4) t.payload).flatten) := by
  have hl := length_le_runTotal frames hne
  obtain ⟨r1, r2⟩ := regionLoop_wire fd t rest L ht h32 fuel frames 0 hne (by omega) (by omega)
    (by omega)
  rw [region_eq]
  refine ⟨r1, ?_⟩
  have h0 : Fills fd L [.progress 0] [] :=
    ⟨rfl, fun _ _ => rfl, fun v hv => by simp [progressTrace] at hv; omega⟩
  have := fills_append h0 r2
  simpa using this

/-! ## Progress never decreases while no 32-bit wrap-around can occur -/

theorem climbs_bind {α β : Type} {p : Nat} {r : Run α} {k : α → Run β} {g : α → Nat}
    {h : β → Nat} (hr : Climbs p r g) (hk : ∀ a, r.out = .next a → Climbs (g a) (k a) h) :
    Climbs p (Run.bind r k) h := by
  obtain ⟨r1, r2, r3⟩ := hr
  cases hout : r.out with
  | next a =>
    obtain ⟨k1, k2, k3⟩ := hk a hout
    obtain ⟨r4, r5⟩ := r3 a hout
    rw [run_bind_next _ hout]
    refine ⟨?_, ?_, ?_⟩
    · simp only [progressTrace_append]
      rw [List.pairwise_append]
      refine ⟨r1, k1, ?_⟩
      intro x hx y hy
      exact Nat.le_trans (r5 x hx) (k2 y hy)
    · intro v hv
      simp only [progressTrace_append, List.mem_append] at hv
      rcases hv with hv | hv
      · exact r2 v hv
      · exact Nat.le_trans r4 (k2 v hv)
    · intro b hb
      obtain ⟨k4, k5⟩ := k3 b hb
      refine ⟨Nat.le_trans r4 k4, ?_⟩
      intro v hv
      simp only [progressTrace_append, List.mem_append] at hv
      rcases hv with hv | hv
      · exact Nat.le_trans (r5 v hv) k4
      · exact k5 v hv
  | ret c =>
    have e : Run.bind r k = ⟨r.trace, .ret c⟩ := by simp [Run.bind, hout]
    rw [e]
    exact ⟨r1, r2, fun b hb => by cases hb⟩
  | blocked =>
    have e : Run.bind r k = ⟨r.trace, .blocked⟩ := by simp [Run.bind, hout]
    rw [e]
    exact ⟨r1, r2, fun b hb => by cases hb⟩
  | spin =>
    have e : Run.bind r k = ⟨r.trace, .spin⟩ := by simp [Run.bind, hout]
    rw [e]
    exact ⟨r1, r2, fun b hb => by cases hb⟩

theorem climbs_still {α : Type} {p : Nat} {r : Run α} {g : α → Nat}
    (h1 : progressTrace r.trace = []) (h2 : ∀ a, r.out = .next a → p ≤ g a) : Climbs p r g := by
  refine ⟨?_, ?_, ?_⟩
  · rw [h1]; exact List.Pairwise.nil
  · intro v hv; rw [h1] at hv; cases hv
  · intro a ha
    refine ⟨h2 a ha, ?_⟩
    intro v hv; rw [h1] at hv; cases hv

theorem flush_climbs (fd : Sink) (f : Frame) (L : Nat) (hL : L + 4 ≤ 2 ^ 32) :
    ∀ (fuel p : Nat), p + 4 < 2 ^ 32 → Climbs p (flush fd f L fuel p) (fun q => q) := by
  intro fuel
  induction fuel with
  | zero =>
    intro p _
    exact climbs_still rfl (fun a ha => by cases ha)
  | succ fuel ih =>
    intro p hp
    have hmod : wrapU32 (p + 4) = p + 4 := wrapU32_of_lt hp
    rw [flush_step, hmod]
    split
    · rename_i hlt
      obtain ⟨i1, i2, i3⟩ := ih (p + 4) (by omega)
      refine ⟨?_, ?_, ?_⟩
      · simp only [progressTrace]
        exact List.Pairwise.cons (fun y hy => i2 y hy) i1
      · intro v hv
        simp only [progressTrace, List.mem_cons] at hv
        rcases hv with rfl | hv
        · omega
        · have := i2 v hv
          omega
      · intro q hq
        obtain ⟨i4, i5⟩ := i3 q hq
        dsimp only at i4 i5 ⊢
        refine ⟨by omega, ?_⟩
        intro v hv
        simp only [progressTrace, List.mem_cons] at hv
        rcases hv with rfl | hv
        · exact i4
        · exact i5 v hv
    · refine ⟨?_, ?_, ?_⟩
      · simp [progressTrace]
      · intro v hv
        simp only [progressTrace, List.mem_singleton] at hv
        omega
      · intro q hq
        simp only [Outcome.next.injEq] at hq
        subst hq
        refine ⟨by dsimp only; omega, ?_⟩
        intro v hv
        simp only [progressTrace, List.mem_singleton] at hv
        dsimp only
        omega

theorem burst_pairwise (fd : Sink) (f : Frame) :
    ∀ (k p : Nat), p + 4 * k < 2 ^ 32 →
      List.Pairwise (fun x y => x ≤ y) (progressTrace (burst fd f k p)) := by
  intro k
  induction k with
  | zero => intro p _; exact List.Pairwise.nil
  | succ k ih =>
    intro p hp
    have hmod : wrapU32 (p + 4) = p + 4 := wrapU32_of_lt (by omega)
    simp only [burst, progressTrace, hmod]
    refine List.Pairwise.cons ?_ (ih (p + 4) (by omega))
    intro y hy
    have := progressTrace_burst fd f k (p + 4) (by omega) y hy
    omega

theorem frameStep_climbs (fd : Sink) (L fuel : Nat) (f : Frame) (p : Nat) (hL : L + 4 ≤ 2 ^ 32)
    (hp : p + 1020 < 2 ^ 32) :
    Climbs p (frameStep fd L fuel f p) (fun y => y.1) ∧
    ∀ q, (frameStep fd L fuel f p).out = .next (q, false) → q ≤ p + 1020 := by
  have hk := f.d4.isLt
  rw [frameStep_eq]
  split
  · obtain ⟨c1, c2, c3⟩ := flush_climbs fd f L hL fuel p (by omega)
    refine ⟨⟨c1, c2, ?_⟩, ?_⟩
    · intro a ha
      cases hf : (flush fd f L fuel p).out with
      | next q =>
        rw [hf] at ha
        simp only [Outcome.next.injEq] at ha
        subst ha
        exact c3 q hf
      | ret c => rw [hf] at ha; cases ha
      | blocked => rw [hf] at ha; cases ha
      | spin => rw [hf] at ha; cases ha
    · intro q hq
      cases hf : (flush fd f L fuel p).out <;> rw [hf] at hq <;> simp at hq
  · have hmod : wrapU32 (p + 4 * f.d4.val) = p + 4 * f.d4.val := wrapU32_of_lt (by omega)
    rw [hmod]
    refine ⟨⟨burst_pairwise fd f _ p (by omega), ?_, ?_⟩, ?_⟩
    · intro v hv
      have := progressTrace_burst fd f _ p (by omega) v hv
      omega
    · intro a ha
      simp only [Outcome.next.injEq] at ha
      subst ha
      refine ⟨by simp, ?_⟩
      intro v hv
      have := progressTrace_burst fd f _ p (by omega) v hv
      simp only
      omega
    · intro q hq
      simp only [Outcome.next.injEq, Prod.mk.injEq, and_true] at hq
      omega

theorem readFrame_progress (input : List Byte) : progressTrace (readFrame input).trace = [] := by
  rcases readFrame_cases input with h | ⟨f, rest, _, h⟩ <;> rw [h] <;> rfl

theorem readByte_progress (input : List Byte) : progressTrace (readByte input).trace = [] := by
  rcases readByte_cases input with h | ⟨b, rest, _, h⟩ <;> rw [h] <;> rfl

theorem checkStatus_progress (b : Byte) : progressTrace (checkStatus b).trace = [] := by
  unfold checkStatus
  split
  · rfl
  · split <;> rfl

theorem frameLoop_climbs (fd : Sink) (L fuel : Nat) (hL : L + 4 ≤ 2 ^ 32) :
    ∀ (slots : Nat) (st : BatchState), st.total_read + 1020 * slots < 2 ^ 32 →
      Climbs st.total_read (frameLoop fd L fuel slots st) (fun s => s.total_read) := by
  intro slots
  induction slots with
  | zero =>
    intro st _
    exact climbs_still rfl (fun a ha => by
      simp only [frameLoop, run_pure_def, Outcome.next.injEq] at ha
      subst ha
      exact Nat.le_refl _)
  | succ slots ih =>
    intro st hst
    rw [frameLoop_succ]
    refine climbs_bind (g := fun _ => st.total_read)
      (climbs_still (readFrame_progress _) (fun _ _ => Nat.le_refl _)) ?_
    intro x _
    obtain ⟨s1, s2⟩ := frameStep_climbs fd L fuel x.1 st.total_read hL (by omega)
    refine climbs_bind s1 ?_
    intro y hy
    obtain ⟨q, brk⟩ := y
    cases brk
    · have hq := s2 q hy
      simp only [Bool.false_eq_true, if_false]
      exact ih ⟨x.2, wrapInt32 (st.checksum + x.1.sum), q⟩ (by dsimp only; omega)
    · simp only [if_true]
      exact climbs_still rfl (fun a ha => by
        simp only [run_pure_def, Outcome.next.injEq] at ha
        subst ha
        exact Nat.le_refl _)

theorem batch_climbs (fd : Sink) (L fuel : Nat) (input : List Byte) (p : Nat)
    (hL : L + 4 ≤ 2 ^ 32) (hp : p + 1632000 < 2 ^ 32) :
    Climbs p (batch fd L fuel input p) (fun x => x.2) := by
  rw [batch_eq]
  have hfs : frameSlots = 1600 := by decide
  refine climbs_bind (frameLoop_climbs fd L fuel hL frameSlots ⟨input, 0, p⟩
    (by rw [hfs]; dsimp only; omega)) ?_
  intro st _
  refine climbs_bind (g := fun _ => st.total_read)
    (climbs_still rfl (fun _ _ => Nat.le_refl _)) ?_
  intro _ _
  refine climbs_bind (g := fun _ => st.total_read)
    (climbs_still (readByte_progress _) (fun _ _ => Nat.le_refl _)) ?_
  intro x _
  refine climbs_bind (g := fun _ => st.total_read)
    (climbs_still (checkStatus_progress _) (fun _ _ => Nat.le_refl _)) ?_
  intro _ _
  exact climbs_still rfl (fun a ha => by
    simp only [run_pure_def, Outcome.next.injEq] at ha
    subst ha
    exact Nat.le_refl _)

theorem regionLoop_climbs (fd : Sink) (L : Nat) (hL : L + 1632000 < 2 ^ 32) :
    ∀ (fuel : Nat) (input : List Byte) (p : Nat), p ≤ L →
      Climbs p (regionLoop fd L fuel input p) (fun x => x.2) := by
  intro fuel
  induction fuel with
  | zero =>
    intro input p _
    exact climbs_still rfl (fun a ha => by cases ha)
  | succ fuel ih =>
    intro input p hp
    rw [regionLoop_succ]
    refine climbs_bind (batch_climbs fd L fuel input p (by omega) (by omega)) ?_
    intro x _
    split
    · rename_i hlt
      exact ih x.1 x.2 (Nat.le_of_lt hlt)
    · exact climbs_still rfl (fun a ha => by
        simp only [run_pure_def, Outcome.next.injEq] at ha
        subst ha
        exact Nat.le_refl _)

theorem region_pairwise (fd : Sink) (L fuel : Nat) (input : List Byte)
    (hL : L + 1632000 < 2 ^ 32) :
    List.Pairwise (fun x y => x ≤ y) (progressTrace (region fd L fuel input).trace) := by
  obtain ⟨c1, c2, _⟩ := regionLoop_climbs fd L hL fuel input 0 (Nat.zero_le _)
  rw [region_eq]
  simp only [progressTrace]
  exact List.Pairwise.cons (fun y hy => c2 y hy) c1

/-! ## What a run reads is an initial part of the device stream -/

theorem consumes_bind {α β : Type} {input : List Byte} {r : Run α} {k : α → Run β}
    {g : α → List Byte} {h : β → List Byte} (hr : Consumes input r g)
    (hk : ∀ a, r.out = .next a → Consumes (g a) (k a) h) :
    Consumes input (Run.bind r k) h := by
  obtain ⟨r1, r2⟩ := hr
  cases hout : r.out with
  | next a =>
    obtain ⟨⟨rest, k1⟩, k2⟩ := hk a hout
    have hin := r2 a hout
    rw [run_bind_next _ hout]
    refine ⟨⟨rest, ?_⟩, ?_⟩
    · simp only [receivedBytes_append, List.append_assoc]
      rw [← k1]
      exact hin
    · intro b hb
      simp only [receivedBytes_append, List.append_assoc]
      rw [← k2 b hb]
      exact hin
  | ret c =>
    have e : Run.bind r k = ⟨r.trace, .ret c⟩ := by simp [Run.bind, hout]
    rw [e]
    exact ⟨r1, fun b hb => by cases hb⟩
  | blocked =>
    have e : Run.bind r k = ⟨r.trace, .blocked⟩ := by simp [Run.bind, hout]
    rw [e]
    exact ⟨r1, fun b hb => by cases hb⟩
  | spin =>
    have e : Run.bind r k = ⟨r.trace, .spin⟩ := by simp [Run.bind, hout]
    rw [e]
    exact ⟨r1, fun b hb => by cases hb⟩

theorem consumes_still {α : Type} {input : List Byte} {r : Run α}
    (h : receivedBytes r.trace = []) : Consumes input r (fun _ => input) := by
  refine ⟨⟨input, ?_⟩, ?_⟩
  · rw [h]; rfl
  · intro a _; rw [h]; rfl

theorem consumes_pure {α : Type} (a : α) (g : α → List Byte) :
    Consumes (g a) (pure a : Run α) g := by
  refine ⟨⟨g a, rfl⟩, ?_⟩
  intro b hb
  simp only [run_pure_def, Outcome.next.injEq] at hb
  subst hb
  rfl

theorem readByte_consumes (input : List Byte) :
    Consumes input (readByte input) (fun x => x.2) := by
  rcases readByte_cases input with h | ⟨b, rest, rfl, h⟩
  · rw [h]; exact ⟨⟨input, rfl⟩, fun a ha => by cases ha⟩
  · rw [h]
    refine ⟨⟨rest, rfl⟩, ?_⟩
    intro a ha
    simp only [Outcome.next.injEq] at ha
    subst ha
    rfl

theorem readFrame_consumes (input : List Byte) :
    Consumes input (readFrame input) (fun x => x.2) := by
  rcases readFrame_cases input with h | ⟨f, rest, rfl, h⟩
  · rw [h]; exact ⟨⟨input, rfl⟩, fun a ha => by cases ha⟩
  · rw [h]
    refine ⟨⟨rest, by simp [receivedBytes]⟩, ?_⟩
    intro a ha
    simp only [Outcome.next.injEq] at ha
    subst ha
    simp [receivedBytes]

theorem checkStatus_received (b : Byte) : receivedBytes (checkStatus b).trace = [] := by
  unfold checkStatus
  split
  · rfl
  · split <;> rfl

theorem frameLoop_consumes (fd : Sink) (L fuel : Nat) :
    ∀ (slots : Nat) (st : BatchState),
      Consumes st.input (frameLoop fd L fuel slots st) (fun s => s.input) := by
  intro slots
  induction slots with
  | zero => intro st; exact consumes_pure st (fun s => s.input)
  | succ slots ih =>
    intro st
    rw [frameLoop_succ]
    refine consumes_bind (readFrame_consumes st.input) ?_
    intro x _
    refine consumes_bind (g := fun _ => x.2)
      (consumes_still (frameStep_quiet fd L fuel x.1 st.total_read).2.1) ?_
    intro y _
    split
    · exact consumes_pure (⟨x.2, wrapInt32 (st.checksum + x.1.sum), y.1⟩ : BatchState)
        (fun s => s.input)
    · exact ih ⟨x.2, wrapInt32 (st.checksum + x.1.sum), y.1⟩

theorem batch_consumes (fd : Sink) (L fuel : Nat) (input : List Byte) (p : Nat) :
    Consumes input (batch fd L fuel input p) (fun x => x.1) := by
  rw [batch_eq]
  refine consumes_bind (frameLoop_consumes fd L fuel frameSlots ⟨input, 0, p⟩) ?_
  intro st _
  refine consumes_bind (g := fun _ => st.input) (consumes_still rfl) ?_
  intro _ _
  refine consumes_bind (readByte_consumes st.input) ?_
  intro x _
  refine consumes_bind (g := fun _ => x.2) (consumes_still (checkStatus_received x.1)) ?_
  intro _ _
  exact consumes_pure (x.2, st.total_read) (fun x => x.1)

theorem regionLoop_consumes (fd : Sink) (L : Nat) :
    ∀ (fuel : Nat) (input : List Byte) (p : Nat),
      Consumes input (regionLoop fd L fuel input p) (fun x => x.1) := by
  intro fuel
  induction fuel with
  | zero => intro input p; exact ⟨⟨input, rfl⟩, fun a ha => by cases ha⟩
  | succ fuel ih =>
    intro input p
    rw [regionLoop_succ]
    refine consumes_bind (batch_consumes fd L fuel input p) ?_
    intro x _
    split
    · exact ih x.1 x.2
    · exact consumes_pure (x.1, x.2) (fun x => x.1)

theorem region_consumes (fd : Sink) (L fuel : Nat) (input : List Byte) :
    Consumes input (region fd L fuel input) (fun x => x.1) := by
  obtain ⟨c1, c2⟩ := regionLoop_consumes fd L fuel input 0
  rw [region_eq]
  exact ⟨c1, c2⟩

/-! ## C1: region decoding against the run-length reference -/

/-- C1: for a target `L` that is a positive multiple of 4 (a 32-bit value), run-length frames
with counts between 1 and 255 whose runs total less than `L`, then one terminal frame `t`,
every batch being accepted with `'w'`, the region loop, given fuel `L`, writes to its sink
exactly the expansion of the frames followed by `(L - 4 * total) / 4` copies of the payload of
`t`, `L` bytes in all, and falls through with progress `L`; what it has read is exactly the
frames, the terminal frame and the status bytes of the region, and the bytes `rest` that
follow are left unread. -/
theorem region_decoding (fd : Sink) (L fuel : Nat) (frames : List Frame) (t : Frame)
    (rest : List Byte) (_hpos : 0 < L) (h4 : L % 4 = 0) (h32 : L < 2 ^ 32)
    (hk : ∀ f ∈ frames, 1 ≤ f.d4.val ∧ f.d4.val ≤ 255) (hsum : 4 * runTotal frames < L)
    (ht : t.d4 = 0) (hfuel : L ≤ fuel) :
    sinkBytes fd (region fd L fuel (wire frameSlots frames t ++ rest)).trace
      = expand frames ++ (List.replicate ((L - 4 * runTotal frames) / 4) t.payload).flatten ∧
    (sinkBytes fd (region fd L fuel (wire frameSlots frames t ++ rest)).trace).length = L ∧
    (region fd L fuel (wire frameSlots frames t ++ rest)).out = .next (rest, L) ∧
    receivedBytes (region fd L fuel (wire frameSlots frames t ++ rest)).trace
      = wire frameSlots frames t := by
  have hne : ∀ f ∈ frames, f.d4 ≠ 0 := by
    intro f hf h0
    have := (hk f hf).1
    rw [h0] at this
    exact absurd this (by decide)
  obtain ⟨r1, r2, _, _⟩ := region_wire fd t rest L fuel frames ht h32 h4 hne hsum hfuel
  refine ⟨r2, ?_, r1, ?_⟩
  · rw [r2, List.length_append, length_expand, length_flatten_replicate_payload]
    omega
  · have hread := (region_consumes fd L fuel (wire frameSlots frames t ++ rest)).2 (rest, L) r1
    exact (List.append_cancel_right hread).symm

/-- The two end-to-end scenarios: target 20 with the frames `11 22 33 44 03`, `00 00 00 00 00`,
and target 8 with the single frame `AA BB CC DD 00`. -/
theorem region_decoding_witness :
    sinkBytes .dump_fd
        (region .dump_fd 20 20 [0x11, 0x22, 0x33, 0x44, 3, 0, 0, 0, 0, 0, 0x77]).trace
      = [0x11, 0x22, 0x33, 0x44, 0x11, 0x22, 0x33, 0x44, 0x11, 0x22, 0x33, 0x44,
          0, 0, 0, 0, 0, 0, 0, 0] ∧
    (region .dump_fd 20 20 [0x11, 0x22, 0x33, 0x44, 3, 0, 0, 0, 0, 0, 0x77]).out
      = .next ([], 20) ∧
    sinkBytes .dump_fd (region .dump_fd 8 8 [0xAA, 0xBB, 0xCC, 0xDD, 0, 0x77]).trace
      = [0xAA, 0xBB, 0xCC, 0xDD, 0xAA, 0xBB, 0xCC, 0xDD] :=
  ⟨(region_decoding .dump_fd 20 20 [⟨0x11, 0x22, 0x33, 0x44, 3⟩] ⟨0, 0, 0, 0, 0⟩ []
      (by decide) (by decide) (by decide) (by decide) (by decide) (by decide) (by decide)).1,
    (region_decoding .dump_fd 20 20 [⟨0x11, 0x22, 0x33, 0x44, 3⟩] ⟨0, 0, 0, 0, 0⟩ []
      (by decide) (by decide) (by decide) (by decide) (by decide) (by decide)
      (by decide)).2.2.1,
    (region_decoding .dump_fd 8 8 [] ⟨0xAA, 0xBB, 0xCC, 0xDD, 0⟩ []
      (by decide) (by decide) (by decide) (by decide) (by decide) (by decide) (by decide)).1⟩

/-! ## C2: monotonicity and bound of the progress counter -/

/-- C2, as stated, fails: with target 8 and the frames `[01,02,03,04,3]`, `[00,00,00,00,0]`
the progress of the primary region goes 0, 4, 8, 12, 16: the run of 3 is written in full and
the terminal frame adds one more word, so progress exceeds the target. -/
theorem progress_exceeds_target :
    progressTrace (region .dump_fd 8 16 [1, 2, 3, 4, 3, 0, 0, 0, 0, 0, 0x77]).trace
      = [0, 4, 8, 12, 16] ∧
    (region .dump_fd 8 16 [1, 2, 3, 4, 3, 0, 0, 0, 0, 0, 0x77]).out = .next ([], 16) ∧
    ¬ ∀ v ∈ progressTrace (region .dump_fd 8 16 [1, 2, 3, 4, 3, 0, 0, 0, 0, 0, 0x77]).trace,
        v ≤ 8 := by
  decide

/-- C2, amended: for every region and every device stream, progress never decreases as long
as the target length is below `2^32 - 1632000` (so that a batch of 1600 runs of 255 words cannot
wrap the 32-bit counter; the vector region's 8192 always qualifies); and on a stream of
run-length frames whose runs total less than a target that is a positive multiple of 4,
closed by a terminal frame, with every batch accepted, progress never exceeds the target. -/
theorem region_progress (fd : Sink) (L fuel : Nat) (input : List Byte) :
    (L + 1632000 < 2 ^ 32 →
      List.Pairwise (fun x y => x ≤ y) (progressTrace (region fd L fuel input).trace)) ∧
    (∀ (frames : List Frame) (t : Frame) (rest : List Byte),
      input = wire frameSlots frames t ++ rest → 0 < L → L % 4 = 0 → L < 2 ^ 32 →
      (∀ f ∈ frames, 1 ≤ f.d4.val ∧ f.d4.val ≤ 255) → 4 * runTotal frames < L → t.d4 = 0 →
      L ≤ fuel → ∀ v ∈ progressTrace (region fd L fuel input).trace, v ≤ L) := by
  refine ⟨region_pairwise fd L fuel input, ?_⟩
  intro frames t rest hin _ h4 h32 hk hsum ht hfuel
  have hne : ∀ f ∈ frames, f.d4 ≠ 0 := by
    intro f hf h0
    have := (hk f hf).1
    rw [h0] at this
    exact absurd this (by decide)
  rw [hin]
  exact (region_wire fd t rest L fuel frames ht h32 h4 hne hsum hfuel).2.2.2

/-- Target 20 with the frames `11 22 33 44 03`, `00 00 00 00 00`: progress 0, 4, 8, 12, 16, 20. -/
theorem region_progress_witness :
    List.Pairwise (fun x y => x ≤ y)
      (progressTrace
        (region .dump_fd 20 20 [0x11, 0x22, 0x33, 0x44, 3, 0, 0, 0, 0, 0, 0x77]).trace) ∧
    ∀ v ∈ progressTrace
        (region .dump_fd 20 20 [0x11, 0x22, 0x33, 0x44, 3, 0, 0, 0, 0, 0, 0x77]).trace,
      v ≤ 20 :=
  ⟨(region_progress .dump_fd 20 20 [0x11, 0x22, 0x33, 0x44, 3, 0, 0, 0, 0, 0, 0x77]).1
      (by decide),
    (region_progress .dump_fd 20 20 [0x11, 0x22, 0x33, 0x44, 3, 0, 0, 0, 0, 0, 0x77]).2
      [⟨0x11, 0x22, 0x33, 0x44, 3⟩] ⟨0, 0, 0, 0, 0⟩ [] (by decide) (by decide) (by decide)
      (by decide) (by decide) (by decide) (by decide) (by decide)⟩

/-! ## The whole session -/

theorem ram_dump_eq (cs : Bool) (baud : Int) (fuel : Nat) (input : List Byte) :
    ram_dump cs baud fuel (some input) =
      Run.bind (handshake cs baud input) (fun x =>
        Run.bind (region .dump_fd x.1.read_length fuel x.2) (fun y =>
          Run.bind (region .vectors_dump_fd 0x2000 fuel y.1) (fun z => finish z.1))) := rfl

theorem ram_dump_compose (cs : Bool) (baud : Int) (fuel : Nat) (input : List Byte)
    (tr1 : List Event) (neg : Negotiated) (in1 in2 in3 : List Byte) (q2 q3 : Nat)
    (h1 : handshake cs baud input = ⟨tr1, .next (neg, in1)⟩)
    (h2 : (region .dump_fd neg.read_length fuel in1).out = .next (in2, q2))
    (h3 : (region .vectors_dump_fd 0x2000 fuel in2).out = .next (in3, q3)) :
    ram_dump cs baud fuel (some input)
      = ⟨tr1 ++ ((region .dump_fd neg.read_length fuel in1).trace
            ++ ((region .vectors_dump_fd 0x2000 fuel in2).trace ++ (finish in3).trace)),
          (finish in3).out⟩ := by
  rw [ram_dump_eq, h1, run_bind_next _ rfl, run_bind_next _ h2, run_bind_next _ h3]

theorem finish_accepted (fin : Frame) (rest : List Byte) :
    finish (fin.bytes ++ statusOk :: rest)
      = ⟨[.read fin.bytes, .write (lowByte fin.sum), .read [statusOk], .close], .ret 0⟩ := by
  simp [finish, run_bind_def, Run.bind, emit, readFrame_bytes, readByte, checkStatus_ok, ret]

theorem word_val_lt (w : Word) : w.val < 2 ^ 32 := by
  have h0 := w.b0.isLt
  have h1 := w.b1.isLt
  have h2 := w.b2.isLt
  have h3 := w.b3.isLt
  unfold Word.val le32
  omega

theorem session_accepted (cs : Bool) (baud : Int) (fuel : Nat) (r : Byte) (e : Word)
    (v : List Byte) (a l : Word) (frames1 : List Frame) (t1 : Frame) (frames2 : List Frame)
    (t2 fin : Frame) (rest : List Byte) (hv : v.length = 15) (h4 : l.val % 4 = 0)
    (hk1 : ∀ f ∈ frames1, f.d4 ≠ 0) (hsum1 : 4 * runTotal frames1 < l.val) (ht1 : t1.d4 = 0)
    (hk2 : ∀ f ∈ frames2, f.d4 ≠ 0) (hsum2 : 4 * runTotal frames2 < 8192) (ht2 : t2.d4 = 0)
    (hfuel1 : l.val ≤ fuel) (hfuel2 : 8192 ≤ fuel) :
    (ram_dump cs baud fuel (some (handshakeWire r e v a l ++ (wire frameSlots frames1 t1 ++
        (wire frameSlots frames2 t2 ++ (fin.bytes ++ statusOk :: rest)))))).out = .ret 0 ∧
    sinkBytes .dump_fd (ram_dump cs baud fuel (some (handshakeWire r e v a l ++
        (wire frameSlots frames1 t1 ++ (wire frameSlots frames2 t2 ++
          (fin.bytes ++ statusOk :: rest)))))).trace
      = expand frames1
          ++ (List.replicate ((l.val - 4 * runTotal frames1) / 4) t1.payload).flatten ∧
    sinkBytes .vectors_dump_fd (ram_dump cs baud fuel (some (handshakeWire r e v a l ++
        (wire frameSlots frames1 t1 ++ (wire frameSlots frames2 t2 ++
          (fin.bytes ++ statusOk :: rest)))))).trace
      = expand frames2
          ++ (List.replicate ((8192 - 4 * runTotal frames2) / 4) t2.payload).flatten := by
  have h1 := handshake_accepted cs baud r e v a l (wire frameSlots frames1 t1 ++
    (wire frameSlots frames2 t2 ++ (fin.bytes ++ statusOk :: rest))) hv
  obtain ⟨p1, p2, p3, _⟩ := region_wire .dump_fd t1 (wire frameSlots frames2 t2 ++
    (fin.bytes ++ statusOk :: rest)) l.val fuel frames1 ht1 (word_val_lt l) h4 hk1 hsum1 hfuel1
  obtain ⟨v1, v2, v3, _⟩ := region_wire .vectors_dump_fd t2 (fin.bytes ++ statusOk :: rest)
    8192 fuel frames2 ht2 (by decide) (by decide) hk2 hsum2 hfuel2
  rw [ram_dump_compose cs baud fuel _ _ _ _ _ _ _ _ h1 p1 v1, finish_accepted]
  refine ⟨rfl, ?_, ?_⟩
  · simp only [sinkBytes_append, p2, p3 .vectors_dump_fd (by decide), v3 .dump_fd (by decide)]
    simp [sinkBytes]
  · simp only [sinkBytes_append, v2, p3 .vectors_dump_fd (by decide), v3 .dump_fd (by decide)]
    simp [sinkBytes]

/-! ## C3: size of the two output files -/

/-- C3, as stated, fails: the handshake negotiates a region length of 8, the device then sends
a run of 3 words and a terminal frame for the primary region, a terminal frame for the vector
region and a final frame, every checksum being accepted. `ram_dump` returns 0 and has written
16 bytes, not 8, to the primary file. -/
theorem primary_output_exceeds_negotiated_length :
    (handshake true 0xab
        [0x11, 0, 0, 0, 0, 0, 0x54, 0x45, 0x53, 0x54, 0x44, 0x45, 0x56, 0, 0, 0, 0, 0, 0, 0, 0,
         0x77, 0, 0, 0, 0x30, 0x77, 8, 0, 0, 0, 0x77,
         1, 2, 3, 4, 3, 0, 0, 0, 0, 0, 0x77,
         0, 0, 0, 0, 0, 0x77,
         0, 0, 0, 0, 0, 0x77]).out
      = .next (⟨0, [0x54, 0x45, 0x53, 0x54, 0x44, 0x45, 0x56, 0, 0, 0, 0, 0, 0, 0, 0],
          0x30000000, 8⟩,
          [1, 2, 3, 4, 3, 0, 0, 0, 0, 0, 0x77, 0, 0, 0, 0, 0, 0x77, 0, 0, 0, 0, 0, 0x77]) ∧
    (ram_dump true 0xab 8192 (some
        [0x11, 0, 0, 0, 0, 0, 0x54, 0x45, 0x53, 0x54, 0x44, 0x45, 0x56, 0, 0, 0, 0, 0, 0, 0, 0,
         0x77, 0, 0, 0, 0x30, 0x77, 8, 0, 0, 0, 0x77,
         1, 2, 3, 4, 3, 0, 0, 0, 0, 0, 0x77,
         0, 0, 0, 0, 0, 0x77,
         0, 0, 0, 0, 0, 0x77])).out = .ret 0 ∧
    sinkBytes .dump_fd (ram_dump true 0xab 8192 (some
        [0x11, 0, 0, 0, 0, 0, 0x54, 0x45, 0x53, 0x54, 0x44, 0x45, 0x56, 0, 0, 0, 0, 0, 0, 0, 0,
         0x77, 0, 0, 0, 0x30, 0x77, 8, 0, 0, 0, 0x77,
         1, 2, 3, 4, 3, 0, 0, 0, 0, 0, 0x77,
         0, 0, 0, 0, 0, 0x77,
         0, 0, 0, 0, 0, 0x77])).trace
      = [1, 2, 3, 4, 1, 2, 3, 4, 1, 2, 3, 4, 0, 0, 0, 0] := by
  have h1 : handshake true 0xab
      [0x11, 0, 0, 0, 0, 0, 0x54, 0x45, 0x53, 0x54, 0x44, 0x45, 0x56, 0, 0, 0, 0, 0, 0, 0, 0,
       0x77, 0, 0, 0, 0x30, 0x77, 8, 0, 0, 0, 0x77,
       1, 2, 3, 4, 3, 0, 0, 0, 0, 0, 0x77,
       0, 0, 0, 0, 0, 0x77,
       0, 0, 0, 0, 0, 0x77]
      = ⟨[.write 0xab, .read [0x11], .speed 0, .write 0xab, .read [0], .read [0, 0, 0, 0],
          .read [0x54, 0x45, 0x53, 0x54, 0x44, 0x45, 0x56, 0, 0, 0, 0, 0, 0, 0, 0],
          .write 0x1F, .read [0x77], .read [0, 0, 0, 0x30], .write 0x30, .read [0x77],
          .read [8, 0, 0, 0], .write 8, .read [0x77]],
        .next (⟨0, [0x54, 0x45, 0x53, 0x54, 0x44, 0x45, 0x56, 0, 0, 0, 0, 0, 0, 0, 0],
          0x30000000, 8⟩,
          [1, 2, 3, 4, 3, 0, 0, 0, 0, 0, 0x77, 0, 0, 0, 0, 0, 0x77, 0, 0, 0, 0, 0, 0x77])⟩ := by
    decide
  have h2 : region .dump_fd 8 8192
      [1, 2, 3, 4, 3, 0, 0, 0, 0, 0, 0x77, 0, 0, 0, 0, 0, 0x77, 0, 0, 0, 0, 0, 0x77]
      = ⟨[.progress 0, .read [1, 2, 3, 4, 3], .fwrite .dump_fd [1, 2, 3, 4], .progress 4,
          .fwrite .dump_fd [1, 2, 3, 4], .progress 8, .fwrite .dump_fd [1, 2, 3, 4],
          .progress 12, .read [0, 0, 0, 0, 0], .fwrite .dump_fd [0, 0, 0, 0], .progress 16,
          .write 0x0D, .read [0x77]],
        .next ([0, 0, 0, 0, 0, 0x77, 0, 0, 0, 0, 0, 0x77], 16)⟩ := by
    decide
  obtain ⟨v1, _, v3, _⟩ := region_wire .vectors_dump_fd ⟨0, 0, 0, 0, 0⟩ [0, 0, 0, 0, 0, 0x77]
    8192 8192 [] rfl (by decide) (by decide) (by decide) (by decide) (by decide)
  have v1a : (region .vectors_dump_fd 0x2000 8192
      [0, 0, 0, 0, 0, 0x77, 0, 0, 0, 0, 0, 0x77]).out = .next ([0, 0, 0, 0, 0, 0x77], 8192) := v1
  have h4 : finish [0, 0, 0, 0, 0, 0x77]
      = ⟨[.read [0, 0, 0, 0, 0], .write 0, .read [0x77], .close], .ret 0⟩ := by
    decide
  have hrun := ram_dump_compose true 0xab 8192 _ _ _ _ _ _ _ _ h1
    (by rw [h2] : (region .dump_fd 8 8192 _).out = .next (_, 16)) v1a
  refine ⟨by rw [h1], ?_, ?_⟩
  · rw [hrun, h4]
  · rw [hrun, h4]
    simp only [sinkBytes_append]
    rw [h2]
    have v3a : sinkBytes .dump_fd (region .vectors_dump_fd 0x2000 8192
        [0, 0, 0, 0, 0, 0x77, 0, 0, 0, 0, 0, 0x77]).trace = [] := v3 .dump_fd (by decide)
    rw [v3a]
    decide

/-- C3, amended: for every device stream that passes the handshake with a region length
that is a positive multiple of 4 and then sends, for the primary region and for the vector
region, run-length frames whose runs total less than the region's length followed by one
terminal frame, with every checksum accepted, then the final frame and `'w'`: `ram_dump`
(given fuel for the longer region) returns 0, the primary file receives exactly the
negotiated number of bytes and the vector file exactly 8192. -/
theorem session_output_sizes (cs : Bool) (baud : Int) (fuel : Nat) (r : Byte) (e : Word)
    (v : List Byte) (a l : Word) (frames1 : List Frame) (t1 : Frame) (frames2 : List Frame)
    (t2 fin : Frame) (rest : List Byte) (hv : v.length = 15)
    (_hpos : 0 < l.val) (h4 : l.val % 4 = 0)
    (hk1 : ∀ f ∈ frames1, 1 ≤ f.d4.val) (hsum1 : 4 * runTotal frames1 < l.val)
    (ht1 : t1.d4 = 0)
    (hk2 : ∀ f ∈ frames2, 1 ≤ f.d4.val) (hsum2 : 4 * runTotal frames2 < 8192)
    (ht2 : t2.d4 = 0) (hfuel1 : l.val ≤ fuel) (hfuel2 : 8192 ≤ fuel) :
    (ram_dump cs baud fuel (some (handshakeWire r e v a l ++ (wire frameSlots frames1 t1 ++
        (wire frameSlots frames2 t2 ++ (fin.bytes ++ statusOk :: rest)))))).out = .ret 0 ∧
    (sinkBytes .dump_fd (ram_dump cs baud fuel (some (handshakeWire r e v a l ++
        (wire frameSlots frames1 t1 ++ (wire frameSlots frames2 t2 ++
          (fin.bytes ++ statusOk :: rest)))))).trace).length = l.val ∧
    (sinkBytes .vectors_dump_fd (ram_dump cs baud fuel (some (handshakeWire r e v a l ++
        (wire frameSlots frames1 t1 ++ (wire frameSlots frames2 t2 ++
          (fin.bytes ++ statusOk :: rest)))))).trace).length = 8192 := by
  have hne : ∀ (fs : List Frame), (∀ f ∈ fs, 1 ≤ f.d4.val) → ∀ f ∈ fs, f.d4 ≠ 0 := by
    intro fs hfs f hf h0
    have := hfs f hf
    rw [h0] at this
    exact absurd this (by decide)
  obtain ⟨s1, s2, s3⟩ := session_accepted cs baud fuel r e v a l frames1 t1 frames2 t2 fin rest
    hv h4 (hne frames1 hk1) hsum1 ht1 (hne frames2 hk2) hsum2 ht2 hfuel1 hfuel2
  refine ⟨s1, ?_, ?_⟩
  · rw [s2, List.length_append, length_expand, length_flatten_replicate_payload]
    omega
  · rw [s3, List.length_append, length_expand, length_flatten_replicate_payload]
    omega

/-- A whole session: length 8 negotiated, one terminal frame `AA BB CC DD 00` for the primary
region, one terminal frame for the vector region, the final frame. -/
theorem session_output_sizes_witness :
    (ram_dump true 0xab 8192 (some (handshakeWire 0 ⟨0, 0, 0, 0⟩
        [0x54, 0x45, 0x53, 0x54, 0x44, 0x45, 0x56, 0, 0, 0, 0, 0, 0, 0, 0]
        ⟨0, 0, 0, 0x30⟩ ⟨8, 0, 0, 0⟩ ++ (wire frameSlots [] ⟨0xAA, 0xBB, 0xCC, 0xDD, 0⟩ ++
        (wire frameSlots [] ⟨0, 0, 0, 0, 0⟩ ++
          (Frame.bytes ⟨0, 0, 0, 0, 0⟩ ++ statusOk :: [])))))).out = .ret 0 ∧
    (sinkBytes .dump_fd (ram_dump true 0xab 8192 (some (handshakeWire 0 ⟨0, 0, 0, 0⟩
        [0x54, 0x45, 0x53, 0x54, 0x44, 0x45, 0x56, 0, 0, 0, 0, 0, 0, 0, 0]
        ⟨0, 0, 0, 0x30⟩ ⟨8, 0, 0, 0⟩ ++ (wire frameSlots [] ⟨0xAA, 0xBB, 0xCC, 0xDD, 0⟩ ++
        (wire frameSlots [] ⟨0, 0, 0, 0, 0⟩ ++
          (Frame.bytes ⟨0, 0, 0, 0, 0⟩ ++ statusOk :: [])))))).trace).length
      = Word.val ⟨8, 0, 0, 0⟩ ∧
    (sinkBytes .vectors_dump_fd (ram_dump true 0xab 8192 (some (handshakeWire 0 ⟨0, 0, 0, 0⟩
        [0x54, 0x45, 0x53, 0x54, 0x44, 0x45, 0x56, 0, 0, 0, 0, 0, 0, 0, 0]
        ⟨0, 0, 0, 0x30⟩ ⟨8, 0, 0, 0⟩ ++ (wire frameSlots [] ⟨0xAA, 0xBB, 0xCC, 0xDD, 0⟩ ++
        (wire frameSlots [] ⟨0, 0, 0, 0, 0⟩ ++
          (Frame.bytes ⟨0, 0, 0, 0, 0⟩ ++ statusOk :: [])))))).trace).length = 8192 :=
  session_output_sizes true 0xab 8192 0 ⟨0, 0, 0, 0⟩
    [0x54, 0x45, 0x53, 0x54, 0x44, 0x45, 0x56, 0, 0, 0, 0, 0, 0, 0, 0]
    ⟨0, 0, 0, 0x30⟩ ⟨8, 0, 0, 0⟩ [] ⟨0xAA, 0xBB, 0xCC, 0xDD, 0⟩ [] ⟨0, 0, 0, 0, 0⟩
    ⟨0, 0, 0, 0, 0⟩ [] (by decide) (by decide) (by decide) (by decide) (by decide) (by decide)
    (by decide) (by decide) (by decide) (by decide) (by decide)

/-! ## Calls of `close` along the return paths -/

theorem tidy_bind {α β : Type} {r : Run α} {k : α → Run β} (hr : Tidy r)
    (hk : ∀ a, r.out = .next a → Tidy (k a)) : Tidy (Run.bind r k) := by
  obtain ⟨r1, r2⟩ := hr
  cases hout : r.out with
  | next a =>
    obtain ⟨k1, k2⟩ := hk a hout
    rw [run_bind_next _ hout]
    refine ⟨?_, ?_⟩
    · intro b hb
      simp only [closeCount_append, r1 a hout, k1 b hb]
    · intro c hc
      simp only [closeCount_append, r1 a hout, k2 c hc]
  | ret c =>
    have e : Run.bind r k = ⟨r.trace, .ret c⟩ := by simp [Run.bind, hout]
    rw [e]
    exact ⟨fun b hb => (by cases hb), fun c1 _ => r2 c hout⟩
  | blocked =>
    have e : Run.bind r k = ⟨r.trace, .blocked⟩ := by simp [Run.bind, hout]
    rw [e]
    exact ⟨fun b hb => (by cases hb), fun c1 hc => (by cases hc)⟩
  | spin =>
    have e : Run.bind r k = ⟨r.trace, .spin⟩ := by simp [Run.bind, hout]
    rw [e]
    exact ⟨fun b hb => (by cases hb), fun c1 hc => (by cases hc)⟩

theorem tidy_still {α : Type} {r : Run α} (h1 : closeCount r.trace = 0)
    (h2 : ∀ c, r.out ≠ .ret c) : Tidy r :=
  ⟨fun _ _ => h1, fun c hc => absurd hc (h2 c)⟩

theorem readByte_tidy (input : List Byte) : Tidy (readByte input) := by
  rcases readByte_cases input with h | ⟨b, rest, _, h⟩ <;> rw [h] <;>
    exact tidy_still rfl (fun c hc => by cases hc)

theorem readFrame_tidy (input : List Byte) : Tidy (readFrame input) := by
  rcases readFrame_cases input with h | ⟨f, rest, _, h⟩ <;> rw [h] <;>
    exact tidy_still rfl (fun c hc => by cases hc)

theorem readWord_tidy (input : List Byte) : Tidy (readWord input) := by
  match input with
  | [] => exact tidy_still rfl (fun c hc => by cases hc)
  | [_] => exact tidy_still rfl (fun c hc => by cases hc)
  | [_, _] => exact tidy_still rfl (fun c hc => by cases hc)
  | [_, _, _] => exact tidy_still rfl (fun c hc => by cases hc)
  | _ :: _ :: _ :: _ :: _ => exact tidy_still rfl (fun c hc => by cases hc)

theorem readN_tidy (n : Nat) (input : List Byte) : Tidy (readN n input) := by
  unfold readN
  split <;> exact tidy_still rfl (fun c hc => by cases hc)

theorem checkStatus_tidy (b : Byte) : Tidy (checkStatus b) := by
  unfold checkStatus
  split
  · exact tidy_still rfl (fun c hc => by cases hc)
  · split
    · exact ⟨fun a ha => (by cases ha), fun _ _ => rfl⟩
    · exact ⟨fun a ha => (by cases ha), fun _ _ => rfl⟩

theorem emit_tidy (e : Event) (h : e ≠ .close) : Tidy (emit e) := by
  refine tidy_still ?_ (fun c hc => by cases hc)
  cases e <;> first | rfl | exact absurd rfl h

theorem frameStep_never_returns (fd : Sink) (L fuel : Nat) (f : Frame) (p : Nat) (c : Int) :
    (frameStep fd L fuel f p).out ≠ .ret c := by
  have hflush : ∀ (n q : Nat), (flush fd f L n q).out ≠ .ret c := by
    intro n
    induction n with
    | zero => intro q h; cases h
    | succ n ih =>
      intro q
      rw [flush_step]
      split
      · exact ih _
      · intro h; cases h
  rw [frameStep_eq]
  split
  · intro h
    cases hf : (flush fd f L fuel p).out with
    | next t => rw [hf] at h; cases h
    | ret c1 => exact hflush fuel p (by rw [hf] at h ⊢; simpa using h)
    | blocked => rw [hf] at h; cases h
    | spin => rw [hf] at h; cases h
  · intro h; cases h

theorem frameLoop_tidy (fd : Sink) (L fuel : Nat) :
    ∀ (slots : Nat) (st : BatchState), Tidy (frameLoop fd L fuel slots st) := by
  intro slots
  induction slots with
  | zero => intro st; exact tidy_still rfl (fun c hc => by cases hc)
  | succ slots ih =>
    intro st
    rw [frameLoop_succ]
    refine tidy_bind (readFrame_tidy st.input) ?_
    intro x _
    refine tidy_bind (tidy_still (frameStep_quiet fd L fuel x.1 st.total_read).2.2
      (frameStep_never_returns fd L fuel x.1 st.total_read)) ?_
    intro y _
    split
    · exact tidy_still rfl (fun c hc => by cases hc)
    · exact ih _

theorem batch_tidy (fd : Sink) (L fuel : Nat) (input : List Byte) (p : Nat) :
    Tidy (batch fd L fuel input p) := by
  rw [batch_eq]
  refine tidy_bind (frameLoop_tidy fd L fuel frameSlots ⟨input, 0, p⟩) ?_
  intro st _
  refine tidy_bind (emit_tidy _ (fun h => by cases h)) ?_
  intro _ _
  refine tidy_bind (readByte_tidy st.input) ?_
  intro x _
  refine tidy_bind (checkStatus_tidy x.1) ?_
  intro _ _
  exact tidy_still rfl (fun c hc => by cases hc)

theorem regionLoop_tidy (fd : Sink) (L : Nat) :
    ∀ (fuel : Nat) (input : List Byte) (p : Nat), Tidy (regionLoop fd L fuel input p) := by
  intro fuel
  induction fuel with
  | zero => intro input p; exact tidy_still rfl (fun c hc => by cases hc)
  | succ fuel ih =>
    intro input p
    rw [regionLoop_succ]
    refine tidy_bind (batch_tidy fd L fuel input p) ?_
    intro x _
    split
    · exact ih x.1 x.2
    · exact tidy_still rfl (fun c hc => by cases hc)

theorem region_tidy (fd : Sink) (L fuel : Nat) (input : List Byte) :
    Tidy (region fd L fuel input) := by
  obtain ⟨c1, c2⟩ := regionLoop_tidy fd L fuel input 0
  rw [region_eq]
  exact ⟨c1, c2⟩

theorem finish_eq (input : List Byte) :
    finish input =
      Run.bind (readFrame input) (fun x =>
        Run.bind (emit (.write (lowByte (x.1.sum : Int)))) (fun _ =>
          Run.bind (readByte x.2) (fun y =>
            Run.bind (checkStatus y.1) (fun _ =>
              Run.bind (emit .close) (fun _ => ret 0))))) := rfl

theorem finish_tidy (input : List Byte) : Tidy (finish input) := by
  rw [finish_eq]
  refine tidy_bind (readFrame_tidy input) ?_
  intro x _
  refine tidy_bind (emit_tidy _ (fun h => by cases h)) ?_
  intro _ _
  refine tidy_bind (readByte_tidy x.2) ?_
  intro y _
  refine tidy_bind (checkStatus_tidy y.1) ?_
  intro _ _
  exact ⟨fun a ha => (by cases ha), fun _ _ => rfl⟩

theorem handshake_eq (cs : Bool) (baud : Int) (input : List Byte) :
    handshake cs baud input =
      Run.bind (emit (.write (lowByte baud))) (fun _ =>
        Run.bind (readByte input) (fun x =>
          if x.1 ≠ 0x11 then ret 1 else
            Run.bind (emit (.speed (baud - 0xab))) (fun _ =>
              Run.bind (emit (.write 0xab)) (fun _ =>
                Run.bind (readByte x.2) (fun y =>
                  Run.bind (readWord y.2) (fun e =>
                    Run.bind (readN 15 e.2) (fun v =>
                      Run.bind (emit (.write (lowByte
                          (addChars cs (checksumInt (toInt32 e.1)) v.1)))) (fun _ =>
                        Run.bind (readByte v.2) (fun s1 =>
                          Run.bind (checkStatus s1.1) (fun _ =>
                            Run.bind (readWord s1.2) (fun a =>
                              Run.bind (emit (.write (lowByte (checksumU32 a.1)))) (fun _ =>
                                Run.bind (readByte a.2) (fun s2 =>
                                  Run.bind (checkStatus s2.1) (fun _ =>
                                    Run.bind (readWord s2.2) (fun l =>
                                      Run.bind (emit (.write (lowByte (checksumU32 l.1))))
                                        (fun _ =>
                                        Run.bind (readByte l.2) (fun s3 =>
                                          Run.bind (checkStatus s3.1) (fun _ =>
                                            pure (⟨toInt32 e.1, v.1, a.1, l.1⟩,
                                              s3.2))))))))))))))))))) := by
  unfold handshake
  simp only [run_bind_def]
  rfl

theorem handshake_tidy (cs : Bool) (baud : Int) (rest : List Byte) :
    Tidy (handshake cs baud (0x11 :: rest)) := by
  rw [handshake_eq]
  refine tidy_bind (emit_tidy _ (fun h => by cases h)) ?_
  intro _ _
  refine tidy_bind (readByte_tidy _) ?_
  intro x hx
  have hx1 : x.1 = 0x11 := by
    simp only [readByte, Outcome.next.injEq] at hx
    rw [← hx]
  rw [if_neg (by rw [hx1]; decide)]
  refine tidy_bind (emit_tidy _ (fun h => by cases h)) ?_
  intro _ _
  refine tidy_bind (emit_tidy _ (fun h => by cases h)) ?_
  intro _ _
  refine tidy_bind (readByte_tidy _) ?_
  intro y _
  refine tidy_bind (readWord_tidy _) ?_
  intro e _
  refine tidy_bind (readN_tidy _ _) ?_
  intro v _
  refine tidy_bind (emit_tidy _ (fun h => by cases h)) ?_
  intro _ _
  refine tidy_bind (readByte_tidy _) ?_
  intro s1 _
  refine tidy_bind (checkStatus_tidy _) ?_
  intro _ _
  refine tidy_bind (readWord_tidy _) ?_
  intro a _
  refine tidy_bind (emit_tidy _ (fun h => by cases h)) ?_
  intro _ _
  refine tidy_bind (readByte_tidy _) ?_
  intro s2 _
  refine tidy_bind (checkStatus_tidy _) ?_
  intro _ _
  refine tidy_bind (readWord_tidy _) ?_
  intro l _
  refine tidy_bind (emit_tidy _ (fun h => by cases h)) ?_
  intro _ _
  refine tidy_bind (readByte_tidy _) ?_
  intro s3 _
  refine tidy_bind (checkStatus_tidy _) ?_
  intro _ _
  exact tidy_still rfl (fun c hc => by cases hc)

/-- Whenever the first reply is 0x11, every `return` of `ram_dump`, whatever its code, comes
after exactly one call of `close`. -/
theorem ram_dump_tidy (cs : Bool) (baud : Int) (fuel : Nat) (rest : List Byte) :
    Tidy (ram_dump cs baud fuel (some (0x11 :: rest))) := by
  rw [ram_dump_eq]
  refine tidy_bind (handshake_tidy cs baud rest) ?_
  intro x _
  refine tidy_bind (region_tidy _ _ _ _) ?_
  intro y _
  refine tidy_bind (region_tidy _ _ _ _) ?_
  intro z _
  exact finish_tidy z.1

/-- Whenever the first reply is not 0x11, `ram_dump` returns 1 after one write and one read,
without any call of `close`. -/
theorem ram_dump_not_ready (cs : Bool) (baud : Int) (fuel : Nat) (b : Byte) (rest : List Byte)
    (hb : b ≠ 0x11) :
    ram_dump cs baud fuel (some (b :: rest)) = ⟨[.write (lowByte baud), .read [b]], .ret 1⟩ := by
  rw [ram_dump_eq, handshake_eq]
  simp [Run.bind, emit, readByte, hb, ret]

/-! ## How a batch, a region and the session return -/

theorem run_bind_ret {α β : Type} {r : Run α} {c : Int} (k : α → Run β) (h : r.out = .ret c) :
    Run.bind r k = ⟨r.trace, .ret c⟩ := by
  simp [Run.bind, h]

theorem run_bind_ret_cases {α β : Type} {r : Run α} {k : α → Run β} {c : Int}
    (h : (Run.bind r k).out = .ret c) :
    r.out = .ret c ∨ ∃ a, r.out = .next a ∧ (k a).out = .ret c := by
  unfold Run.bind at h
  cases hr : r.out with
  | next a => rw [hr] at h; exact Or.inr ⟨a, rfl, h⟩
  | ret c1 => rw [hr] at h; simp only [Outcome.ret.injEq] at h; subst h; exact Or.inl rfl
  | blocked => rw [hr] at h; cases h
  | spin => rw [hr] at h; cases h

theorem run_bind_next_cases {α β : Type} {r : Run α} {k : α → Run β} {b : β}
    (h : (Run.bind r k).out = .next b) : ∃ a, r.out = .next a ∧ (k a).out = .next b := by
  unfold Run.bind at h
  cases hr : r.out with
  | next a => rw [hr] at h; exact ⟨a, rfl, h⟩
  | ret c1 => rw [hr] at h; cases h
  | blocked => rw [hr] at h; cases h
  | spin => rw [hr] at h; cases h

theorem frameLoop_never_returns (fd : Sink) (L fuel : Nat) (c : Int) :
    ∀ (slots : Nat) (st : BatchState), (frameLoop fd L fuel slots st).out ≠ .ret c := by
  intro slots
  induction slots with
  | zero => intro st h; cases h
  | succ slots ih =>
    intro st h
    rw [frameLoop_succ] at h
    rcases run_bind_ret_cases h with h1 | ⟨x, _, h1⟩
    · rcases readFrame_cases st.input with e | ⟨f, rest, _, e⟩ <;> rw [e] at h1 <;> cases h1
    · rcases run_bind_ret_cases h1 with h2 | ⟨y, _, h2⟩
      · exact frameStep_never_returns fd L fuel x.1 st.total_read c h2
      · split at h2
        · cases h2
        · exact ih _ h2

theorem checkStatus_abort (b : Byte) (hb : b ≠ statusOk) :
    checkStatus b = ⟨[.close], .ret (abortCode b)⟩ := by
  unfold checkStatus abortCode
  rw [if_neg hb]
  split <;> rfl

/-- The three-way `switch` of a batch: once the frame loop of the batch has fallen through and
the device sends `b`, the batch falls through on `'w'` and otherwise closes the transport and
returns. -/
theorem batch_dispatch (fd : Sink) (L fuel : Nat) (input : List Byte) (p : Nat)
    (st1 : BatchState) (b : Byte) (rest : List Byte)
    (hfl : (frameLoop fd L fuel frameSlots ⟨input, 0, p⟩).out = .next st1)
    (hin : st1.input = b :: rest) :
    batch fd L fuel input p
      = if b = statusOk then
          ⟨(frameLoop fd L fuel frameSlots ⟨input, 0, p⟩).trace
              ++ [.write (lowByte st1.checksum), .read [b]], .next (rest, st1.total_read)⟩
        else
          ⟨(frameLoop fd L fuel frameSlots ⟨input, 0, p⟩).trace
              ++ [.write (lowByte st1.checksum), .read [b], .close], .ret (abortCode b)⟩ := by
  rw [batch_eq, run_bind_next _ hfl]
  split
  · rename_i hb
    subst hb
    simp [Run.bind, emit, readByte, hin, checkStatus_ok, run_pure_def]
  · rename_i hb
    simp [Run.bind, emit, readByte, hin, checkStatus_abort b hb]

theorem batch_ret (fd : Sink) (L fuel : Nat) (input : List Byte) (p : Nat) (c : Int)
    (h : (batch fd L fuel input p).out = .ret c) :
    ∃ st1 b rest, (frameLoop fd L fuel frameSlots ⟨input, 0, p⟩).out = .next st1 ∧
      st1.input = b :: rest ∧ b ≠ statusOk ∧ c = abortCode b ∧
      batch fd L fuel input p
        = ⟨(frameLoop fd L fuel frameSlots ⟨input, 0, p⟩).trace
            ++ [.write (lowByte st1.checksum), .read [b], .close], .ret c⟩ := by
  cases hfl : (frameLoop fd L fuel frameSlots ⟨input, 0, p⟩).out with
  | next st1 =>
    cases hin : st1.input with
    | nil =>
      rw [batch_eq, run_bind_next _ hfl] at h
      simp [Run.bind, emit, readByte, hin] at h
    | cons b rest =>
      have hd := batch_dispatch fd L fuel input p st1 b rest hfl hin
      by_cases hb : b = statusOk
      · rw [hd, if_pos hb] at h
        cases h
      · rw [if_neg hb] at hd
        rw [hd] at h
        simp only [Outcome.ret.injEq] at h
        exact ⟨st1, b, rest, rfl, hin, hb, h.symm, by rw [hd, h]⟩
  | ret c1 => exact absurd hfl (frameLoop_never_returns fd L fuel c1 _ _)
  | blocked =>
    rw [batch_eq] at h
    simp [Run.bind, hfl] at h
  | spin =>
    rw [batch_eq] at h
    simp [Run.bind, hfl] at h

theorem regionLoop_ret (fd : Sink) (L : Nat) (c : Int) :
    ∀ (fuel : Nat) (s : List Byte) (p : Nat), (regionLoop fd L fuel s p).out = .ret c →
      ∃ pre fuel1 s1 p1, (regionLoop fd L fuel s p).trace = pre ++ (batch fd L fuel1 s1 p1).trace ∧
        (batch fd L fuel1 s1 p1).out = .ret c := by
  intro fuel
  induction fuel with
  | zero => intro s p h; cases h
  | succ fuel ih =>
    intro s p h
    rw [regionLoop_succ] at h ⊢
    rcases run_bind_ret_cases h with h1 | ⟨x, hx, h1⟩
    · exact ⟨[], fuel, s, p, by rw [run_bind_ret _ h1]; rfl, h1⟩
    · rw [run_bind_next _ hx]
      split at h1
      · rename_i hlt
        obtain ⟨pre, fuel1, s1, p1, e1, e2⟩ := ih x.1 x.2 h1
        refine ⟨(batch fd L fuel s p).trace ++ pre, fuel1, s1, p1, ?_, e2⟩
        simp only [hlt, if_true, e1, List.append_assoc]
      · cases h1

theorem region_ret (fd : Sink) (L fuel : Nat) (s : List Byte) (c : Int)
    (h : (region fd L fuel s).out = .ret c) :
    ∃ pre fuel1 s1 p1, (region fd L fuel s).trace = pre ++ (batch fd L fuel1 s1 p1).trace ∧
      (batch fd L fuel1 s1 p1).out = .ret c := by
  rw [region_eq] at h ⊢
  obtain ⟨pre, fuel1, s1, p1, e1, e2⟩ := regionLoop_ret fd L c fuel s 0 h
  exact ⟨.progress 0 :: pre, fuel1, s1, p1, by simp only [e1, List.cons_append], e2⟩

theorem run_bind_trace_grows {α β : Type} (r : Run α) (k : α → Run β) :
    ∃ more, (Run.bind r k).trace = r.trace ++ more := by
  unfold Run.bind
  cases r.out with
  | next a => exact ⟨(k a).trace, rfl⟩
  | ret c => exact ⟨[], by simp⟩
  | blocked => exact ⟨[], by simp⟩
  | spin => exact ⟨[], by simp⟩

theorem aborts_bind {α β : Type} {r : Run α} {k : α → Run β} (hr : Aborts r)
    (hk : ∀ a, r.out = .next a → Aborts (k a)) : Aborts (Run.bind r k) := by
  intro c hc
  rcases run_bind_ret_cases hc with h | ⟨a, ha, h⟩
  · exact hr c h
  · exact hk a ha c h

theorem aborts_of_never {α : Type} {r : Run α} (h : ∀ c, r.out ≠ .ret c) : Aborts r :=
  fun c hc => absurd hc (h c)

theorem readByte_never_returns (input : List Byte) (c : Int) : (readByte input).out ≠ .ret c := by
  rcases readByte_cases input with h | ⟨b, rest, _, h⟩ <;> rw [h] <;> intro h1 <;> cases h1

theorem readFrame_never_returns (input : List Byte) (c : Int) :
    (readFrame input).out ≠ .ret c := by
  rcases readFrame_cases input with h | ⟨f, rest, _, h⟩ <;> rw [h] <;> intro h1 <;> cases h1

theorem readWord_never_returns (input : List Byte) (c : Int) : (readWord input).out ≠ .ret c := by
  match input with
  | [] => intro h; cases h
  | [_] => intro h; cases h
  | [_, _] => intro h; cases h
  | [_, _, _] => intro h; cases h
  | _ :: _ :: _ :: _ :: _ => intro h; cases h

theorem readN_never_returns (n : Nat) (input : List Byte) (c : Int) :
    (readN n input).out ≠ .ret c := by
  unfold readN
  split <;> intro h <;> cases h

theorem abortCode_cases (b : Byte) : abortCode b = 1 ∨ abortCode b = 68 := by
  unfold abortCode
  split
  · exact Or.inr rfl
  · exact Or.inl rfl

theorem checkStatus_aborts (b : Byte) : Aborts (checkStatus b) := by
  intro c hc
  by_cases hb : b = statusOk
  · rw [hb, checkStatus_ok] at hc
    cases hc
  · rw [checkStatus_abort b hb] at hc
    simp only [Outcome.ret.injEq] at hc
    rw [← hc]
    exact abortCode_cases b

theorem handshake_aborts (cs : Bool) (baud : Int) (input : List Byte) :
    Aborts (handshake cs baud input) := by
  rw [handshake_eq]
  refine aborts_bind (aborts_of_never (fun c h => by cases h)) ?_
  intro _ _
  refine aborts_bind (aborts_of_never (readByte_never_returns _)) ?_
  intro x _
  split
  · intro c hc
    simp only [ret, Outcome.ret.injEq] at hc
    exact Or.inl hc.symm
  refine aborts_bind (aborts_of_never (fun c h => by cases h)) ?_
  intro _ _
  refine aborts_bind (aborts_of_never (fun c h => by cases h)) ?_
  intro _ _
  refine aborts_bind (aborts_of_never (readByte_never_returns _)) ?_
  intro y _
  refine aborts_bind (aborts_of_never (readWord_never_returns _)) ?_
  intro e _
  refine aborts_bind (aborts_of_never (readN_never_returns _ _)) ?_
  intro v _
  refine aborts_bind (aborts_of_never (fun c h => by cases h)) ?_
  intro _ _
  refine aborts_bind (aborts_of_never (readByte_never_returns _)) ?_
  intro s1 _
  refine aborts_bind (checkStatus_aborts _) ?_
  intro _ _
  refine aborts_bind (aborts_of_never (readWord_never_returns _)) ?_
  intro a _
  refine aborts_bind (aborts_of_never (fun c h => by cases h)) ?_
  intro _ _
  refine aborts_bind (aborts_of_never (readByte_never_returns _)) ?_
  intro s2 _
  refine aborts_bind (checkStatus_aborts _) ?_
  intro _ _
  refine aborts_bind (aborts_of_never (readWord_never_returns _)) ?_
  intro l _
  refine aborts_bind (aborts_of_never (fun c h => by cases h)) ?_
  intro _ _
  refine aborts_bind (aborts_of_never (readByte_never_returns _)) ?_
  intro s3 _
  refine aborts_bind (checkStatus_aborts _) ?_
  intro _ _
  exact aborts_of_never (fun c h => by cases h)

theorem region_aborts (fd : Sink) (L fuel : Nat) (s : List Byte) : Aborts (region fd L fuel s) := by
  intro c hc
  obtain ⟨_, fuel1, s1, p1, _, hb⟩ := region_ret fd L fuel s c hc
  obtain ⟨_, b, _, _, _, _, hcode, _⟩ := batch_ret fd L fuel1 s1 p1 c hb
  rw [hcode]
  exact abortCode_cases b

/-- The final exchange: one frame, its checksum, one status byte, then `close` and the return
code decided by the status byte alone. -/
theorem finish_dispatch (f : Frame) (b : Byte) (rest : List Byte) :
    finish (f.bytes ++ b :: rest)
      = ⟨[.read f.bytes, .write (lowByte f.sum), .read [b], .close],
          .ret (if b = statusOk then 0 else abortCode b)⟩ := by
  by_cases hb : b = statusOk
  · subst hb
    simp [finish, run_bind_def, Run.bind, emit, readFrame_bytes, readByte, checkStatus_ok, ret]
  · simp [finish, run_bind_def, Run.bind, emit, readFrame_bytes, readByte,
      checkStatus_abort b hb, hb]

theorem finish_ret (s : List Byte) (c : Int) (h : (finish s).out = .ret c) :
    ∃ (f : Frame) (b : Byte) (rest : List Byte), s = f.bytes ++ b :: rest := by
  rcases readFrame_cases s with e | ⟨f, rest, rfl, _⟩
  · rw [finish_eq, e] at h
    simp [Run.bind] at h
  · cases rest with
    | nil =>
      rw [finish_eq, readFrame_bytes] at h
      simp [Run.bind, emit, readByte] at h
    | cons b rest => exact ⟨f, b, rest, rfl⟩

/-- A `return 0` of `ram_dump` can only be the last statement: the handshake and both regions
have fallen through, and the final status byte was `'w'`. -/
theorem ram_dump_ret_zero (cs : Bool) (baud : Int) (fuel : Nat) (input : List Byte)
    (h : (ram_dump cs baud fuel (some input)).out = .ret 0) :
    ∃ (tr1 : List Event) (neg : Negotiated) (in1 in2 : List Byte) (q2 q3 : Nat) (f : Frame)
      (rest : List Byte),
      handshake cs baud input = ⟨tr1, .next (neg, in1)⟩ ∧
      (region .dump_fd neg.read_length fuel in1).out = .next (in2, q2) ∧
      (region .vectors_dump_fd 0x2000 fuel in2).out = .next (f.bytes ++ statusOk :: rest, q3) := by
  have hz : ∀ {α : Type} (r : Run α), Aborts r → r.out ≠ .ret 0 := by
    intro α r hr h0
    rcases hr 0 h0 with h1 | h1 <;> exact absurd h1 (by decide)
  rw [ram_dump_eq] at h
  rcases run_bind_ret_cases h with h1 | ⟨x, hx, h1⟩
  · exact absurd h1 (hz _ (handshake_aborts cs baud input))
  · rcases run_bind_ret_cases h1 with h2 | ⟨y, hy, h2⟩
    · exact absurd h2 (hz _ (region_aborts _ _ _ _))
    · rcases run_bind_ret_cases h2 with h3 | ⟨z, hzz, h3⟩
      · exact absurd h3 (hz _ (region_aborts _ _ _ _))
      · obtain ⟨f, b, rest, hs⟩ := finish_ret z.1 0 h3
        have hb : b = statusOk := by
          by_contra hb
          rw [hs, finish_dispatch, if_neg hb] at h3
          simp only [Outcome.ret.injEq] at h3
          rcases abortCode_cases b with e | e <;> rw [e] at h3 <;> exact absurd h3 (by decide)
        subst hb
        refine ⟨(handshake cs baud input).trace, x.1, x.2, y.1, y.2, z.2, f, rest, ?_, hy, ?_⟩
        · cases hh : handshake cs baud input with
          | mk tr o =>
            rw [hh] at hx
            simp only at hx
            rw [hx]
        · rw [hzz, ← hs]

/-! ## C13 and C15: the readiness check and the finalization exchange -/

theorem handshake_ready_head (cs : Bool) (baud : Int) (rest : List Byte) :
    ∃ tail, (handshake cs baud (0x11 :: rest)).trace
      = [.write (lowByte baud), .read [0x11], .speed (baud - 0xab), .write 0xab] ++ tail := by
  rw [handshake_eq, run_bind_next _ (rfl : (emit _).out = .next ()),
    run_bind_next _ (rfl : (readByte (0x11 :: rest)).out = .next (0x11, rest))]
  simp only [ne_eq, not_true_eq_false, if_false]
  rw [run_bind_next _ (rfl : (emit _).out = .next ()),
    run_bind_next _ (rfl : (emit _).out = .next ())]
  exact ⟨_, rfl⟩

/-- C13: for every first reply `r`, the host goes on to select the speed and write the
acknowledgment 0xAB exactly when `r = 0x11`; for every other `r`, `ram_dump` returns 1 having
written only the baud selector, read only that one byte, and written nothing to either file. -/
theorem readiness_check (cs : Bool) (baud : Int) (fuel : Nat) (r : Byte) (rest : List Byte) :
    (r = 0x11 → ∃ tail, (ram_dump cs baud fuel (some (r :: rest))).trace
      = [.write (lowByte baud), .read [0x11], .speed (baud - 0xab), .write 0xab] ++ tail) ∧
    (r ≠ 0x11 →
      ram_dump cs baud fuel (some (r :: rest)) = ⟨[.write (lowByte baud), .read [r]], .ret 1⟩ ∧
      sentBytes (ram_dump cs baud fuel (some (r :: rest))).trace = [lowByte baud] ∧
      receivedBytes (ram_dump cs baud fuel (some (r :: rest))).trace = [r] ∧
      sinkBytes .dump_fd (ram_dump cs baud fuel (some (r :: rest))).trace = [] ∧
      sinkBytes .vectors_dump_fd (ram_dump cs baud fuel (some (r :: rest))).trace = []) ∧
    (2 ≤ (sentBytes (ram_dump cs baud fuel (some (r :: rest))).trace).length ↔ r = 0x11) := by
  have hyes : r = 0x11 → ∃ tail, (ram_dump cs baud fuel (some (r :: rest))).trace
      = [.write (lowByte baud), .read [0x11], .speed (baud - 0xab), .write 0xab] ++ tail := by
    intro hr
    subst hr
    obtain ⟨tail, ht⟩ := handshake_ready_head cs baud rest
    rw [ram_dump_eq]
    obtain ⟨more, hm⟩ := run_bind_trace_grows (handshake cs baud (0x11 :: rest))
      (fun x => Run.bind (region .dump_fd x.1.read_length fuel x.2) (fun y =>
        Run.bind (region .vectors_dump_fd 0x2000 fuel y.1) (fun z => finish z.1)))
    exact ⟨tail ++ more, by rw [hm, ht, List.append_assoc]⟩
  have hno : r ≠ 0x11 →
      ram_dump cs baud fuel (some (r :: rest)) = ⟨[.write (lowByte baud), .read [r]], .ret 1⟩ :=
    ram_dump_not_ready cs baud fuel r rest
  refine ⟨hyes, ?_, ?_⟩
  · intro hr
    rw [hno hr]
    exact ⟨rfl, rfl, rfl, rfl, rfl⟩
  · constructor
    · intro h2
      by_contra hr
      rw [hno hr] at h2
      simp [sentBytes] at h2
    · intro hr
      obtain ⟨tail, ht⟩ := hyes hr
      rw [ht]
      simp [sentBytes, sentBytes_append]

/-- The replies 0x11 and 0x00 to the default selector 0xAB. -/
theorem readiness_check_witness :
    (∃ tail, (ram_dump true 0xab 0 (some [0x11])).trace
      = [.write (lowByte 0xab), .read [0x11], .speed (0xab - 0xab), .write 0xab] ++ tail) ∧
    ram_dump true 0xab 0 (some [0x00]) = ⟨[.write (lowByte 0xab), .read [0x00]], .ret 1⟩ :=
  ⟨(readiness_check true 0xab 0 0x11 []).1 rfl,
    ((readiness_check true 0xab 0 0x00 []).2.1 (by decide)).1⟩

/-- C15: once the vector region has fallen through, `ram_dump` reads one 5-byte frame `f`,
writes the one byte `(f.d0 + f.d1 + f.d2 + f.d3 + f.d4) mod 256`, reads one status byte `b`,
closes the transport and returns; whatever the frame holds, its repeat-count byte included,
these events write nothing to either file, and the return code is 0 if and only if `b` is
`'w'` (otherwise `'D'` for `'D'` and 1 for any other byte). -/
theorem finalization (cs : Bool) (baud : Int) (fuel : Nat) (input : List Byte)
    (tr1 : List Event) (neg : Negotiated) (in1 in2 : List Byte) (q2 q3 : Nat) (f : Frame)
    (b : Byte) (rest : List Byte)
    (h1 : handshake cs baud input = ⟨tr1, .next (neg, in1)⟩)
    (h2 : (region .dump_fd neg.read_length fuel in1).out = .next (in2, q2))
    (h3 : (region .vectors_dump_fd 0x2000 fuel in2).out = .next (f.bytes ++ b :: rest, q3)) :
    ram_dump cs baud fuel (some input)
      = ⟨tr1 ++ ((region .dump_fd neg.read_length fuel in1).trace
            ++ ((region .vectors_dump_fd 0x2000 fuel in2).trace
              ++ [.read f.bytes, .write (lowByte f.sum), .read [b], .close])),
          .ret (if b = statusOk then 0 else abortCode b)⟩ ∧
    (lowByte f.sum).val = byteSum f.bytes % 256 ∧
    sinkBytes .dump_fd [.read f.bytes, .write (lowByte f.sum), .read [b], .close] = [] ∧
    sinkBytes .vectors_dump_fd [.read f.bytes, .write (lowByte f.sum), .read [b], .close] = [] ∧
    ((ram_dump cs baud fuel (some input)).out = .ret 0 ↔ b = statusOk) := by
  have hrun := ram_dump_compose cs baud fuel input tr1 neg in1 in2 _ q2 q3 h1 h2 h3
  rw [finish_dispatch] at hrun
  refine ⟨hrun, ?_, rfl, rfl, ?_⟩
  · rw [lowByte_val, byteSum_bytes]
    omega
  · rw [hrun]
    constructor
    · intro h
      by_contra hb
      rw [if_neg hb] at h
      simp only [Outcome.ret.injEq] at h
      rcases abortCode_cases b with e | e <;> rw [e] at h <;> exact absurd h (by decide)
    · intro hb
      rw [if_pos hb]

/-- A session with length 8 negotiated whose final frame is `01 02 03 04 05`, with a non-zero
repeat-count byte, accepted with `'w'`: `ram_dump` returns 0 and the primary file holds only
the 8 bytes of the primary region. -/
theorem finalization_witness :
    (ram_dump true 0xab 8192 (some
        [0x11, 0, 0, 0, 0, 0, 0x54, 0x45, 0x53, 0x54, 0x44, 0x45, 0x56, 0, 0, 0, 0, 0, 0, 0, 0,
         0x77, 0, 0, 0, 0x30, 0x77, 8, 0, 0, 0, 0x77,
         0xAA, 0xBB, 0xCC, 0xDD, 0, 0x77,
         0, 0, 0, 0, 0, 0x77,
         1, 2, 3, 4, 5, 0x77])).out = .ret 0 ∧
    (lowByte (Frame.sum ⟨1, 2, 3, 4, 5⟩)).val = 15 :=
  have h := finalization true 0xab 8192
    [0x11, 0, 0, 0, 0, 0, 0x54, 0x45, 0x53, 0x54, 0x44, 0x45, 0x56, 0, 0, 0, 0, 0, 0, 0, 0,
     0x77, 0, 0, 0, 0x30, 0x77, 8, 0, 0, 0, 0x77,
     0xAA, 0xBB, 0xCC, 0xDD, 0, 0x77,
     0, 0, 0, 0, 0, 0x77,
     1, 2, 3, 4, 5, 0x77]
    [.write 0xab, .read [0x11], .speed 0, .write 0xab, .read [0], .read [0, 0, 0, 0],
      .read [0x54, 0x45, 0x53, 0x54, 0x44, 0x45, 0x56, 0, 0, 0, 0, 0, 0, 0, 0],
      .write 0x1F, .read [0x77], .read [0, 0, 0, 0x30], .write 0x30, .read [0x77],
      .read [8, 0, 0, 0], .write 8, .read [0x77]]
    ⟨0, [0x54, 0x45, 0x53, 0x54, 0x44, 0x45, 0x56, 0, 0, 0, 0, 0, 0, 0, 0], 0x30000000, 8⟩
    [0xAA, 0xBB, 0xCC, 0xDD, 0, 0x77, 0, 0, 0, 0, 0, 0x77, 1, 2, 3, 4, 5, 0x77]
    [0, 0, 0, 0, 0, 0x77, 1, 2, 3, 4, 5, 0x77] 8 8192 ⟨1, 2, 3, 4, 5⟩ 0x77 []
    (by decide) (by decide)
    (region_wire .vectors_dump_fd ⟨0, 0, 0, 0, 0⟩ [1, 2, 3, 4, 5, 0x77] 8192 8192 [] rfl
      (by decide) (by decide) (by decide) (by decide) (by decide)).1
  ⟨h.2.2.2.2.2 rfl, by rw [h.2.1]; decide⟩

/-! ## C17: termination of the flush loop -/

theorem flush_spins (fd : Sink) (f : Frame) (L : Nat) (hL : 2 ^ 32 - 4 < L) :
    ∀ (fuel p : Nat), p % 4 = 0 → (flush fd f L fuel p).out = .spin := by
  intro fuel
  induction fuel with
  | zero => intro p _; rfl
  | succ fuel ih =>
    intro p hp
    have h1 : wrapU32 (p + 4) % 4 = 0 := by unfold wrapU32; omega
    have h2 : wrapU32 (p + 4) < 2 ^ 32 := Nat.mod_lt _ (by decide)
    rw [flush_step, if_pos (by omega)]
    exact ih _ h1

theorem flush_climbs_to_target (fd : Sink) (f : Frame) (L : Nat) (hL : L ≤ 2 ^ 32 - 4) :
    ∀ (n fuel t : Nat), 1 ≤ n → n ≤ fuel → t < L → L ≤ t + 4 * n →
      ∃ q, (flush fd f L fuel t).out = .next q ∧ L ≤ q ∧ q < 2 ^ 32 := by
  intro n
  induction n with
  | zero => intro fuel t h; omega
  | succ n ih =>
    intro fuel t _ hfuel ht hreach
    obtain ⟨fuel, rfl⟩ : ∃ m, fuel = m + 1 := ⟨fuel - 1, by omega⟩
    have hmod : wrapU32 (t + 4) = t + 4 := wrapU32_of_lt (by omega)
    rw [flush_step, hmod]
    by_cases hlt : t + 4 < L
    · rw [if_pos hlt]
      exact ih fuel (t + 4) (by omega) (by omega) hlt (by omega)
    · rw [if_neg hlt]
      exact ⟨t + 4, rfl, by omega, by omega⟩

/-- C17, as stated, fails: with target 0xFFFFFFFF and starting progress 0 the flush loop
is still running after 2^32 iterations, more than the 32-bit counter has values, and indeed
after any number of iterations: progress runs through the multiples of 4, none of which
reaches 0xFFFFFFFF, and wraps around to 0. -/
theorem flush_never_reaches_unaligned_top :
    (flush .dump_fd ⟨0xAA, 0xBB, 0xCC, 0xDD, 0⟩ 0xFFFFFFFF 4294967296 0).out = .spin ∧
    ∀ fuel, (flush .dump_fd ⟨0xAA, 0xBB, 0xCC, 0xDD, 0⟩ 0xFFFFFFFF fuel 0).out = .spin :=
  ⟨flush_spins .dump_fd ⟨0xAA, 0xBB, 0xCC, 0xDD, 0⟩ 0xFFFFFFFF (by decide) 4294967296 0 rfl,
    fun fuel =>
      flush_spins .dump_fd ⟨0xAA, 0xBB, 0xCC, 0xDD, 0⟩ 0xFFFFFFFF (by decide) fuel 0 rfl⟩

/-- C17, amended: for every target `L` up to 0xFFFFFFFC, a multiple of 4 or not, and every
32-bit starting progress, the flush loop ends within `L / 4 + 2` iterations, with progress at
least `L`; for a target above 0xFFFFFFFC and a starting progress that is a multiple of 4 (as
it always is in `ram_dump`) it never ends. -/
theorem flush_termination (fd : Sink) (f : Frame) (L p fuel : Nat) :
    (L ≤ 2 ^ 32 - 4 → p < 2 ^ 32 → L / 4 + 2 ≤ fuel →
      ∃ q, (flush fd f L fuel p).out = .next q ∧ L ≤ q ∧ q < 2 ^ 32) ∧
    (2 ^ 32 - 4 < L → p % 4 = 0 → (flush fd f L fuel p).out = .spin) := by
  refine ⟨?_, fun hL hp => flush_spins fd f L hL fuel p hp⟩
  intro hL _ hfuel
  obtain ⟨fuel, rfl⟩ : ∃ m, fuel = m + 1 := ⟨fuel - 1, by omega⟩
  have h2 : wrapU32 (p + 4) < 2 ^ 32 := Nat.mod_lt _ (by decide)
  rw [flush_step]
  by_cases hlt : wrapU32 (p + 4) < L
  · rw [if_pos hlt]
    exact flush_climbs_to_target fd f L hL ((L - wrapU32 (p + 4) + 3) / 4) fuel _ (by omega)
      (by omega) hlt (by omega)
  · rw [if_neg hlt]
    exact ⟨_, rfl, by omega, h2⟩

/-- Target 10, not a multiple of 4, from progress 0: the loop ends at 12. Target 0xFFFFFFFD
from progress 4: with fuel 5 the loop is still running. -/
theorem flush_termination_witness :
    (∃ q, (flush .dump_fd ⟨0xAA, 0xBB, 0xCC, 0xDD, 0⟩ 10 4 0).out = .next q ∧ 10 ≤ q ∧
      q < 2 ^ 32) ∧
    (flush .dump_fd ⟨0xAA, 0xBB, 0xCC, 0xDD, 0⟩ 0xFFFFFFFD 5 4).out = .spin :=
  ⟨(flush_termination .dump_fd ⟨0xAA, 0xBB, 0xCC, 0xDD, 0⟩ 10 0 4).1
      (by decide) (by decide) (by decide),
    (flush_termination .dump_fd ⟨0xAA, 0xBB, 0xCC, 0xDD, 0⟩ 0xFFFFFFFD 4 5).2
      (by decide) (by decide)⟩

/-! ## C18: the progress counter and the bytes in the file -/

theorem tracks_append (fd : Sink) :
    ∀ (a b : List Event) (n : Nat),
      tracks fd n (a ++ b) ↔ tracks fd n a ∧ tracks fd (n + (sinkBytes fd a).length) b := by
  intro a
  induction a with
  | nil => intro b n; simp [tracks, sinkBytes]
  | cons e a ih =>
    intro b n
    cases e with
    | fwrite fd1 bs =>
      by_cases h : fd1 = fd
      · simp only [List.cons_append, tracks, List.append_eq, sinkBytes, if_pos h, ih,
          List.length_append]
        constructor
        · rintro ⟨h4, h1, h2⟩
          refine ⟨⟨h4, h1⟩, ?_⟩
          rw [h4, ← Nat.add_assoc]
          exact h2
        · rintro ⟨⟨h4, h1⟩, h2⟩
          refine ⟨h4, h1, ?_⟩
          rw [h4, ← Nat.add_assoc] at h2
          exact h2
      · simp only [List.cons_append, tracks, List.append_eq, sinkBytes, if_neg h, ih]
    | progress v => simp only [List.cons_append, tracks, List.append_eq, sinkBytes, ih, and_assoc]
    | write _ => simp only [List.cons_append, tracks, List.append_eq, sinkBytes, ih]
    | read _ => simp only [List.cons_append, tracks, List.append_eq, sinkBytes, ih]
    | speed _ => simp only [List.cons_append, tracks, List.append_eq, sinkBytes, ih]
    | close => simp only [List.cons_append, tracks, List.append_eq, sinkBytes, ih]

theorem tracks_length (fd : Sink) :
    ∀ (tr : List Event) (n : Nat), tracks fd n tr → (sinkBytes fd tr).length % 4 = 0 := by
  intro tr
  induction tr with
  | nil => intro n _; rfl
  | cons e tr ih =>
    intro n h
    cases e with
    | fwrite fd1 bs =>
      by_cases hfd : fd1 = fd
      · simp only [tracks, if_pos hfd] at h
        simp only [sinkBytes, if_pos hfd, List.length_append]
        have := ih _ h.2
        omega
      · simp only [tracks, if_neg hfd] at h
        simp only [sinkBytes, if_neg hfd]
        exact ih _ h
    | progress v => exact ih _ h.2
    | write _ => exact ih _ h
    | read _ => exact ih _ h
    | speed _ => exact ih _ h
    | close => exact ih _ h

theorem tracks_burst (fd : Sink) (f : Frame) :
    ∀ (k p n : Nat), p = wrapU32 n → tracks fd n (burst fd f k p) := by
  intro k
  induction k with
  | zero => intro p n _; trivial
  | succ k ih =>
    intro p n hp
    simp only [burst, tracks, if_true]
    have e : wrapU32 (p + 4) = wrapU32 (n + 4) := by rw [hp, wrapU32_add_wrapU32]
    exact ⟨rfl, e, ih _ _ e⟩

theorem counts_bind {α β : Type} {fd : Sink} {n : Nat} {r : Run α} {k : α → Run β}
    {q : α → Nat} {q1 : β → Nat} (hr : Counts fd n r q)
    (hk : ∀ a, r.out = .next a →
      Counts fd (n + (sinkBytes fd r.trace).length) (k a) q1) :
    Counts fd n (Run.bind r k) q1 := by
  unfold Run.bind
  cases hout : r.out with
  | next a =>
    have h := hk a hout
    refine ⟨(tracks_append fd _ _ _).2 ⟨hr.1, h.1⟩, ?_⟩
    intro b hb
    have := h.2 b hb
    simp only [sinkBytes_append, List.length_append, ← Nat.add_assoc]
    exact this
  | ret c => exact ⟨hr.1, fun a h => by cases h⟩
  | blocked => exact ⟨hr.1, fun a h => by cases h⟩
  | spin => exact ⟨hr.1, fun a h => by cases h⟩

theorem counts_still {α : Type} (fd : Sink) (n : Nat) (r : Run α) (q : α → Nat)
    (h1 : tracks fd n r.trace) (h2 : sinkBytes fd r.trace = [])
    (h3 : ∀ a, r.out = .next a → q a = wrapU32 n) : Counts fd n r q :=
  ⟨h1, fun a ha => by rw [h2]; exact h3 a ha⟩

theorem flush_counts (fd : Sink) (f : Frame) (L : Nat) :
    ∀ (fuel p n : Nat), p = wrapU32 n → Counts fd n (flush fd f L fuel p) id := by
  intro fuel
  induction fuel with
  | zero => intro p n _; exact ⟨trivial, fun a h => by cases h⟩
  | succ fuel ih =>
    intro p n hp
    have e : wrapU32 (p + 4) = wrapU32 (n + 4) := by rw [hp, wrapU32_add_wrapU32]
    rw [flush_step]
    split
    · have h := ih (wrapU32 (p + 4)) (n + 4) e
      refine ⟨?_, ?_⟩
      · simp only [tracks, if_true]
        exact ⟨rfl, e, h.1⟩
      · intro a ha
        have := h.2 a ha
        simp only [sinkBytes, if_true, List.length_append]
        rw [this]
        congr 1
        show n + 4 + _ = n + (4 + _)
        omega
    · refine ⟨?_, ?_⟩
      · simp only [tracks, if_true]
        exact ⟨rfl, e, trivial⟩
      · intro a ha
        simp only [Outcome.next.injEq] at ha
        subst ha
        simp only [sinkBytes, if_true, List.append_nil, Frame.payload, List.length_cons,
          List.length_nil, id]
        exact e

theorem frameStep_counts (fd : Sink) (L fuel : Nat) (f : Frame) (p n : Nat)
    (hp : p = wrapU32 n) : Counts fd n (frameStep fd L fuel f p) (fun y => y.1) := by
  rw [frameStep_eq]
  split
  · have h := flush_counts fd f L fuel p n hp
    refine ⟨h.1, ?_⟩
    intro a ha
    dsimp only at ha ⊢
    cases hout : (flush fd f L fuel p).out with
    | next t =>
      rw [hout] at ha
      simp only [Outcome.next.injEq] at ha
      subst ha
      exact h.2 t hout
    | ret c => rw [hout] at ha; cases ha
    | blocked => rw [hout] at ha; cases ha
    | spin => rw [hout] at ha; cases ha
  · refine ⟨tracks_burst fd f _ p n hp, ?_⟩
    intro a ha
    simp only [Outcome.next.injEq] at ha
    subst ha
    dsimp only
    rw [sinkBytes_burst, length_flatten_replicate_payload, hp, wrapU32_add_wrapU32]

theorem counts_skip {α β : Type} {fd : Sink} {n : Nat} {r : Run α} {k : α → Run β}
    {q1 : β → Nat} (h1 : tracks fd n r.trace) (h2 : sinkBytes fd r.trace = [])
    (hk : ∀ a, r.out = .next a → Counts fd n (k a) q1) : Counts fd n (Run.bind r k) q1 := by
  have hr : Counts fd n r (fun _ => wrapU32 n) := ⟨h1, fun a _ => by rw [h2]; rfl⟩
  refine counts_bind hr ?_
  intro a ha
  rw [h2]
  exact hk a ha

theorem readFrame_still (fd : Sink) (n : Nat) (s : List Byte) :
    tracks fd n (readFrame s).trace ∧ sinkBytes fd (readFrame s).trace = [] := by
  rcases readFrame_cases s with h | ⟨f, rest, _, h⟩ <;> rw [h] <;> exact ⟨trivial, rfl⟩

theorem readByte_still (fd : Sink) (n : Nat) (s : List Byte) :
    tracks fd n (readByte s).trace ∧ sinkBytes fd (readByte s).trace = [] := by
  cases s with
  | nil => exact ⟨trivial, rfl⟩
  | cons b rest => exact ⟨trivial, rfl⟩

theorem checkStatus_still (fd : Sink) (n : Nat) (b : Byte) :
    tracks fd n (checkStatus b).trace ∧ sinkBytes fd (checkStatus b).trace = [] := by
  unfold checkStatus
  split
  · exact ⟨trivial, rfl⟩
  · split <;> exact ⟨trivial, rfl⟩

theorem frameLoop_counts (fd : Sink) (L fuel : Nat) :
    ∀ (slots : Nat) (st : BatchState) (n : Nat), st.total_read = wrapU32 n →
      Counts fd n (frameLoop fd L fuel slots st) (fun s => s.total_read) := by
  intro slots
  induction slots with
  | zero => intro st n h; exact ⟨trivial, fun a ha => by cases ha; exact h⟩
  | succ slots ih =>
    intro st n h
    rw [frameLoop_succ]
    refine counts_skip (readFrame_still fd n _).1 (readFrame_still fd n _).2 ?_
    intro x _
    have hs := frameStep_counts fd L fuel x.1 st.total_read n h
    refine counts_bind hs ?_
    intro y hy
    have hy1 := hs.2 y hy
    cases hb : y.2 with
    | true =>
      simp only [if_true]
      exact ⟨trivial, fun a ha => by cases ha; exact hy1⟩
    | false =>
      simp only [Bool.false_eq_true, if_false]
      exact ih _ _ hy1

theorem batch_counts (fd : Sink) (L fuel : Nat) (input : List Byte) (p n : Nat)
    (hp : p = wrapU32 n) : Counts fd n (batch fd L fuel input p) (fun x => x.2) := by
  rw [batch_eq]
  have hf := frameLoop_counts fd L fuel frameSlots ⟨input, 0, p⟩ n hp
  refine counts_bind hf ?_
  intro st hst
  have h1 := hf.2 st hst
  generalize n + (sinkBytes fd (frameLoop fd L fuel frameSlots ⟨input, 0, p⟩).trace).length
    = m at h1 ⊢
  refine counts_skip (r := emit (.write (lowByte st.checksum))) trivial rfl ?_
  intro _ _
  refine counts_skip (readByte_still fd m _).1 (readByte_still fd m _).2 ?_
  intro x _
  refine counts_skip (checkStatus_still fd m _).1 (checkStatus_still fd m _).2 ?_
  intro _ _
  exact ⟨trivial, fun a ha => by cases ha; exact h1⟩

theorem regionLoop_counts (fd : Sink) (L : Nat) :
    ∀ (fuel : Nat) (s : List Byte) (p n : Nat), p = wrapU32 n →
      Counts fd n (regionLoop fd L fuel s p) (fun x => x.2) := by
  intro fuel
  induction fuel with
  | zero => intro s p n _; exact ⟨trivial, fun a ha => by cases ha⟩
  | succ fuel ih =>
    intro s p n hp
    rw [regionLoop_succ]
    have hb := batch_counts fd L fuel s p n hp
    refine counts_bind hb ?_
    intro x hx
    have hx1 := hb.2 x hx
    split
    · exact ih _ _ _ hx1
    · exact ⟨trivial, fun a ha => by cases ha; exact hx1⟩

theorem region_counts (fd : Sink) (L fuel : Nat) (s : List Byte) :
    Counts fd 0 (region fd L fuel s) (fun x => x.2) := by
  rw [region_eq]
  have h := regionLoop_counts fd L fuel s 0 0 rfl
  exact ⟨⟨rfl, h.1⟩, h.2⟩

theorem tracks_split (fd : Sink) (n : Nat) (pre post : List Event) (v : Nat)
    (h : tracks fd n (pre ++ .progress v :: post)) :
    v = wrapU32 (n + (sinkBytes fd pre).length) ∧ (sinkBytes fd pre).length % 4 = 0 := by
  obtain ⟨h1, h2⟩ := (tracks_append fd pre _ n).1 h
  exact ⟨h2.1, tracks_length fd pre n h1⟩

/-- C18: every value assigned to `total_read` during a region, whatever the stream and the
target, is the number of bytes written to the region's file since the region began, reduced
to 32 bits; both are multiples of 4, and while fewer than 2^32 bytes have been written the two
are equal. -/
theorem progress_tracks_sink (fd : Sink) (L fuel : Nat) (input : List Byte)
    (pre post : List Event) (v : Nat)
    (h : (region fd L fuel input).trace = pre ++ .progress v :: post) :
    v = wrapU32 (sinkBytes fd pre).length ∧ v % 4 = 0 ∧ (sinkBytes fd pre).length % 4 = 0 ∧
    ((sinkBytes fd pre).length < 2 ^ 32 → v = (sinkBytes fd pre).length) := by
  have hc := (region_counts fd L fuel input).1
  rw [h] at hc
  obtain ⟨h1, h2⟩ := tracks_split fd 0 pre post v hc
  rw [Nat.zero_add] at h1
  refine ⟨h1, ?_, h2, fun hlt => by rw [h1, wrapU32_of_lt hlt]⟩
  rw [h1]
  unfold wrapU32
  omega

/-- A region with target 12 fed a frame with count 2 and a terminal frame: when `total_read`
is set to 8, two payloads, 8 bytes, are in the file. -/
theorem progress_tracks_sink_witness :
    (region .dump_fd 12 4 [1, 2, 3, 4, 2, 5, 6, 7, 8, 0, statusOk]).trace
      = [.progress 0, .read [1, 2, 3, 4, 2], .fwrite .dump_fd [1, 2, 3, 4], .progress 4,
          .fwrite .dump_fd [1, 2, 3, 4]]
        ++ .progress 8 :: [.read [5, 6, 7, 8, 0], .fwrite .dump_fd [5, 6, 7, 8], .progress 12,
          .write 38, .read [statusOk]] ∧
    8 = wrapU32 (sinkBytes .dump_fd [.progress 0, .read [1, 2, 3, 4, 2],
      .fwrite .dump_fd [1, 2, 3, 4], .progress 4, .fwrite .dump_fd [1, 2, 3, 4]]).length :=
  ⟨by decide, (progress_tracks_sink .dump_fd 12 4 [1, 2, 3, 4, 2, 5, 6, 7, 8, 0, statusOk]
    [.progress 0, .read [1, 2, 3, 4, 2], .fwrite .dump_fd [1, 2, 3, 4], .progress 4,
      .fwrite .dump_fd [1, 2, 3, 4]]
    [.read [5, 6, 7, 8, 0], .fwrite .dump_fd [5, 6, 7, 8], .progress 12, .write 38,
      .read [statusOk]] 8 (by decide)).1⟩

/-! ## C19: how much a successful session writes at least -/

theorem framesOf_append : ∀ (a b : List Event), framesOf (a ++ b) = framesOf a ++ framesOf b := by
  intro a b
  induction a using framesOf.induct with
  | case1 => rfl
  | case2 d0 d1 d2 d3 d4 es ih =>
    simp only [List.cons_append, framesOf, List.append_eq, ih]
  | case3 e es hne ih =>
    rw [List.cons_append, framesOf, framesOf, ih]
    · exact hne
    · exact hne

theorem regionLoop_exit (fd : Sink) (L : Nat) :
    ∀ (fuel : Nat) (s : List Byte) (p : Nat) (x : List Byte × Nat),
      (regionLoop fd L fuel s p).out = .next x → L ≤ x.2 := by
  intro fuel
  induction fuel with
  | zero => intro s p x h; cases h
  | succ fuel ih =>
    intro s p x h
    rw [regionLoop_succ] at h
    obtain ⟨y, _, hy⟩ := run_bind_next_cases h
    by_cases hlt : y.2 < L
    · rw [if_pos hlt] at hy
      exact ih _ _ _ hy
    · rw [if_neg hlt] at hy
      cases hy
      exact Nat.le_of_not_lt hlt

theorem region_reaches_target (fd : Sink) (L fuel : Nat) (s : List Byte) (x : List Byte × Nat)
    (h : (region fd L fuel s).out = .next x) :
    L ≤ x.2 ∧ L ≤ (sinkBytes fd (region fd L fuel s).trace).length := by
  have hc := (region_counts fd L fuel s).2 x h
  have hx : L ≤ x.2 := by
    rw [region_eq] at h
    exact regionLoop_exit fd L fuel s 0 x h
  refine ⟨hx, ?_⟩
  dsimp only at hc
  rw [Nat.zero_add] at hc
  have : wrapU32 (sinkBytes fd (region fd L fuel s).trace).length
      ≤ (sinkBytes fd (region fd L fuel s).trace).length := Nat.mod_le _ _
  omega

theorem flush_min (fd : Sink) (f : Frame) (L fuel p t : Nat)
    (h : (flush fd f L fuel p).out = .next t) :
    4 ≤ (sinkBytes fd (flush fd f L fuel p).trace).length := by
  cases fuel with
  | zero => cases h
  | succ fuel =>
    rw [flush_step]
    split <;> simp [sinkBytes, Frame.payload]

theorem frameStep_min (fd : Sink) (L fuel : Nat) (f : Frame) (p : Nat) (y : Nat × Bool)
    (h : (frameStep fd L fuel f p).out = .next y) :
    4 ≤ (sinkBytes fd (frameStep fd L fuel f p).trace).length := by
  rw [frameStep_eq] at h ⊢
  by_cases h0 : f.d4 = 0
  · rw [if_pos h0] at h ⊢
    dsimp only at h ⊢
    cases hout : (flush fd f L fuel p).out with
    | next t => exact flush_min fd f L fuel p t hout
    | ret c => rw [hout] at h; cases h
    | blocked => rw [hout] at h; cases h
    | spin => rw [hout] at h; cases h
  · rw [if_neg h0]
    dsimp only
    rw [sinkBytes_burst, length_flatten_replicate_payload]
    have : f.d4.val ≠ 0 := fun e => h0 (Fin.ext e)
    omega

theorem frameLoop_min (fd : Sink) (L fuel slots : Nat) (st st1 : BatchState)
    (h : (frameLoop fd L fuel (slots + 1) st).out = .next st1) :
    1 ≤ (framesOf (frameLoop fd L fuel (slots + 1) st).trace).length ∧
    4 ≤ (sinkBytes fd (frameLoop fd L fuel (slots + 1) st).trace).length := by
  rw [frameLoop_succ] at h ⊢
  obtain ⟨x, hx, h1⟩ := run_bind_next_cases h
  obtain ⟨y, hy, _⟩ := run_bind_next_cases h1
  have hmin := frameStep_min fd L fuel x.1 st.total_read y hy
  rw [run_bind_next _ hx]
  obtain ⟨more, hmore⟩ := run_bind_trace_grows (frameStep fd L fuel x.1 st.total_read)
    (fun y => if y.2 then pure ⟨x.2, wrapInt32 (st.checksum + x.1.sum), y.1⟩
      else frameLoop fd L fuel slots ⟨x.2, wrapInt32 (st.checksum + x.1.sum), y.1⟩)
  dsimp only
  rw [hmore]
  rcases readFrame_cases st.input with hr | ⟨f, rest, _, hr⟩
  · rw [hr] at hx; cases hx
  · rw [hr]
    simp only [framesOf_append, sinkBytes_append, List.length_append]
    constructor
    · simp [framesOf, Frame.bytes]
    · omega

theorem batch_min (fd : Sink) (L fuel : Nat) (s : List Byte) (p : Nat) (x : List Byte × Nat)
    (h : (batch fd L fuel s p).out = .next x) :
    1 ≤ (framesOf (batch fd L fuel s p).trace).length ∧
    4 ≤ (sinkBytes fd (batch fd L fuel s p).trace).length := by
  rw [batch_eq] at h ⊢
  obtain ⟨st1, hst, _⟩ := run_bind_next_cases h
  obtain ⟨more, hmore⟩ := run_bind_trace_grows (frameLoop fd L fuel frameSlots ⟨s, 0, p⟩)
    (fun st => Run.bind (emit (.write (lowByte st.checksum))) (fun _ =>
      Run.bind (readByte st.input) (fun x =>
        Run.bind (checkStatus x.1) (fun _ => pure (x.2, st.total_read)))))
  have hf := frameLoop_min fd L fuel 1599 ⟨s, 0, p⟩ st1 hst
  rw [hmore]
  simp only [framesOf_append, sinkBytes_append, List.length_append]
  have e : frameSlots = 1599 + 1 := by decide
  rw [e]
  omega

theorem region_min (fd : Sink) (L fuel : Nat) (s : List Byte) (x : List Byte × Nat)
    (h : (region fd L fuel s).out = .next x) :
    1 ≤ (framesOf (region fd L fuel s).trace).length ∧
    4 ≤ (sinkBytes fd (region fd L fuel s).trace).length := by
  rw [region_eq] at h ⊢
  dsimp only at h ⊢
  cases fuel with
  | zero => cases h
  | succ fuel =>
    rw [regionLoop_succ] at h ⊢
    obtain ⟨y, hy, _⟩ := run_bind_next_cases h
    obtain ⟨more, hmore⟩ := run_bind_trace_grows (batch fd L fuel s 0)
      (fun x => if x.2 < L then regionLoop fd L fuel x.1 x.2 else pure (x.1, x.2))
    have hb := batch_min fd L fuel s 0 y hy
    rw [hmore]
    have e1 : framesOf (.progress 0 :: ((batch fd L fuel s 0).trace ++ more))
        = framesOf ((batch fd L fuel s 0).trace ++ more) := rfl
    have e2 : sinkBytes fd (.progress 0 :: ((batch fd L fuel s 0).trace ++ more))
        = sinkBytes fd ((batch fd L fuel s 0).trace ++ more) := rfl
    rw [e1, e2]
    simp only [framesOf_append, sinkBytes_append, List.length_append]
    omega

/-- C19: whenever `ram_dump` returns 0, the handshake was accepted with some negotiated length
and both regions ran to their end; the primary file then holds at least max(4, negotiated
length) bytes and the vector file at least 8192 bytes, and each region read at least one frame
and wrote at least 4 bytes. -/
theorem output_lower_bound (cs : Bool) (baud : Int) (fuel : Nat) (input : List Byte)
    (h : (ram_dump cs baud fuel (some input)).out = .ret 0) :
    ∃ (tr1 : List Event) (neg : Negotiated) (in1 in2 in3 : List Byte) (q2 q3 : Nat),
      handshake cs baud input = ⟨tr1, .next (neg, in1)⟩ ∧
      (region .dump_fd neg.read_length fuel in1).out = .next (in2, q2) ∧
      (region .vectors_dump_fd 0x2000 fuel in2).out = .next (in3, q3) ∧
      max 4 neg.read_length
        ≤ (sinkBytes .dump_fd (ram_dump cs baud fuel (some input)).trace).length ∧
      8192 ≤ (sinkBytes .vectors_dump_fd (ram_dump cs baud fuel (some input)).trace).length ∧
      1 ≤ (framesOf (region .dump_fd neg.read_length fuel in1).trace).length ∧
      4 ≤ (sinkBytes .dump_fd (region .dump_fd neg.read_length fuel in1).trace).length ∧
      1 ≤ (framesOf (region .vectors_dump_fd 0x2000 fuel in2).trace).length ∧
      4 ≤ (sinkBytes .vectors_dump_fd (region .vectors_dump_fd 0x2000 fuel in2).trace).length := by
  obtain ⟨tr1, neg, in1, in2, q2, q3, f, rest, h1, h2, h3⟩ := ram_dump_ret_zero cs baud fuel input h
  have a1 := region_reaches_target _ _ _ _ _ h2
  have a2 := region_reaches_target _ _ _ _ _ h3
  have b1 := region_min _ _ _ _ _ h2
  have b2 := region_min _ _ _ _ _ h3
  refine ⟨tr1, neg, in1, in2, _, q2, q3, h1, h2, h3, ?_, ?_, b1.1, b1.2, b2.1, b2.2⟩
  · rw [ram_dump_compose cs baud fuel input tr1 neg in1 in2 _ q2 q3 h1 h2 h3]
    simp only [sinkBytes_append, List.length_append]
    have := a1.2
    have := b1.2
    omega
  · rw [ram_dump_compose cs baud fuel input tr1 neg in1 in2 _ q2 q3 h1 h2 h3]
    simp only [sinkBytes_append, List.length_append]
    have := a2.2
    omega

/-- A whole session: length 8 negotiated, one terminal frame for each region, the final
frame, every checksum accepted. -/
theorem output_lower_bound_witness :
    (ram_dump true 0xab 8192 (some (handshakeWire 0 ⟨0, 0, 0, 0⟩
        [0x54, 0x45, 0x53, 0x54, 0x44, 0x45, 0x56, 0, 0, 0, 0, 0, 0, 0, 0]
        ⟨0, 0, 0, 0x30⟩ ⟨8, 0, 0, 0⟩ ++ (wire frameSlots [] ⟨0xAA, 0xBB, 0xCC, 0xDD, 0⟩ ++
        (wire frameSlots [] ⟨0, 0, 0, 0, 0⟩ ++
          (Frame.bytes ⟨1, 2, 3, 4, 5⟩ ++ statusOk :: [])))))).out = .ret 0 ∧
    ∃ (tr1 : List Event) (neg : Negotiated) (in1 in2 in3 : List Byte) (q2 q3 : Nat),
      handshake true 0xab ((handshakeWire 0 ⟨0, 0, 0, 0⟩
        [0x54, 0x45, 0x53, 0x54, 0x44, 0x45, 0x56, 0, 0, 0, 0, 0, 0, 0, 0]
        ⟨0, 0, 0, 0x30⟩ ⟨8, 0, 0, 0⟩ ++ (wire frameSlots [] ⟨0xAA, 0xBB, 0xCC, 0xDD, 0⟩ ++
        (wire frameSlots [] ⟨0, 0, 0, 0, 0⟩ ++
          (Frame.bytes ⟨1, 2, 3, 4, 5⟩ ++ statusOk :: []))))) = ⟨tr1, .next (neg, in1)⟩ ∧
      (region .dump_fd neg.read_length 8192 in1).out = .next (in2, q2) ∧
      (region .vectors_dump_fd 0x2000 8192 in2).out = .next (in3, q3) ∧
      max 4 neg.read_length ≤ (sinkBytes .dump_fd (ram_dump true 0xab 8192 (some (handshakeWire 0 ⟨0, 0, 0, 0⟩
        [0x54, 0x45, 0x53, 0x54, 0x44, 0x45, 0x56, 0, 0, 0, 0, 0, 0, 0, 0]
        ⟨0, 0, 0, 0x30⟩ ⟨8, 0, 0, 0⟩ ++ (wire frameSlots [] ⟨0xAA, 0xBB, 0xCC, 0xDD, 0⟩ ++
        (wire frameSlots [] ⟨0, 0, 0, 0, 0⟩ ++
          (Frame.bytes ⟨1, 2, 3, 4, 5⟩ ++ statusOk :: [])))))).trace).length ∧
      8192 ≤ (sinkBytes .vectors_dump_fd (ram_dump true 0xab 8192 (some (handshakeWire 0 ⟨0, 0, 0, 0⟩
        [0x54, 0x45, 0x53, 0x54, 0x44, 0x45, 0x56, 0, 0, 0, 0, 0, 0, 0, 0]
        ⟨0, 0, 0, 0x30⟩ ⟨8, 0, 0, 0⟩ ++ (wire frameSlots [] ⟨0xAA, 0xBB, 0xCC, 0xDD, 0⟩ ++
        (wire frameSlots [] ⟨0, 0, 0, 0, 0⟩ ++
          (Frame.bytes ⟨1, 2, 3, 4, 5⟩ ++ statusOk :: [])))))).trace).length ∧
      1 ≤ (framesOf (region .dump_fd neg.read_length 8192 in1).trace).length ∧
      4 ≤ (sinkBytes .dump_fd (region .dump_fd neg.read_length 8192 in1).trace).length ∧
      1 ≤ (framesOf (region .vectors_dump_fd 0x2000 8192 in2).trace).length ∧
      4 ≤ (sinkBytes .vectors_dump_fd
        (region .vectors_dump_fd 0x2000 8192 in2).trace).length :=
  have h := (session_accepted true 0xab 8192 0 ⟨0, 0, 0, 0⟩
    [0x54, 0x45, 0x53, 0x54, 0x44, 0x45, 0x56, 0, 0, 0, 0, 0, 0, 0, 0]
    ⟨0, 0, 0, 0x30⟩ ⟨8, 0, 0, 0⟩ [] ⟨0xAA, 0xBB, 0xCC, 0xDD, 0⟩ [] ⟨0, 0, 0, 0, 0⟩
    ⟨1, 2, 3, 4, 5⟩ [] (by decide) (by decide) (by decide) (by decide) (by decide) (by decide)
    (by decide) (by decide) (by decide) (by decide)).1
  ⟨h, output_lower_bound true 0xab 8192 _ h⟩

/-! ## The frames read before the checksum byte -/

theorem framesOf_silent : ∀ (tr : List Event), receivedBytes tr = [] → framesOf tr = [] := by
  intro tr
  induction tr using framesOf.induct with
  | case1 => intro _; rfl
  | case2 d0 d1 d2 d3 d4 es _ => intro h; simp [receivedBytes] at h
  | case3 e es hne ih =>
    intro h
    rw [framesOf]
    · apply ih
      cases e <;> simp_all [receivedBytes]
    · exact hne

theorem sink_bind_nil {α β : Type} (fd : Sink) (r : Run α) (k : α → Run β)
    (hr : sinkBytes fd r.trace = []) (hk : ∀ a, sinkBytes fd (k a).trace = []) :
    sinkBytes fd (Run.bind r k).trace = [] := by
  unfold Run.bind
  cases r.out <;> simp [sinkBytes_append, hr, hk]

theorem readByte_sink (fd : Sink) (s : List Byte) : sinkBytes fd (readByte s).trace = [] :=
  (readByte_still fd 0 s).2

theorem readFrame_sink (fd : Sink) (s : List Byte) : sinkBytes fd (readFrame s).trace = [] :=
  (readFrame_still fd 0 s).2

theorem checkStatus_sink (fd : Sink) (b : Byte) : sinkBytes fd (checkStatus b).trace = [] :=
  (checkStatus_still fd 0 b).2

theorem readWord_sink (fd : Sink) (s : List Byte) : sinkBytes fd (readWord s).trace = [] := by
  match s with
  | [] => rfl
  | [_] => rfl
  | [_, _] => rfl
  | [_, _, _] => rfl
  | _ :: _ :: _ :: _ :: _ => rfl

theorem readN_sink (fd : Sink) (n : Nat) (s : List Byte) :
    sinkBytes fd (readN n s).trace = [] := by
  unfold readN
  split <;> rfl

theorem handshake_sinks (fd : Sink) (cs : Bool) (baud : Int) (input : List Byte) :
    sinkBytes fd (handshake cs baud input).trace = [] := by
  rw [handshake_eq]
  refine sink_bind_nil fd _ _ rfl (fun _ => ?_)
  refine sink_bind_nil fd _ _ (readByte_sink fd _) (fun x => ?_)
  split
  · rfl
  refine sink_bind_nil fd _ _ rfl (fun _ => ?_)
  refine sink_bind_nil fd _ _ rfl (fun _ => ?_)
  refine sink_bind_nil fd _ _ (readByte_sink fd _) (fun y => ?_)
  refine sink_bind_nil fd _ _ (readWord_sink fd _) (fun e => ?_)
  refine sink_bind_nil fd _ _ (readN_sink fd _ _) (fun v => ?_)
  refine sink_bind_nil fd _ _ rfl (fun _ => ?_)
  refine sink_bind_nil fd _ _ (readByte_sink fd _) (fun s1 => ?_)
  refine sink_bind_nil fd _ _ (checkStatus_sink fd _) (fun _ => ?_)
  refine sink_bind_nil fd _ _ (readWord_sink fd _) (fun a => ?_)
  refine sink_bind_nil fd _ _ rfl (fun _ => ?_)
  refine sink_bind_nil fd _ _ (readByte_sink fd _) (fun s2 => ?_)
  refine sink_bind_nil fd _ _ (checkStatus_sink fd _) (fun _ => ?_)
  refine sink_bind_nil fd _ _ (readWord_sink fd _) (fun l => ?_)
  refine sink_bind_nil fd _ _ rfl (fun _ => ?_)
  refine sink_bind_nil fd _ _ (readByte_sink fd _) (fun s3 => ?_)
  refine sink_bind_nil fd _ _ (checkStatus_sink fd _) (fun _ => ?_)
  rfl

theorem finish_sinks (fd : Sink) (s : List Byte) : sinkBytes fd (finish s).trace = [] := by
  rw [finish_eq]
  refine sink_bind_nil fd _ _ (readFrame_sink fd _) (fun x => ?_)
  refine sink_bind_nil fd _ _ rfl (fun _ => ?_)
  refine sink_bind_nil fd _ _ (readByte_sink fd _) (fun y => ?_)
  refine sink_bind_nil fd _ _ (checkStatus_sink fd _) (fun _ => ?_)
  rfl

theorem flush_other (fd fd1 : Sink) (f : Frame) (L : Nat) (h : fd ≠ fd1) :
    ∀ (fuel p : Nat), sinkBytes fd1 (flush fd f L fuel p).trace = [] := by
  intro fuel
  induction fuel with
  | zero => intro p; rfl
  | succ fuel ih =>
    intro p
    rw [flush_step]
    split
    · simp only [sinkBytes, if_neg h]
      exact ih _
    · simp only [sinkBytes, if_neg h]

theorem frameStep_other (fd fd1 : Sink) (L fuel : Nat) (f : Frame) (p : Nat) (h : fd ≠ fd1) :
    sinkBytes fd1 (frameStep fd L fuel f p).trace = [] := by
  rw [frameStep_eq]
  split
  · exact flush_other fd fd1 f L h fuel p
  · exact sinkBytes_burst_other fd1 fd f h _ _

theorem frameLoop_other (fd fd1 : Sink) (L fuel : Nat) (h : fd ≠ fd1) :
    ∀ (slots : Nat) (st : BatchState),
      sinkBytes fd1 (frameLoop fd L fuel slots st).trace = [] := by
  intro slots
  induction slots with
  | zero => intro st; rfl
  | succ slots ih =>
    intro st
    rw [frameLoop_succ]
    refine sink_bind_nil fd1 _ _ (readFrame_sink fd1 _) (fun x => ?_)
    refine sink_bind_nil fd1 _ _ (frameStep_other fd fd1 L fuel _ _ h) (fun y => ?_)
    split
    · rfl
    · exact ih _

theorem batch_other (fd fd1 : Sink) (L fuel : Nat) (s : List Byte) (p : Nat) (h : fd ≠ fd1) :
    sinkBytes fd1 (batch fd L fuel s p).trace = [] := by
  rw [batch_eq]
  refine sink_bind_nil fd1 _ _ (frameLoop_other fd fd1 L fuel h _ _) (fun st => ?_)
  refine sink_bind_nil fd1 _ _ rfl (fun _ => ?_)
  refine sink_bind_nil fd1 _ _ (readByte_sink fd1 _) (fun x => ?_)
  refine sink_bind_nil fd1 _ _ (checkStatus_sink fd1 _) (fun _ => ?_)
  rfl

theorem regionLoop_other (fd fd1 : Sink) (L : Nat) (h : fd ≠ fd1) :
    ∀ (fuel : Nat) (s : List Byte) (p : Nat),
      sinkBytes fd1 (regionLoop fd L fuel s p).trace = [] := by
  intro fuel
  induction fuel with
  | zero => intro s p; rfl
  | succ fuel ih =>
    intro s p
    rw [regionLoop_succ]
    refine sink_bind_nil fd1 _ _ (batch_other fd fd1 L fuel s p h) (fun x => ?_)
    split
    · exact ih _ _
    · rfl

theorem region_other (fd fd1 : Sink) (L fuel : Nat) (s : List Byte) (h : fd ≠ fd1) :
    sinkBytes fd1 (region fd L fuel s).trace = [] := by
  rw [region_eq]
  exact regionLoop_other fd fd1 L h fuel s 0

/-! ## C11: a checksum rejected during the transfer -/

theorem abortCode_desync (b : Byte) (h : abortCode b = 68) : b = statusDesync := by
  unfold abortCode at h
  by_cases hb : b = statusDesync
  · exact hb
  · rw [if_neg hb] at h
    exact absurd h (by decide)

theorem region_first_batch_abort (fd : Sink) (L fuel : Nat) (s : List Byte) (c : Int)
    (h : (batch fd L fuel s 0).out = .ret c) :
    region fd L (fuel + 1) s = ⟨.progress 0 :: (batch fd L fuel s 0).trace, .ret c⟩ := by
  rw [region_eq, regionLoop_succ, run_bind_ret _ h]

theorem ram_dump_primary_abort (cs : Bool) (baud : Int) (fuel : Nat) (input : List Byte)
    (tr1 : List Event) (neg : Negotiated) (in1 : List Byte) (c : Int)
    (h1 : handshake cs baud input = ⟨tr1, .next (neg, in1)⟩)
    (h2 : (region .dump_fd neg.read_length fuel in1).out = .ret c) :
    ram_dump cs baud fuel (some input)
      = ⟨tr1 ++ (region .dump_fd neg.read_length fuel in1).trace, .ret c⟩ := by
  rw [ram_dump_eq, h1, run_bind_next _ rfl, run_bind_ret _ h2]

theorem ram_dump_vector_abort (cs : Bool) (baud : Int) (fuel : Nat) (input : List Byte)
    (tr1 : List Event) (neg : Negotiated) (in1 in2 : List Byte) (q2 : Nat) (c : Int)
    (h1 : handshake cs baud input = ⟨tr1, .next (neg, in1)⟩)
    (h2 : (region .dump_fd neg.read_length fuel in1).out = .next (in2, q2))
    (h3 : (region .vectors_dump_fd 0x2000 fuel in2).out = .ret c) :
    ram_dump cs baud fuel (some input)
      = ⟨tr1 ++ ((region .dump_fd neg.read_length fuel in1).trace
          ++ (region .vectors_dump_fd 0x2000 fuel in2).trace), .ret c⟩ := by
  rw [ram_dump_eq, h1, run_bind_next _ rfl, run_bind_next _ h2, run_bind_ret _ h3]

theorem handshake_sinks_of_eq (fd : Sink) (cs : Bool) (baud : Int) (input : List Byte)
    (tr1 : List Event) (x : Outcome (Negotiated × List Byte))
    (h1 : handshake cs baud input = ⟨tr1, x⟩) : sinkBytes fd tr1 = [] := by
  have h := handshake_sinks fd cs baud input
  rw [h1] at h
  exact h

theorem region_ret_desync (fd : Sink) (L fuel : Nat) (s : List Byte)
    (h : (region fd L fuel s).out = .ret 68) :
    ∃ (pre : List Event) (fuel1 : Nat) (s1 : List Byte) (p1 : Nat) (st : BatchState)
      (rest : List Byte),
      (frameLoop fd L fuel1 frameSlots ⟨s1, 0, p1⟩).out = .next st ∧
      st.input = statusDesync :: rest ∧
      (region fd L fuel s).trace
        = pre ++ ((frameLoop fd L fuel1 frameSlots ⟨s1, 0, p1⟩).trace
            ++ [.write (lowByte st.checksum), .read [statusDesync], .close]) ∧
      4 ≤ (sinkBytes fd (frameLoop fd L fuel1 frameSlots ⟨s1, 0, p1⟩).trace).length := by
  obtain ⟨pre, fuel1, s1, p1, e1, e2⟩ := region_ret fd L fuel s 68 h
  obtain ⟨st, b, rest, hst, hin, _, hc, hb⟩ := batch_ret fd L fuel1 s1 p1 68 e2
  have hd : b = statusDesync := abortCode_desync b hc.symm
  subst hd
  refine ⟨pre, fuel1, s1, p1, st, rest, hst, hin, ?_, ?_⟩
  · rw [e1, hb]
  · have e : frameSlots = 1599 + 1 := by decide
    rw [e] at hst ⊢
    exact (frameLoop_min fd L fuel1 1599 _ st hst).2

/-- C11, as stated, fails: the handshake negotiates a length of 8, the device sends the
terminal frame `AA BB CC DD 00` as the first primary batch and replies `'D'` to its checksum.
`ram_dump` returns `'D'`, and the 8 bytes decoded from that rejected batch are in the primary
file: the frames of a batch are written before its checksum is sent. -/
theorem desync_keeps_rejected_batch :
    ram_dump true 0xab 3 (some
        [0x11, 0, 0, 0, 0, 0, 0x54, 0x45, 0x53, 0x54, 0x44, 0x45, 0x56, 0, 0, 0, 0, 0, 0, 0, 0,
         0x77, 0, 0, 0, 0x30, 0x77, 8, 0, 0, 0, 0x77,
         0xAA, 0xBB, 0xCC, 0xDD, 0, 0x44])
      = ⟨[.write 0xab, .read [0x11], .speed 0, .write 0xab, .read [0], .read [0, 0, 0, 0],
          .read [0x54, 0x45, 0x53, 0x54, 0x44, 0x45, 0x56, 0, 0, 0, 0, 0, 0, 0, 0],
          .write 0x1F, .read [0x77], .read [0, 0, 0, 0x30], .write 0x30, .read [0x77],
          .read [8, 0, 0, 0], .write 8, .read [0x77]]
          ++ [.progress 0, .read [0xAA, 0xBB, 0xCC, 0xDD, 0],
            .fwrite .dump_fd [0xAA, 0xBB, 0xCC, 0xDD], .progress 4,
            .fwrite .dump_fd [0xAA, 0xBB, 0xCC, 0xDD], .progress 8,
            .write 0x0E, .read [0x44], .close], .ret 68⟩ ∧
    sinkBytes .dump_fd (ram_dump true 0xab 3 (some
        [0x11, 0, 0, 0, 0, 0, 0x54, 0x45, 0x53, 0x54, 0x44, 0x45, 0x56, 0, 0, 0, 0, 0, 0, 0, 0,
         0x77, 0, 0, 0, 0x30, 0x77, 8, 0, 0, 0, 0x77,
         0xAA, 0xBB, 0xCC, 0xDD, 0, 0x44])).trace
      = [0xAA, 0xBB, 0xCC, 0xDD, 0xAA, 0xBB, 0xCC, 0xDD] := by
  decide

/-! ## C12: the three-way dispatch on a status byte -/

theorem handshake_version_abort (cs : Bool) (baud : Int) (r : Byte) (e : Word) (v : List Byte)
    (b : Byte) (rest : List Byte) (hv : v.length = 15) (hb : b ≠ statusOk) :
    handshake cs baud (0x11 :: r :: (e.bytes ++ (v ++ b :: rest)))
      = ⟨[.write (lowByte baud), .read [0x11], .speed (baud - 0xab), .write 0xab, .read [r],
          .read e.bytes, .read v,
          .write (lowByte (addChars cs (checksumInt (toInt32 e.val)) v)), .read [b], .close],
        .ret (abortCode b)⟩ := by
  simp [handshake, run_bind_def, Run.bind, emit, readByte, readWord_bytes, readN_append, hv,
    checkStatus_ok, checkStatus_abort b hb, run_pure_def]

theorem handshake_address_abort (cs : Bool) (baud : Int) (r : Byte) (e : Word) (v : List Byte)
    (a : Word) (b : Byte) (rest : List Byte) (hv : v.length = 15) (hb : b ≠ statusOk) :
    handshake cs baud (0x11 :: r :: (e.bytes ++ (v ++ statusOk :: (a.bytes ++ b :: rest))))
      = ⟨[.write (lowByte baud), .read [0x11], .speed (baud - 0xab), .write 0xab, .read [r],
          .read e.bytes, .read v,
          .write (lowByte (addChars cs (checksumInt (toInt32 e.val)) v)), .read [statusOk],
          .read a.bytes, .write (lowByte (checksumU32 a.val)), .read [b], .close],
        .ret (abortCode b)⟩ := by
  simp [handshake, run_bind_def, Run.bind, emit, readByte, readWord_bytes, readN_append, hv,
    checkStatus_ok, checkStatus_abort b hb, run_pure_def]

theorem handshake_length_abort (cs : Bool) (baud : Int) (r : Byte) (e : Word) (v : List Byte)
    (a l : Word) (b : Byte) (rest : List Byte) (hv : v.length = 15) (hb : b ≠ statusOk) :
    handshake cs baud (0x11 :: r :: (e.bytes ++ (v ++ statusOk :: (a.bytes ++ statusOk ::
        (l.bytes ++ b :: rest)))))
      = ⟨[.write (lowByte baud), .read [0x11], .speed (baud - 0xab), .write 0xab, .read [r],
          .read e.bytes, .read v,
          .write (lowByte (addChars cs (checksumInt (toInt32 e.val)) v)), .read [statusOk],
          .read a.bytes, .write (lowByte (checksumU32 a.val)), .read [statusOk],
          .read l.bytes, .write (lowByte (checksumU32 l.val)), .read [b], .close],
        .ret (abortCode b)⟩ := by
  simp [handshake, run_bind_def, Run.bind, emit, readByte, readWord_bytes, readN_append, hv,
    checkStatus_ok, checkStatus_abort b hb, run_pure_def]

theorem ram_dump_handshake_abort (cs : Bool) (baud : Int) (fuel : Nat) (input : List Byte)
    (c : Int) (h : (handshake cs baud input).out = .ret c) :
    ram_dump cs baud fuel (some input) = ⟨(handshake cs baud input).trace, .ret c⟩ ∧
    ∀ fd, sinkBytes fd (ram_dump cs baud fuel (some input)).trace = [] := by
  have e : ram_dump cs baud fuel (some input) = ⟨(handshake cs baud input).trace, .ret c⟩ := by
    rw [ram_dump_eq, run_bind_ret _ h]
  refine ⟨e, fun fd => ?_⟩
  rw [e]
  exact handshake_sinks fd cs baud input

theorem regionLoop_dispatch (fd : Sink) (L fuel : Nat) (s : List Byte) (p : Nat)
    (st : BatchState) (b : Byte) (tail : List Byte)
    (hfl : (frameLoop fd L fuel frameSlots ⟨s, 0, p⟩).out = .next st)
    (hin : st.input = b :: tail) :
    regionLoop fd L (fuel + 1) s p
      = if b = statusOk then
          if st.total_read < L then
            ⟨(frameLoop fd L fuel frameSlots ⟨s, 0, p⟩).trace
                ++ [.write (lowByte st.checksum), .read [b]]
                ++ (regionLoop fd L fuel tail st.total_read).trace,
              (regionLoop fd L fuel tail st.total_read).out⟩
          else
            ⟨(frameLoop fd L fuel frameSlots ⟨s, 0, p⟩).trace
                ++ [.write (lowByte st.checksum), .read [b]], .next (tail, st.total_read)⟩
        else
          ⟨(frameLoop fd L fuel frameSlots ⟨s, 0, p⟩).trace
              ++ [.write (lowByte st.checksum), .read [b], .close], .ret (abortCode b)⟩ := by
  rw [regionLoop_succ, batch_dispatch fd L fuel s p st b tail hfl hin]
  by_cases hb : b = statusOk
  · rw [if_pos hb, if_pos hb, run_bind_next _ rfl]
    dsimp only
    by_cases hlt : st.total_read < L
    · rw [if_pos hlt, if_pos hlt]
    · rw [if_neg hlt, if_neg hlt]
      simp [run_pure_def]
  · rw [if_neg hb, if_neg hb, run_bind_ret _ rfl]

theorem ram_dump_final (cs : Bool) (baud : Int) (fuel : Nat) (input : List Byte)
    (tr1 : List Event) (neg : Negotiated) (in1 in2 : List Byte) (q2 q3 : Nat) (f : Frame)
    (b : Byte) (rest : List Byte)
    (h1 : handshake cs baud input = ⟨tr1, .next (neg, in1)⟩)
    (h2 : (region .dump_fd neg.read_length fuel in1).out = .next (in2, q2))
    (h3 : (region .vectors_dump_fd 0x2000 fuel in2).out = .next (f.bytes ++ b :: rest, q3)) :
    ram_dump cs baud fuel (some input)
      = ⟨tr1 ++ ((region .dump_fd neg.read_length fuel in1).trace
            ++ ((region .vectors_dump_fd 0x2000 fuel in2).trace
              ++ [.read f.bytes, .write (lowByte f.sum), .read [b], .close])),
          .ret (if b = statusOk then 0 else abortCode b)⟩ := by
  rw [ram_dump_compose cs baud fuel input tr1 neg in1 in2 _ q2 q3 h1 h2 h3, finish_dispatch]

/-- C12: the three-way dispatch on a status byte `b` at the six checkpoints of `ram_dump`.
The `switch` itself falls through on `'w'` and otherwise closes the transport and returns
`'D'` (68) for `'D'` and 1 for any other byte. At the version, start-address and
region-length checkpoints a byte other than `'w'` makes `ram_dump` return that code with the
read of `b` and `close` as its last events, and `'w'` lets the handshake go on to the next
scalar and finally fall through; a return during the handshake leaves both files empty. At
the checkpoint of any batch of either region, `'w'` continues with the next batch or leaves
the region, and any other byte returns right after `close`; a return of a region is a return
of `ram_dump` with nothing after it. At the final checkpoint `ram_dump` returns 0 on `'w'`
and the abort code otherwise. -/
theorem status_dispatch (cs : Bool) (baud : Int) (fuel : Nat) (b : Byte) :
    (checkStatus b = if b = statusOk then ⟨[], .next ()⟩ else ⟨[.close], .ret (abortCode b)⟩) ∧
    abortCode statusDesync = 68 ∧ (b ≠ statusDesync → abortCode b = 1) ∧
    (∀ (r : Byte) (e : Word) (v : List Byte) (a l : Word) (rest : List Byte),
      v.length = 15 → b ≠ statusOk →
      ram_dump cs baud fuel (some (0x11 :: r :: (e.bytes ++ (v ++ b :: rest))))
        = ⟨[.write (lowByte baud), .read [0x11], .speed (baud - 0xab), .write 0xab, .read [r],
            .read e.bytes, .read v,
            .write (lowByte (addChars cs (checksumInt (toInt32 e.val)) v)), .read [b], .close],
          .ret (abortCode b)⟩ ∧
      ram_dump cs baud fuel (some (0x11 :: r :: (e.bytes ++ (v ++ statusOk :: (a.bytes ++ b :: rest)))))
        = ⟨[.write (lowByte baud), .read [0x11], .speed (baud - 0xab), .write 0xab, .read [r],
            .read e.bytes, .read v,
            .write (lowByte (addChars cs (checksumInt (toInt32 e.val)) v)), .read [statusOk],
            .read a.bytes, .write (lowByte (checksumU32 a.val)), .read [b], .close],
          .ret (abortCode b)⟩ ∧
      ram_dump cs baud fuel (some (0x11 :: r :: (e.bytes ++ (v ++ statusOk ::
          (a.bytes ++ statusOk :: (l.bytes ++ b :: rest))))))
        = ⟨[.write (lowByte baud), .read [0x11], .speed (baud - 0xab), .write 0xab, .read [r],
            .read e.bytes, .read v,
            .write (lowByte (addChars cs (checksumInt (toInt32 e.val)) v)), .read [statusOk],
            .read a.bytes, .write (lowByte (checksumU32 a.val)), .read [statusOk],
            .read l.bytes, .write (lowByte (checksumU32 l.val)), .read [b], .close],
          .ret (abortCode b)⟩) ∧
    (∀ (r : Byte) (e : Word) (v : List Byte) (a l : Word) (rest : List Byte),
      v.length = 15 →
      (handshake cs baud (handshakeWire r e v a l ++ rest)).out
        = .next (⟨toInt32 e.val, v, a.val, l.val⟩, rest)) ∧
    (∀ (input : List Byte) (c : Int), (handshake cs baud input).out = .ret c →
      ram_dump cs baud fuel (some input) = ⟨(handshake cs baud input).trace, .ret c⟩ ∧
      ∀ fd, sinkBytes fd (ram_dump cs baud fuel (some input)).trace = []) ∧
    (∀ (fd : Sink) (L fuel1 : Nat) (s : List Byte) (p : Nat) (st : BatchState)
      (tail : List Byte),
      (frameLoop fd L fuel1 frameSlots ⟨s, 0, p⟩).out = .next st → st.input = b :: tail →
      regionLoop fd L (fuel1 + 1) s p
        = if b = statusOk then
            if st.total_read < L then
              ⟨(frameLoop fd L fuel1 frameSlots ⟨s, 0, p⟩).trace
                  ++ [.write (lowByte st.checksum), .read [b]]
                  ++ (regionLoop fd L fuel1 tail st.total_read).trace,
                (regionLoop fd L fuel1 tail st.total_read).out⟩
            else
              ⟨(frameLoop fd L fuel1 frameSlots ⟨s, 0, p⟩).trace
                  ++ [.write (lowByte st.checksum), .read [b]], .next (tail, st.total_read)⟩
          else
            ⟨(frameLoop fd L fuel1 frameSlots ⟨s, 0, p⟩).trace
                ++ [.write (lowByte st.checksum), .read [b], .close], .ret (abortCode b)⟩) ∧
    (∀ (input : List Byte) (tr1 : List Event) (neg : Negotiated) (in1 : List Byte),
      handshake cs baud input = ⟨tr1, .next (neg, in1)⟩ →
      (∀ c, (region .dump_fd neg.read_length fuel in1).out = .ret c →
        ram_dump cs baud fuel (some input)
          = ⟨tr1 ++ (region .dump_fd neg.read_length fuel in1).trace, .ret c⟩) ∧
      (∀ (in2 : List Byte) (q2 : Nat) (c : Int),
        (region .dump_fd neg.read_length fuel in1).out = .next (in2, q2) →
        (region .vectors_dump_fd 0x2000 fuel in2).out = .ret c →
        ram_dump cs baud fuel (some input)
          = ⟨tr1 ++ ((region .dump_fd neg.read_length fuel in1).trace
              ++ (region .vectors_dump_fd 0x2000 fuel in2).trace), .ret c⟩) ∧
      (∀ (in2 : List Byte) (q2 q3 : Nat) (f : Frame) (rest : List Byte),
        (region .dump_fd neg.read_length fuel in1).out = .next (in2, q2) →
        (region .vectors_dump_fd 0x2000 fuel in2).out = .next (f.bytes ++ b :: rest, q3) →
        ram_dump cs baud fuel (some input)
          = ⟨tr1 ++ ((region .dump_fd neg.read_length fuel in1).trace
              ++ ((region .vectors_dump_fd 0x2000 fuel in2).trace
                ++ [.read f.bytes, .write (lowByte f.sum), .read [b], .close])),
            .ret (if b = statusOk then 0 else abortCode b)⟩)) := by
  refine ⟨?_, rfl, ?_, ?_, ?_, ?_, ?_, ?_⟩
  · by_cases hb : b = statusOk
    · rw [if_pos hb, hb, checkStatus_ok]
    · rw [if_neg hb, checkStatus_abort b hb]
  · intro hb
    unfold abortCode
    rw [if_neg hb]
  · intro r e v a l rest hv hb
    refine ⟨?_, ?_, ?_⟩
    · have h := handshake_version_abort cs baud r e v b rest hv hb
      rw [(ram_dump_handshake_abort cs baud fuel _ (abortCode b) (by rw [h])).1, h]
    · have h := handshake_address_abort cs baud r e v a b rest hv hb
      rw [(ram_dump_handshake_abort cs baud fuel _ (abortCode b) (by rw [h])).1, h]
    · have h := handshake_length_abort cs baud r e v a l b rest hv hb
      rw [(ram_dump_handshake_abort cs baud fuel _ (abortCode b) (by rw [h])).1, h]
  · intro r e v a l rest hv
    rw [handshake_accepted cs baud r e v a l rest hv]
  · intro input c h
    exact ram_dump_handshake_abort cs baud fuel input c h
  · intro fd L fuel1 s p st tail hfl hin
    exact regionLoop_dispatch fd L fuel1 s p st b tail hfl hin
  · intro input tr1 neg in1 h1
    refine ⟨?_, ?_, ?_⟩
    · intro c h2
      exact ram_dump_primary_abort cs baud fuel input tr1 neg in1 c h1 h2
    · intro in2 q2 c h2 h3
      exact ram_dump_vector_abort cs baud fuel input tr1 neg in1 in2 q2 c h1 h2 h3
    · intro in2 q2 q3 f rest h2 h3
      exact ram_dump_final cs baud fuel input tr1 neg in1 in2 q2 q3 f b rest h1 h2 h3

/-- The byte 0x5A at the version checkpoint: `ram_dump` returns 1 right after closing the
transport; the start address is never read and no region is attempted. -/
theorem status_dispatch_witness :
    ram_dump true 0xab 8
        (some (0x11 :: 0 :: (Word.bytes ⟨0, 0, 0, 0⟩
          ++ ([0x54, 0x45, 0x53, 0x54, 0x44, 0x45, 0x56, 0, 0, 0, 0, 0, 0, 0, 0]
            ++ 0x5A :: [0, 0, 0, 0x30, 0x77]))))
      = ⟨[.write 0xab, .read [0x11], .speed 0, .write 0xab, .read [0], .read [0, 0, 0, 0],
          .read [0x54, 0x45, 0x53, 0x54, 0x44, 0x45, 0x56, 0, 0, 0, 0, 0, 0, 0, 0],
          .write 0x1F, .read [0x5A], .close], .ret 1⟩ := by
  have h := ((status_dispatch true 0xab 8 0x5A).2.2.2.1 0 ⟨0, 0, 0, 0⟩
    [0x54, 0x45, 0x53, 0x54, 0x44, 0x45, 0x56, 0, 0, 0, 0, 0, 0, 0, 0] ⟨0, 0, 0, 0⟩
    ⟨0, 0, 0, 0⟩ [0, 0, 0, 0x30, 0x77] (by decide) (by decide)).1
  rw [h]
  decide

/-! ## C14: validation of the baud selector in main -/

theorem land_not_three (x : Int) : Int.land x (~~~ 3) = 0 ↔ 0 ≤ x ∧ x ≤ 3 := by
  have hc : (~~~ (3 : Int)) = Int.negSucc 3 := rfl
  rw [hc]
  cases x with
  | ofNat m =>
    have e : Int.land (Int.ofNat m) (Int.negSucc 3) = ((Nat.ldiff m 3 : Nat) : Int) := rfl
    rw [e]
    constructor
    · intro h
      have h0 : Nat.ldiff m 3 = 0 := by exact_mod_cast h
      have hm : m ≤ 3 := by
        by_contra hgt
        obtain ⟨i, hi, hbit⟩ := Nat.ge_two_pow_implies_high_bit_true (x := m) (n := 2)
          (by omega)
        have h3 : Nat.testBit 3 i = false := by
          apply Nat.testBit_lt_two_pow
          calc 3 < 2 ^ 2 := by decide
            _ ≤ 2 ^ i := Nat.pow_le_pow_right (by decide) hi
        have hb := Nat.testBit_ldiff m 3 i
        rw [h0, hbit, h3] at hb
        simp at hb
      exact ⟨Int.ofNat_nonneg m, Int.ofNat_le.2 hm⟩
    · rintro ⟨_, h3⟩
      have hm : m ≤ 3 := Int.ofNat_le.1 h3
      have h0 : Nat.ldiff m 3 = 0 := by
        apply Nat.eq_of_testBit_eq
        intro i
        rw [Nat.testBit_ldiff, Nat.zero_testBit]
        by_cases hi : i < 2
        · have h3 : Nat.testBit 3 i = true := by
            interval_cases i <;> decide
          rw [h3]
          simp
        · have hm2 : Nat.testBit m i = false := by
            apply Nat.testBit_lt_two_pow
            calc m < 2 ^ 2 := by omega
              _ ≤ 2 ^ i := Nat.pow_le_pow_right (by decide) (by omega)
          rw [hm2]
          rfl
      rw [h0]
      rfl
  | negSucc m =>
    have e : Int.land (Int.negSucc m) (Int.negSucc 3) = Int.negSucc (m ||| 3) := rfl
    rw [e]
    constructor
    · intro h; cases h
    · rintro ⟨h0, _⟩
      exact absurd h0 (by simp [Int.negSucc_lt_zero])

theorem optLoop_baud (baud_i : Int) (os : List Opt) (g : Globals) :
    optLoop (.b baud_i :: os) g
      = if 0 ≤ baud_i ∧ baud_i ≤ 3 then optLoop os { g with baud := 0xab + baud_i }
        else .error 1 := by
  rw [optLoop]
  by_cases h : 0 ≤ baud_i ∧ baud_i ≤ 3
  · rw [if_neg (not_not.2 ((land_not_three baud_i).2 h)), if_pos h]
  · rw [if_pos (fun e => h ((land_not_three baud_i).1 e)), if_neg h]

theorem optLoop_append :
    ∀ (pre os : List Opt) (g g1 : Globals), optLoop pre g = .ok g1 →
      optLoop (pre ++ os) g = optLoop os g1 := by
  intro pre
  induction pre with
  | nil =>
    intro os g g1 h
    simp only [optLoop, Except.ok.injEq] at h
    rw [h]
    rfl
  | cons o pre ih =>
    intro os g g1 h
    cases o with
    | h => simp [optLoop] at h
    | d optarg => simp only [List.cons_append, optLoop] at h ⊢; exact ih _ _ _ h
    | D delay => simp only [List.cons_append, optLoop] at h ⊢; exact ih _ _ _ h
    | b baud_i =>
      rw [List.cons_append, optLoop_baud]
      rw [optLoop_baud] at h
      by_cases hb : 0 ≤ baud_i ∧ baud_i ≤ 3
      · rw [if_pos hb] at h ⊢
        exact ih _ _ _ h
      · rw [if_neg hb] at h
        cases h
    | v => simp only [List.cons_append, optLoop] at h ⊢; exact ih _ _ _ h
    | unknown => simp [optLoop] at h

theorem optLoop_range :
    ∀ (os : List Opt) (g g1 : Globals), optLoop os g = .ok g1 →
      0xab ≤ g.baud ∧ g.baud ≤ 0xae → 0xab ≤ g1.baud ∧ g1.baud ≤ 0xae := by
  intro os
  induction os with
  | nil =>
    intro g g1 h hg
    simp only [optLoop, Except.ok.injEq] at h
    rw [← h]
    exact hg
  | cons o os ih =>
    intro g g1 h hg
    cases o with
    | h => simp [optLoop] at h
    | d optarg => simp only [optLoop] at h; exact ih _ _ h hg
    | D delay => simp only [optLoop] at h; exact ih _ _ h hg
    | b baud_i =>
      rw [optLoop_baud] at h
      by_cases hb : 0 ≤ baud_i ∧ baud_i ≤ 3
      · rw [if_pos hb] at h
        refine ih _ _ h ?_
        dsimp only
        omega
      · rw [if_neg hb] at h
        cases h
    | v => simp only [optLoop] at h; exact ih _ _ h hg
    | unknown => simp [optLoop] at h

theorem main_rejects (w : Host) (code : Int) (h : optLoop w.opts defaults = .error code) :
    main w = ([], some code) := by
  unfold main
  rw [h]

theorem main_call_range (w : Host) (baud : Int) (h : Action.call_ram_dump baud ∈ (main w).1) :
    0xab ≤ baud ∧ baud ≤ 0xae := by
  unfold main at h
  cases ho : optLoop w.opts defaults with
  | error code => rw [ho] at h; simp at h
  | ok g =>
    rw [ho] at h
    have hr := optLoop_range w.opts defaults g ho (by decide)
    dsimp only at h
    split at h
    · simp at h
    · split at h
      · simp at h
      · split at h
        · simp only [List.mem_cons, Action.call_ram_dump.injEq, List.mem_nil_iff,
            or_false, false_or, reduceCtorEq] at h
          rw [h]
          exact hr
        · simp only [List.mem_cons, Action.call_ram_dump.injEq, List.mem_nil_iff,
            or_false, false_or, reduceCtorEq] at h
          rw [h]
          exact hr

theorem ram_dump_ready_head (cs : Bool) (baud : Int) (fuel : Nat) (rest : List Byte) :
    ∃ tail, (ram_dump cs baud fuel (some (0x11 :: rest))).trace
      = [.write (lowByte baud), .read [0x11], .speed (baud - 0xab), .write 0xab] ++ tail := by
  obtain ⟨t1, h1⟩ := handshake_ready_head cs baud rest
  rw [ram_dump_eq]
  obtain ⟨more, hmore⟩ := run_bind_trace_grows (handshake cs baud (0x11 :: rest))
    (fun x => Run.bind (region .dump_fd x.1.read_length fuel x.2) (fun y =>
      Run.bind (region .vectors_dump_fd 0x2000 fuel y.1) (fun z => finish z.1)))
  rw [hmore, h1]
  exact ⟨t1 ++ more, by simp⟩

/-- C14: for every integer `baud_i` given to `--baud-rate`, the option loop of `main` returns
1 at that option exactly when `baud_i` is outside 0..3, and otherwise sets `baud` to
`0xab + baud_i` and goes on; a rejected selector makes `main` return 1 without opening a file
or calling `ram_dump`; an accepted one gives a selector in 0xAB..0xAE; whenever `main` calls
`ram_dump`, with a selector from the options or with the default, `baud - 0xab`, the index
into `baudrate_table` that `ram_dump` uses after the reply 0x11, is within 0..3. -/
theorem baud_validation (baud_i : Int) :
    (∀ (os : List Opt) (g : Globals),
      optLoop (.b baud_i :: os) g
        = if 0 ≤ baud_i ∧ baud_i ≤ 3 then optLoop os { g with baud := 0xab + baud_i }
          else .error 1) ∧
    (∀ (w : Host) (pre os : List Opt) (g : Globals),
      w.opts = pre ++ .b baud_i :: os → optLoop pre defaults = .ok g →
      (¬ (0 ≤ baud_i ∧ baud_i ≤ 3) → main w = ([], some 1)) ∧
      (0 ≤ baud_i ∧ baud_i ≤ 3 →
        optLoop w.opts defaults = optLoop os { g with baud := 0xab + baud_i } ∧
        0xab ≤ 0xab + baud_i ∧ 0xab + baud_i ≤ 0xae)) ∧
    (∀ (w : Host) (baud : Int), Action.call_ram_dump baud ∈ (main w).1 →
      0xab ≤ baud ∧ baud ≤ 0xae ∧ 0 ≤ baud - 0xab ∧ baud - 0xab ≤ 3) ∧
    (∀ (cs : Bool) (baud : Int) (fuel : Nat) (rest : List Byte),
      ∃ tail, (ram_dump cs baud fuel (some (0x11 :: rest))).trace
        = [.write (lowByte baud), .read [0x11], .speed (baud - 0xab), .write 0xab] ++ tail) ∧
    (0 ≤ defaults.baud - 0xab ∧ defaults.baud - 0xab ≤ 3) := by
  refine ⟨fun os g => optLoop_baud baud_i os g, ?_, ?_, ?_, by decide⟩
  · intro w pre os g hw hpre
    have h := optLoop_append pre (.b baud_i :: os) defaults g hpre
    rw [← hw, optLoop_baud] at h
    constructor
    · intro hb
      rw [if_neg hb] at h
      exact main_rejects w 1 h
    · intro hb
      rw [if_pos hb] at h
      exact ⟨h, by omega, by omega⟩
  · intro w baud h
    have := main_call_range w baud h
    omega
  · intro cs baud fuel rest
    exact ram_dump_ready_head cs baud fuel rest

/-- The command line `-b 4`: `main` returns 1 and has opened nothing. -/
theorem baud_validation_witness :
    main ⟨[.b 4], true, true, none, 0, true, 0⟩ = ([], some 1) :=
  ((baud_validation 4).2.1 ⟨[.b 4], true, true, none, 0, true, 0⟩ [] [] defaults rfl rfl).1
    (by decide)

/-! ## C4: the flush loop from the states a region reaches -/

/-- C4: for any target `L` that is a multiple of 4 and any starting progress `p < L` that
`total_read` can have in a region with that target (any value assigned to it, on any stream),
the terminal-frame flush loop, given at least `(L - p) / 4` units of fuel, terminates with
progress exactly `L`: it writes the payload `(L - p) / 4` times and no value progress takes on
the way exceeds `L`. Such a `p` is always a multiple of 4. -/
theorem flush_reaches_target (fd : Sink) (f : Frame) (L p fuel fuel1 : Nat)
    (input : List Byte) (pre post : List Event)
    (hreach : (region fd L fuel1 input).trace = pre ++ .progress p :: post)
    (hL : L % 4 = 0) (hlt : p < L) (h32 : L < 2 ^ 32) (hfuel : (L - p) / 4 ≤ fuel) :
    p % 4 = 0 ∧
    (flush fd f L fuel p).out = .next L ∧
    sinkBytes fd (flush fd f L fuel p).trace = (List.replicate ((L - p) / 4) f.payload).flatten ∧
    ∀ v ∈ progressTrace (flush fd f L fuel p).trace, p < v ∧ v ≤ L := by
  have hc := (region_counts fd L fuel1 input).1
  rw [hreach] at hc
  obtain ⟨h1, h2⟩ := tracks_split fd 0 pre post p hc
  have hp : p % 4 = 0 := by
    rw [h1]
    unfold wrapU32
    omega
  exact ⟨hp, flush_lands_on_target fd f L p fuel hL hp hlt h32 hfuel⟩

/-- A region with target 12 fed a frame with count 2 and a terminal frame: `total_read` is 8
when the terminal frame arrives, and the flush loop started there ends at exactly 12. -/
theorem flush_reaches_target_witness :
    (region .dump_fd 12 4 [1, 2, 3, 4, 2, 5, 6, 7, 8, 0, statusOk]).trace
      = [.progress 0, .read [1, 2, 3, 4, 2], .fwrite .dump_fd [1, 2, 3, 4], .progress 4,
          .fwrite .dump_fd [1, 2, 3, 4]]
        ++ .progress 8 :: [.read [5, 6, 7, 8, 0], .fwrite .dump_fd [5, 6, 7, 8], .progress 12,
          .write 38, .read [statusOk]] ∧
    (flush .dump_fd ⟨5, 6, 7, 8, 0⟩ 12 1 8).out = .next 12 :=
  ⟨by decide, (flush_reaches_target .dump_fd ⟨5, 6, 7, 8, 0⟩ 12 8 1 4
    [1, 2, 3, 4, 2, 5, 6, 7, 8, 0, statusOk]
    [.progress 0, .read [1, 2, 3, 4, 2], .fwrite .dump_fd [1, 2, 3, 4], .progress 4,
      .fwrite .dump_fd [1, 2, 3, 4]]
    [.read [5, 6, 7, 8, 0], .fwrite .dump_fd [5, 6, 7, 8], .progress 12, .write 38,
      .read [statusOk]]
    (by decide) (by decide) (by decide) (by decide) (by decide)).2.1⟩

/-! ## C9 and C16: a batch writes its checksum byte after its frames -/

theorem length_frameBytes : ∀ (fs : List Frame), (frameBytes fs).length = 5 * fs.length := by
  intro fs
  induction fs with
  | nil => rfl
  | cons f fs ih =>
    simp only [frameBytes, List.length_append, List.length_cons, ih, Frame.bytes,
      List.length_nil]
    omega

theorem flush_ends (fd : Sink) (f : Frame) (L p fuel : Nat) (hL : L ≤ 2 ^ 32 - 4)
    (hfuel : L / 4 + 2 ≤ fuel) :
    ∃ q, (flush fd f L fuel p).out = .next q ∧ L ≤ q ∧ q < 2 ^ 32 := by
  obtain ⟨fuel, rfl⟩ : ∃ m, fuel = m + 1 := ⟨fuel - 1, by omega⟩
  have h2 : wrapU32 (p + 4) < 2 ^ 32 := Nat.mod_lt _ (by decide)
  rw [flush_step]
  by_cases hlt : wrapU32 (p + 4) < L
  · rw [if_pos hlt]
    exact flush_climbs_to_target fd f L hL ((L - wrapU32 (p + 4) + 3) / 4) fuel _ (by omega)
      (by omega) hlt (by omega)
  · rw [if_neg hlt]
    exact ⟨_, rfl, by omega, h2⟩

theorem frameStep_terminal_out (fd : Sink) (L fuel : Nat) (f : Frame) (p q : Nat)
    (h0 : f.d4 = 0) (hq : (flush fd f L fuel p).out = .next q) :
    (frameStep fd L fuel f p).out = .next (q, true) := by
  rw [frameStep_eq, if_pos h0]
  dsimp only
  rw [hq]

theorem frameStep_run_out (fd : Sink) (L fuel : Nat) (f : Frame) (p : Nat) (h0 : f.d4 ≠ 0) :
    (frameStep fd L fuel f p).out = .next (wrapU32 (p + 4 * f.d4.val), false) := by
  rw [frameStep_eq, if_neg h0]

theorem frameStep_frames (fd : Sink) (L fuel : Nat) (f : Frame) (p : Nat) :
    framesOf (frameStep fd L fuel f p).trace = [] :=
  framesOf_silent _ (frameStep_quiet fd L fuel f p).2.1

theorem frameLoop_falls_through (fd : Sink) (L fuel : Nat) :
    ∀ (init : List Frame) (last : Frame) (rest : List Byte) (slots : Nat) (c : Int) (p : Nat),
      (∀ f ∈ init, f.d4 ≠ 0) → init.length < slots →
      ((last.d4 = 0 ∧ L ≤ 2 ^ 32 - 4 ∧ L / 4 + 2 ≤ fuel) ∨
        (last.d4 ≠ 0 ∧ init.length + 1 = slots)) →
      ∃ st, (frameLoop fd L fuel slots ⟨frameBytes (init ++ [last]) ++ rest, c, p⟩).out
          = .next st ∧
        st.input = rest ∧
        framesOf (frameLoop fd L fuel slots
          ⟨frameBytes (init ++ [last]) ++ rest, c, p⟩).trace = init ++ [last] ∧
        receivedBytes (frameLoop fd L fuel slots
          ⟨frameBytes (init ++ [last]) ++ rest, c, p⟩).trace = frameBytes (init ++ [last]) := by
  intro init
  induction init with
  | nil =>
    intro last rest slots c p _ hlen hlast
    obtain ⟨s, rfl⟩ : ∃ m, slots = m + 1 := ⟨slots - 1, by simp at hlen; omega⟩
    have hb : frameBytes ([] ++ [last]) ++ rest = last.bytes ++ rest := by
      simp [frameBytes]
    have hb1 : frameBytes ([] ++ [last]) = last.bytes := by
      simp [frameBytes]
    have ef : framesOf [Event.read last.bytes] = [last] := rfl
    have er : receivedBytes [Event.read last.bytes] = last.bytes := by
      simp [receivedBytes]
    have hq0 := frameStep_frames fd L fuel last p
    have hq1 := (frameStep_quiet fd L fuel last p).2.1
    have hrun : ∃ st, st.input = rest ∧
        frameLoop fd L fuel (s + 1) ⟨last.bytes ++ rest, c, p⟩
          = ⟨[.read last.bytes] ++ ((frameStep fd L fuel last p).trace ++ []), .next st⟩ := by
      rw [frameLoop_succ]
      dsimp only
      rw [readFrame_bytes, run_bind_next _ rfl]
      dsimp only
      rcases hlast with ⟨h0, hL, hfuel⟩ | ⟨h0, hs⟩
      · obtain ⟨q, hq, _, _⟩ := flush_ends fd last L p fuel hL hfuel
        have hy := frameStep_terminal_out fd L fuel last p q h0 hq
        rw [run_bind_next _ hy]
        exact ⟨⟨rest, wrapInt32 (c + last.sum), q⟩, rfl, rfl⟩
      · have hy := frameStep_run_out fd L fuel last p h0
        have hs0 : s = 0 := by simp at hs; omega
        subst hs0
        rw [run_bind_next _ hy]
        exact ⟨⟨rest, wrapInt32 (c + last.sum), wrapU32 (p + 4 * last.d4.val)⟩, rfl, rfl⟩
    obtain ⟨st, hst, hrun⟩ := hrun
    rw [hb, hb1, hrun]
    refine ⟨st, rfl, hst, ?_, ?_⟩
    · show framesOf ([.read last.bytes] ++ ((frameStep fd L fuel last p).trace ++ [])) = _
      rw [framesOf_append, framesOf_append, ef, hq0]
      rfl
    · show receivedBytes ([.read last.bytes] ++ ((frameStep fd L fuel last p).trace ++ []))
        = _
      rw [receivedBytes_append, receivedBytes_append, er, hq1]
      simp [receivedBytes]
  | cons f init ih =>
    intro last rest slots c p hinit hlen hlast
    obtain ⟨s, rfl⟩ : ∃ m, slots = m + 1 := ⟨slots - 1, by omega⟩
    have h0 : f.d4 ≠ 0 := hinit f (by simp)
    have hb : frameBytes (f :: init ++ [last]) ++ rest
        = f.bytes ++ (frameBytes (init ++ [last]) ++ rest) := by
      simp [frameBytes]
    have hb1 : frameBytes (f :: init ++ [last]) = f.bytes ++ frameBytes (init ++ [last]) := rfl
    have ef : framesOf [Event.read f.bytes] = [f] := rfl
    have er : receivedBytes [Event.read f.bytes] = f.bytes := by
      simp [receivedBytes]
    have hq0 := frameStep_frames fd L fuel f p
    have hq1 := (frameStep_quiet fd L fuel f p).2.1
    have hy := frameStep_run_out fd L fuel f p h0
    obtain ⟨st, i1, i2, i3, i4⟩ := ih last rest s (wrapInt32 (c + f.sum))
      (wrapU32 (p + 4 * f.d4.val)) (fun g hg => hinit g (by simp [hg]))
      (by simp at hlen; omega)
      (by
        rcases hlast with h | ⟨h1, h2⟩
        · exact Or.inl h
        · exact Or.inr ⟨h1, by simp at h2; omega⟩)
    have hrun : frameLoop fd L fuel (s + 1) ⟨f.bytes ++ (frameBytes (init ++ [last]) ++ rest),
          c, p⟩
        = ⟨[.read f.bytes] ++ ((frameStep fd L fuel f p).trace
              ++ (frameLoop fd L fuel s ⟨frameBytes (init ++ [last]) ++ rest,
                wrapInt32 (c + f.sum), wrapU32 (p + 4 * f.d4.val)⟩).trace),
            (frameLoop fd L fuel s ⟨frameBytes (init ++ [last]) ++ rest,
              wrapInt32 (c + f.sum), wrapU32 (p + 4 * f.d4.val)⟩).out⟩ := by
      rw [frameLoop_succ]
      dsimp only
      rw [readFrame_bytes, run_bind_next _ rfl]
      dsimp only
      rw [run_bind_next _ hy]
      rfl
    rw [hb, hb1, hrun]
    refine ⟨st, i1, i2, ?_, ?_⟩
    · show framesOf ([.read f.bytes] ++ ((frameStep fd L fuel f p).trace ++ _)) = _
      rw [framesOf_append, framesOf_append, ef, hq0, i3]
      rfl
    · show receivedBytes ([.read f.bytes] ++ ((frameStep fd L fuel f p).trace ++ _)) = _
      rw [receivedBytes_append, receivedBytes_append, er, hq1, i4]
      rfl

theorem batch_writes (fd : Sink) (L fuel : Nat) (p : Nat) (init : List Frame) (last : Frame)
    (rest : List Byte) (hinit : ∀ f ∈ init, f.d4 ≠ 0) (hlen : init.length < 1600)
    (hlast : (last.d4 = 0 ∧ L ≤ 2 ^ 32 - 4 ∧ L / 4 + 2 ≤ fuel) ∨
      (last.d4 ≠ 0 ∧ init.length = 1599)) :
    ∃ (pre post : List Event) (b : Byte),
      (batch fd L fuel (frameBytes (init ++ [last]) ++ rest) p).trace
        = pre ++ .write b :: post ∧
      sentBytes pre = [] ∧ sentBytes post = [] ∧
      framesOf pre = init ++ [last] ∧
      receivedBytes pre = frameBytes (init ++ [last]) ∧
      b.val = byteSum (frameBytes (init ++ [last])) % 256 := by
  have hfs : frameSlots = 1600 := by decide
  obtain ⟨st, h1, _, h3, h4⟩ := frameLoop_falls_through fd L fuel init last rest frameSlots 0 p
    hinit (by rw [hfs]; exact hlen)
    (by
      rcases hlast with h | ⟨h1, h2⟩
      · exact Or.inl h
      · exact Or.inr ⟨h1, by rw [hfs, h2]⟩)
  rcases batch_shape fd L fuel (frameBytes (init ++ [last]) ++ rest) p with
    ⟨hno, _⟩ | ⟨st1, tail, hst1, htr, htail⟩
  · exact absurd h1 (hno st)
  · have hst : st1 = st := by
      rw [h1] at hst1
      simp only [Outcome.next.injEq] at hst1
      exact hst1.symm
    subst hst
    obtain ⟨c1, _, _, _⟩ := frameLoop_checksum fd L fuel frameSlots _ st1 h1
    refine ⟨_, tail, lowByte st1.checksum, htr, frameLoop_sent fd L fuel _ _, htail, h3, h4, ?_⟩
    rw [h4] at c1
    rw [lowByte_val]
    dsimp only at c1
    omega

/-- C9: in every batch of either region whose frames arrive, that is `N` frames, `1 ≤ N ≤
1600`, of which only the last may be terminal and is terminal unless `N = 1600` (for a
terminal frame the flush must end: target at most 0xFFFFFFFC and enough fuel), the host writes
exactly one byte, after having read exactly those `5 * N` bytes, and this byte is their sum
modulo 256, the accumulator starting at 0; and whatever the stream, a byte written by a batch
is the sum modulo 256 of all bytes received before it in that batch. -/
theorem batch_checksum (fd : Sink) (L fuel p : Nat) (init : List Frame) (last : Frame)
    (rest : List Byte) (hinit : ∀ f ∈ init, f.d4 ≠ 0) (hlen : init.length < 1600)
    (hlast : (last.d4 = 0 ∧ L ≤ 2 ^ 32 - 4 ∧ L / 4 + 2 ≤ fuel) ∨
      (last.d4 ≠ 0 ∧ init.length = 1599)) :
    (∃ (pre post : List Event) (b : Byte),
      (batch fd L fuel (frameBytes (init ++ [last]) ++ rest) p).trace
        = pre ++ .write b :: post ∧
      sentBytes pre = [] ∧ sentBytes post = [] ∧
      framesOf pre = init ++ [last] ∧
      receivedBytes pre = frameBytes (init ++ [last]) ∧
      (receivedBytes pre).length = 5 * (init.length + 1) ∧
      b.val = byteSum (frameBytes (init ++ [last])) % 256) ∧
    (∀ (input : List Byte) (pre post : List Event) (b : Byte),
      (batch fd L fuel input p).trace = pre ++ .write b :: post →
      b.val = byteSum (receivedBytes pre) % 256 ∧
      (receivedBytes pre).length % 5 = 0 ∧
      5 ≤ (receivedBytes pre).length ∧ (receivedBytes pre).length ≤ 5 * 1600 ∧
      sentBytes pre = [] ∧ sentBytes post = []) := by
  obtain ⟨pre, post, b, h1, h2, h3, h4, h5, h6⟩ :=
    batch_writes fd L fuel p init last rest hinit hlen hlast
  refine ⟨⟨pre, post, b, h1, h2, h3, h4, h5, ?_, h6⟩, ?_⟩
  · rw [h5, length_frameBytes, List.length_append]
    rfl
  · intro input pre1 post1 b1 h
    exact batch_write_is_checksum fd L fuel input p pre1 post1 b1 h

/-- Two batches: the single terminal frame `AA BB CC DD 00` with target 4, and 1600 frames
`01 02 03 04 01` with no terminal frame among them. -/
theorem batch_checksum_witness :
    (∃ (pre post : List Event) (b : Byte),
      (batch .dump_fd 4 3 (frameBytes ([] ++ [⟨0xAA, 0xBB, 0xCC, 0xDD, 0⟩]) ++ [0x77]) 0).trace
        = pre ++ .write b :: post ∧
      sentBytes pre = [] ∧ sentBytes post = [] ∧
      framesOf pre = [] ++ [⟨0xAA, 0xBB, 0xCC, 0xDD, 0⟩] ∧
      receivedBytes pre = frameBytes ([] ++ [⟨0xAA, 0xBB, 0xCC, 0xDD, 0⟩]) ∧
      (receivedBytes pre).length = 5 * (([] : List Frame).length + 1) ∧
      b.val = byteSum (frameBytes ([] ++ [⟨0xAA, 0xBB, 0xCC, 0xDD, 0⟩])) % 256) ∧
    (∃ (pre post : List Event) (b : Byte),
      (batch .dump_fd 8 0
        (frameBytes (List.replicate 1599 (⟨1, 2, 3, 4, 1⟩ : Frame) ++ [⟨1, 2, 3, 4, 1⟩]) ++ [0x77])
        0).trace
        = pre ++ .write b :: post ∧
      sentBytes pre = [] ∧ sentBytes post = [] ∧
      framesOf pre = (List.replicate 1599 (⟨1, 2, 3, 4, 1⟩ : Frame) ++ [⟨1, 2, 3, 4, 1⟩]) ∧
      receivedBytes pre
        = frameBytes (List.replicate 1599 (⟨1, 2, 3, 4, 1⟩ : Frame) ++ [⟨1, 2, 3, 4, 1⟩]) ∧
      (receivedBytes pre).length
        = 5 * ((List.replicate 1599 (⟨1, 2, 3, 4, 1⟩ : Frame)).length + 1) ∧
      b.val
        = byteSum (frameBytes (List.replicate 1599 (⟨1, 2, 3, 4, 1⟩ : Frame) ++ [⟨1, 2, 3, 4, 1⟩]))
          % 256) :=
  ⟨(batch_checksum .dump_fd 4 3 0 [] ⟨0xAA, 0xBB, 0xCC, 0xDD, 0⟩ [0x77]
      (fun f hf => (by cases hf)) (by decide)
      (Or.inl ⟨rfl, by decide, by decide⟩)).1,
    (batch_checksum .dump_fd 8 0 0 (List.replicate 1599 ⟨1, 2, 3, 4, 1⟩) ⟨1, 2, 3, 4, 1⟩ [0x77]
      (fun f hf => (by rw [List.eq_of_mem_replicate hf]; decide))
      (by rw [List.length_replicate]; decide)
      (Or.inr ⟨by decide, List.length_replicate 1599 _⟩)).1⟩

theorem regionLoop_loopHead (fd : Sink) (L : Nat) :
    ∀ (k fuel : Nat) (s : List Byte) (p : Nat) (pre : List Event) (fuel1 : Nat)
      (s1 : List Byte) (p1 : Nat),
      loopHead fd L k fuel s p = some (pre, fuel1, s1, p1) →
      regionLoop fd L fuel s p
        = ⟨pre ++ (regionLoop fd L fuel1 s1 p1).trace, (regionLoop fd L fuel1 s1 p1).out⟩ := by
  intro k
  induction k with
  | zero =>
    intro fuel s p pre fuel1 s1 p1 h
    simp only [loopHead, Option.some.injEq, Prod.mk.injEq] at h
    obtain ⟨rfl, rfl, rfl, rfl⟩ := h
    rfl
  | succ k ih =>
    intro fuel s p pre fuel1 s1 p1 h
    cases fuel with
    | zero => simp [loopHead] at h
    | succ fuel =>
      rw [loopHead] at h
      cases hout : (batch fd L fuel s p).out with
      | next x =>
        rw [hout] at h
        dsimp only at h
        by_cases hlt : x.2 < L
        · rw [if_pos hlt] at h
          cases hx : loopHead fd L k fuel x.1 x.2 with
          | none => rw [hx] at h; simp at h
          | some y =>
            rw [hx] at h
            simp only [Option.map_some', Option.some.injEq, Prod.mk.injEq] at h
            obtain ⟨hpre, hrest⟩ := h
            have hy : y = (y.1, fuel1, s1, p1) := by
              rw [← hrest]
            rw [hy] at hx
            have := ih fuel x.1 x.2 y.1 fuel1 s1 p1 hx
            rw [regionLoop_succ, run_bind_next _ hout, if_pos hlt, this, ← hpre,
              List.append_assoc]
        · rw [if_neg hlt] at h
          simp at h
      | ret c => rw [hout] at h; simp at h
      | blocked => rw [hout] at h; simp at h
      | spin => rw [hout] at h; simp at h

theorem region_desync (fd : Sink) (L fuel : Nat) (s : List Byte) (k : Nat)
    (pre : List Event) (fuel1 : Nat) (s1 : List Byte) (p1 : Nat) (st : BatchState)
    (rest : List Byte)
    (hk : loopHead fd L k fuel s 0 = some (pre, fuel1 + 1, s1, p1))
    (hst : (frameLoop fd L fuel1 frameSlots ⟨s1, 0, p1⟩).out = .next st)
    (hin : st.input = statusDesync :: rest) :
    region fd L fuel s
      = ⟨.progress 0 :: (pre ++ ((frameLoop fd L fuel1 frameSlots ⟨s1, 0, p1⟩).trace
          ++ [.write (lowByte st.checksum), .read [statusDesync], .close])), .ret 68⟩ ∧
    4 ≤ (sinkBytes fd (frameLoop fd L fuel1 frameSlots ⟨s1, 0, p1⟩).trace).length := by
  have hb := batch_dispatch fd L fuel1 s1 p1 st statusDesync rest hst hin
  rw [if_neg (by decide)] at hb
  have hc : abortCode statusDesync = 68 := rfl
  rw [hc] at hb
  have hr : regionLoop fd L (fuel1 + 1) s1 p1
      = ⟨(frameLoop fd L fuel1 frameSlots ⟨s1, 0, p1⟩).trace
          ++ [.write (lowByte st.checksum), .read [statusDesync], .close], .ret 68⟩ := by
    rw [regionLoop_succ, run_bind_ret _ (by rw [hb]), hb]
  constructor
  · rw [region_eq, regionLoop_loopHead fd L k fuel s 0 pre (fuel1 + 1) s1 p1 hk, hr]
  · have e : frameSlots = 1599 + 1 := by decide
    rw [e] at hst ⊢
    exact (frameLoop_min fd L fuel1 1599 _ st hst).2

theorem loopHead_one (fd : Sink) (L fuel : Nat) (s : List Byte) (p : Nat) (rest : List Byte)
    (t : Nat) (h : (batch fd L fuel s p).out = .next (rest, t)) (ht : t < L) :
    loopHead fd L 1 (fuel + 1) s p = some ((batch fd L fuel s p).trace ++ [], fuel, rest, t) := by
  simp [loopHead, h, ht]

theorem batch_next_aligned (fd : Sink) (L fuel : Nat) (s : List Byte) (x : List Byte × Nat)
    (h : (batch fd L fuel s 0).out = .next x) : x.2 % 4 = 0 ∧ x.2 < 2 ^ 32 := by
  have hc := batch_counts fd L fuel s 0 0 rfl
  have h1 := hc.2 x h
  have h2 := tracks_length fd _ 0 hc.1
  dsimp only at h1
  rw [h1]
  unfold wrapU32
  omega

theorem batch_accepts_full (fd : Sink) (L fuel p : Nat) (init : List Frame) (last : Frame)
    (rest : List Byte) (hinit : ∀ f ∈ init, f.d4 ≠ 0) (hlast : last.d4 ≠ 0)
    (hlen : init.length = 1599) :
    ∃ t, (batch fd L fuel (frameBytes (init ++ [last]) ++ statusOk :: rest) p).out
      = .next (rest, t) := by
  have hfs : frameSlots = 1600 := by decide
  obtain ⟨st, h1, h2, _, _⟩ := frameLoop_falls_through fd L fuel init last (statusOk :: rest)
    frameSlots 0 p hinit (by rw [hfs, hlen]; decide) (Or.inr ⟨hlast, by rw [hfs, hlen]⟩)
  have hb := batch_dispatch fd L fuel _ p st statusOk rest h1 h2
  rw [if_pos rfl] at hb
  exact ⟨st.total_read, by rw [hb]⟩

/-- C11, amended: after an accepted handshake, whenever the device replies `'D'` to the
checksum of a batch of the primary region or of the vector region, whether it is the first
batch or comes after `k` accepted batches, `ram_dump` returns `'D'` (68) with the write of
the checksum byte, the read of `'D'` and `close` as its last events, so nothing more is read;
the region's file holds the bytes written during the accepted batches followed by the bytes
decoded from the rejected batch, at least 4, which are not taken back. -/
theorem desync_abort (cs : Bool) (baud : Int) (fuel : Nat) (input : List Byte)
    (tr1 : List Event) (neg : Negotiated) (in1 : List Byte)
    (h1 : handshake cs baud input = ⟨tr1, .next (neg, in1)⟩) :
    (∀ (k : Nat) (pre : List Event) (fuel1 : Nat) (s1 : List Byte) (p1 : Nat)
      (st : BatchState) (rest : List Byte),
      loopHead .dump_fd neg.read_length k fuel in1 0 = some (pre, fuel1 + 1, s1, p1) →
      (frameLoop .dump_fd neg.read_length fuel1 frameSlots ⟨s1, 0, p1⟩).out = .next st →
      st.input = statusDesync :: rest →
      ram_dump cs baud fuel (some input)
        = ⟨tr1 ++ .progress 0 :: (pre
            ++ ((frameLoop .dump_fd neg.read_length fuel1 frameSlots ⟨s1, 0, p1⟩).trace
              ++ [.write (lowByte st.checksum), .read [statusDesync], .close])), .ret 68⟩ ∧
      sinkBytes .dump_fd (ram_dump cs baud fuel (some input)).trace
        = sinkBytes .dump_fd pre
          ++ sinkBytes .dump_fd (frameLoop .dump_fd neg.read_length fuel1 frameSlots ⟨s1, 0, p1⟩).trace ∧
      4 ≤ (sinkBytes .dump_fd
        (frameLoop .dump_fd neg.read_length fuel1 frameSlots ⟨s1, 0, p1⟩).trace).length ∧
      sinkBytes .vectors_dump_fd (ram_dump cs baud fuel (some input)).trace = []) ∧
    (∀ (in2 : List Byte) (q2 k : Nat) (pre : List Event) (fuel1 : Nat) (s1 : List Byte)
      (p1 : Nat) (st : BatchState) (rest : List Byte),
      (region .dump_fd neg.read_length fuel in1).out = .next (in2, q2) →
      loopHead .vectors_dump_fd 0x2000 k fuel in2 0 = some (pre, fuel1 + 1, s1, p1) →
      (frameLoop .vectors_dump_fd 0x2000 fuel1 frameSlots ⟨s1, 0, p1⟩).out = .next st →
      st.input = statusDesync :: rest →
      ram_dump cs baud fuel (some input)
        = ⟨tr1 ++ ((region .dump_fd neg.read_length fuel in1).trace ++ .progress 0 :: (pre
            ++ ((frameLoop .vectors_dump_fd 0x2000 fuel1 frameSlots ⟨s1, 0, p1⟩).trace
              ++ [.write (lowByte st.checksum), .read [statusDesync], .close]))),
            .ret 68⟩ ∧
      sinkBytes .vectors_dump_fd (ram_dump cs baud fuel (some input)).trace
        = sinkBytes .vectors_dump_fd pre
          ++ sinkBytes .vectors_dump_fd
            (frameLoop .vectors_dump_fd 0x2000 fuel1 frameSlots ⟨s1, 0, p1⟩).trace ∧
      4 ≤ (sinkBytes .vectors_dump_fd
        (frameLoop .vectors_dump_fd 0x2000 fuel1 frameSlots ⟨s1, 0, p1⟩).trace).length ∧
      sinkBytes .dump_fd (ram_dump cs baud fuel (some input)).trace
        = sinkBytes .dump_fd (region .dump_fd neg.read_length fuel in1).trace) := by
  have hs1 := handshake_sinks_of_eq .dump_fd cs baud input tr1 _ h1
  have hs2 := handshake_sinks_of_eq .vectors_dump_fd cs baud input tr1 _ h1
  constructor
  · intro k pre fuel1 s1 p1 st rest hk hst hin
    obtain ⟨hr, h4⟩ := region_desync .dump_fd neg.read_length fuel in1 k pre fuel1 s1 p1 st
      rest hk hst hin
    have hd := ram_dump_primary_abort cs baud fuel input tr1 neg in1 68 h1 (by rw [hr])
    have ho := region_other .dump_fd .vectors_dump_fd neg.read_length fuel in1 (by decide)
    have e3 : sinkBytes .dump_fd
        [.write (lowByte st.checksum), .read [statusDesync], .close] = [] := rfl
    have hsr : sinkBytes .dump_fd (.progress 0 :: (pre
          ++ ((frameLoop .dump_fd neg.read_length fuel1 frameSlots ⟨s1, 0, p1⟩).trace
            ++ [.write (lowByte st.checksum), .read [statusDesync], .close])))
        = sinkBytes .dump_fd pre ++ sinkBytes .dump_fd
            (frameLoop .dump_fd neg.read_length fuel1 frameSlots ⟨s1, 0, p1⟩).trace := by
      rw [sinkBytes, sinkBytes_append, sinkBytes_append, e3, List.append_nil]
      intro fd1 bs h
      cases h
    refine ⟨by rw [hd, hr], ?_, h4, ?_⟩
    · rw [hd, hr]
      dsimp only
      rw [sinkBytes_append, hs1, List.nil_append, hsr]
    · rw [hd]
      simp only [sinkBytes_append, hs2, ho, List.nil_append]
  · intro in2 q2 k pre fuel1 s1 p1 st rest h2 hk hst hin
    obtain ⟨hr, h4⟩ := region_desync .vectors_dump_fd 0x2000 fuel in2 k pre fuel1 s1 p1 st
      rest hk hst hin
    have hd := ram_dump_vector_abort cs baud fuel input tr1 neg in1 in2 q2 68 h1 h2
      (by rw [hr])
    have ho := region_other .vectors_dump_fd .dump_fd 0x2000 fuel in2 (by decide)
    have ho1 := region_other .dump_fd .vectors_dump_fd neg.read_length fuel in1 (by decide)
    have e3 : sinkBytes .vectors_dump_fd
        [.write (lowByte st.checksum), .read [statusDesync], .close] = [] := rfl
    have hsr : sinkBytes .vectors_dump_fd (.progress 0 :: (pre
          ++ ((frameLoop .vectors_dump_fd 0x2000 fuel1 frameSlots ⟨s1, 0, p1⟩).trace
            ++ [.write (lowByte st.checksum), .read [statusDesync], .close])))
        = sinkBytes .vectors_dump_fd pre ++ sinkBytes .vectors_dump_fd
            (frameLoop .vectors_dump_fd 0x2000 fuel1 frameSlots ⟨s1, 0, p1⟩).trace := by
      rw [sinkBytes, sinkBytes_append, sinkBytes_append, e3, List.append_nil]
      intro fd1 bs h
      cases h
    refine ⟨by rw [hd, hr], ?_, h4, ?_⟩
    · rw [hd, hr]
      dsimp only
      rw [sinkBytes_append, sinkBytes_append, hs2, ho1, List.nil_append, List.nil_append, hsr]
    · rw [hd]
      simp only [sinkBytes_append, hs1, ho, List.nil_append, List.append_nil]

/-- Two sessions. In the first the handshake negotiates a length of 8 and the first primary
batch, the terminal frame `AA BB CC DD 00`, is answered by `'D'`. In the second the length is
0xFFFFFFFF, a first batch of 1600 frames `01 02 03 04 01` is accepted and the second batch,
1600 more such frames, is answered by `'D'`. Both return `'D'`. -/
theorem desync_abort_witness :
    (handshake true 0xab
        [0x11, 0, 0, 0, 0, 0, 0x54, 0x45, 0x53, 0x54, 0x44, 0x45, 0x56, 0, 0, 0, 0, 0, 0, 0, 0,
         0x77, 0, 0, 0, 0x30, 0x77, 8, 0, 0, 0, 0x77,
         0xAA, 0xBB, 0xCC, 0xDD, 0, 0x44]
      = ⟨[.write 0xab, .read [0x11], .speed 0, .write 0xab, .read [0], .read [0, 0, 0, 0],
      .read [0x54, 0x45, 0x53, 0x54, 0x44, 0x45, 0x56, 0, 0, 0, 0, 0, 0, 0, 0],
      .write 0x1F, .read [0x77], .read [0, 0, 0, 0x30], .write 0x30, .read [0x77],
      .read [8, 0, 0, 0], .write 8, .read [0x77]],
        .next (⟨0, [0x54, 0x45, 0x53, 0x54, 0x44, 0x45, 0x56, 0, 0, 0, 0, 0, 0, 0, 0], 0x30000000, 8⟩,
          [0xAA, 0xBB, 0xCC, 0xDD, 0, 0x44])⟩ ∧
      (ram_dump true 0xab 3 (some
        [0x11, 0, 0, 0, 0, 0, 0x54, 0x45, 0x53, 0x54, 0x44, 0x45, 0x56, 0, 0, 0, 0, 0, 0, 0, 0,
         0x77, 0, 0, 0, 0x30, 0x77, 8, 0, 0, 0, 0x77,
         0xAA, 0xBB, 0xCC, 0xDD, 0, 0x44])).out = .ret 68) ∧
    (ram_dump true 0xab 2 (some (handshakeWire 0 ⟨0, 0, 0, 0⟩
        [0x54, 0x45, 0x53, 0x54, 0x44, 0x45, 0x56, 0, 0, 0, 0, 0, 0, 0, 0]
        ⟨0, 0, 0, 0x30⟩ ⟨0xFF, 0xFF, 0xFF, 0xFF⟩
        ++ (frameBytes (List.replicate 1599 (⟨1, 2, 3, 4, 1⟩ : Frame) ++ [⟨1, 2, 3, 4, 1⟩])
          ++ statusOk ::
            (frameBytes (List.replicate 1599 (⟨1, 2, 3, 4, 1⟩ : Frame) ++ [⟨1, 2, 3, 4, 1⟩])
              ++ [statusDesync]))))).out = .ret 68 := by
  constructor
  · have h1 : handshake true 0xab
          [0x11, 0, 0, 0, 0, 0, 0x54, 0x45, 0x53, 0x54, 0x44, 0x45, 0x56, 0, 0, 0, 0, 0, 0, 0, 0,
         0x77, 0, 0, 0, 0x30, 0x77, 8, 0, 0, 0, 0x77,
         0xAA, 0xBB, 0xCC, 0xDD, 0, 0x44]
        = ⟨[.write 0xab, .read [0x11], .speed 0, .write 0xab, .read [0], .read [0, 0, 0, 0],
      .read [0x54, 0x45, 0x53, 0x54, 0x44, 0x45, 0x56, 0, 0, 0, 0, 0, 0, 0, 0],
      .write 0x1F, .read [0x77], .read [0, 0, 0, 0x30], .write 0x30, .read [0x77],
      .read [8, 0, 0, 0], .write 8, .read [0x77]],
          .next (⟨0, [0x54, 0x45, 0x53, 0x54, 0x44, 0x45, 0x56, 0, 0, 0, 0, 0, 0, 0, 0], 0x30000000, 8⟩,
            [0xAA, 0xBB, 0xCC, 0xDD, 0, 0x44])⟩ := by decide
    have h := ((desync_abort true 0xab 3 _ _ _ _ h1).1 0 [] 2
      [0xAA, 0xBB, 0xCC, 0xDD, 0, 0x44] 0 ⟨[0x44], 0x30E, 8⟩ [] rfl (by decide) rfl).1
    exact ⟨h1, by rw [h]⟩
  · have hf : ∀ f ∈ List.replicate 1599 (⟨1, 2, 3, 4, 1⟩ : Frame), f.d4 ≠ 0 :=
      fun f hf => (by rw [List.eq_of_mem_replicate hf]; decide)
    have hh := handshake_accepted true 0xab 0 ⟨0, 0, 0, 0⟩
      [0x54, 0x45, 0x53, 0x54, 0x44, 0x45, 0x56, 0, 0, 0, 0, 0, 0, 0, 0]
      ⟨0, 0, 0, 0x30⟩ ⟨0xFF, 0xFF, 0xFF, 0xFF⟩
      (frameBytes (List.replicate 1599 (⟨1, 2, 3, 4, 1⟩ : Frame) ++ [⟨1, 2, 3, 4, 1⟩])
        ++ statusOk ::
          (frameBytes (List.replicate 1599 (⟨1, 2, 3, 4, 1⟩ : Frame) ++ [⟨1, 2, 3, 4, 1⟩])
            ++ [statusDesync])) rfl
    have hl : Word.val ⟨0xFF, 0xFF, 0xFF, 0xFF⟩ = 0xFFFFFFFF := by decide
    obtain ⟨t, hb⟩ := batch_accepts_full .dump_fd 0xFFFFFFFF 1 0
      (List.replicate 1599 ⟨1, 2, 3, 4, 1⟩) ⟨1, 2, 3, 4, 1⟩
      (frameBytes (List.replicate 1599 (⟨1, 2, 3, 4, 1⟩ : Frame) ++ [⟨1, 2, 3, 4, 1⟩])
        ++ [statusDesync]) hf (by decide) (List.length_replicate 1599 _)
    have ht := batch_next_aligned _ _ _ _ _ hb
    have hk := loopHead_one .dump_fd 0xFFFFFFFF 1 _ 0 _ t hb (by dsimp only at ht; omega)
    obtain ⟨st, hst, hin, _, _⟩ := frameLoop_falls_through .dump_fd 0xFFFFFFFF 0
      (List.replicate 1599 ⟨1, 2, 3, 4, 1⟩) ⟨1, 2, 3, 4, 1⟩ [statusDesync] frameSlots 0 t hf
      (by rw [List.length_replicate]; decide)
      (Or.inr ⟨by decide, by rw [List.length_replicate]; decide⟩)
    rw [← hl] at hk hst
    have h := ((desync_abort true 0xab 2 _ _ _ _ hh).1 1 _ 0 _ t st [] hk hst hin).1
    rw [h]

end PNX
